import Mathlib

/-!
# Verification of the Release Mirror Synchronization Engine

A shallow embedding of `arch_release_promotion/files.py` (the sync engine of
arch-release-promotion) together with proofs about the claims of its
specification.

## Filesystem model

The engine works on a two-level directory tree: the sync directory contains one
subdirectory per release type, and each of those contains version directories
(whose own contents are only ever inspected by file name), sidecar files and at
most one `latest` symlink.  We model

* an entry of a release-type directory as `FsEntry`: a directory (a list of the
  file names it contains), a plain file (carrying `some release` when it is a
  JSON payload that deserializes into a `Release`, `none` otherwise), or a
  symbolic link to a name in the same directory;
* a release-type directory as `FsDir`, an association list name ↦ entry
  (file names in one directory are unique on a real filesystem; lookups take
  the first match, erasure removes all matches, so no well-formedness
  side-condition is needed);
* a two-level tree (the sync dir, an unpacked promotion bundle, an unpacked
  build bundle) as `FsTree`, an association list name ↦ `FsDir`.

`Path.exists`, `Path.is_dir` and `Path.is_file` follow symbolic links; this is
modelled by `resolveE`, which chases links with fuel (a link cycle makes the
real calls fail with `ELOOP`, which `Path.exists` reports as `False`; fuel
exhaustion models this).  Fallible operations return `Except String`.
-/

/-- The metric records carried inside a `Release` (release.py).  The sync
engine never interprets them; they only ride along in the payload. -/
structure AmountMetric where
  name : String
  description : String
  amount : Int
  deriving DecidableEq

structure SizeMetric where
  name : String
  description : String
  size : Int
  deriving DecidableEq

structure VersionMetric where
  name : String
  description : String
  version : String
  deriving DecidableEq

/-- The `Release` pydantic model of release.py: one release type's promoted
artifact set. -/
structure Release where
  name : String
  version : String
  files : List String
  amount_metrics : List AmountMetric
  size_metrics : List SizeMetric
  version_metrics : List VersionMetric
  torrent_file : Option String
  developer : String
  pgp_public_key : String
  deriving DecidableEq

/-- One directory entry: a directory (listing the names of the plain files it
contains), a plain file (with its parsed `Release` payload if it is a valid
JSON sidecar), or a symbolic link to a name in the same directory. -/
inductive FsEntry where
  | dir (files : List String)
  | file (payload : Option Release)
  | symlink (target : String)
  deriving DecidableEq

/-- A directory: association list of entry name ↦ entry. -/
abbrev FsDir := List (String × FsEntry)

/-- A two-level tree (sync dir / unpacked bundle): subdirectory name ↦ its
contents. -/
abbrev FsTree := List (String × FsDir)

/-- First entry with the given name, like a filesystem lookup. -/
def lookupD (d : FsDir) (n : String) : Option FsEntry :=
  (d.find? (fun p => p.1 = n)).map (fun p => p.2)

/-- Remove every entry carrying the given name (`unlink` / `rmtree`). -/
def eraseD (d : FsDir) (n : String) : FsDir :=
  d.filter (fun p => !(decide (p.1 = n)))

/-- Write an entry: replace the first entry of that name, else append
(`os.rename` and friends overwrite silently). -/
def setD : FsDir → String → FsEntry → FsDir
  | [], n, e => [(n, e)]
  | (m, e') :: d, n, e => if m = n then (n, e) :: d else (m, e') :: setD d n e

def lookupT (t : FsTree) (n : String) : Option FsDir :=
  (t.find? (fun p => p.1 = n)).map (fun p => p.2)

def setT : FsTree → String → FsDir → FsTree
  | [], n, d => [(n, d)]
  | (m, d') :: t, n, d => if m = n then (n, d) :: t else (m, d') :: setT t n d

/-- Chase symbolic links (at most `fuel` steps) down to a non-link entry,
returning the final entry's name and value. -/
def resolveE (d : FsDir) : Nat → String → Option (String × FsEntry)
  | 0, _ => none
  | Nat.succ fuel, n =>
    match lookupD d n with
    | some (FsEntry.symlink t) => resolveE d fuel t
    | some e => some (n, e)
    | none => none

/-- `Path.exists()`: the entry exists after following symbolic links. -/
def entryExistsD (d : FsDir) (n : String) : Bool :=
  (resolveE d (d.length + 1) n).isSome

/-- `Path.is_dir()`: resolves (following links) to a directory. -/
def isDirAt (d : FsDir) (n : String) : Bool :=
  match resolveE d (d.length + 1) n with
  | some (_, FsEntry.dir _) => true
  | _ => false

/-- `Path.is_file()`: resolves (following links) to a plain file. -/
def isFileAt (d : FsDir) (n : String) : Bool :=
  match resolveE d (d.length + 1) n with
  | some (_, FsEntry.file _) => true
  | _ => false

/-- `Path.is_symlink()`: the raw entry is a symbolic link (no following). -/
def isSymlinkAt (d : FsDir) (n : String) : Bool :=
  match lookupD d n with
  | some (FsEntry.symlink _) => true
  | _ => false

/-- `(dirName / f).exists()` for a file `f` inside a subdirectory `dirName` of
`d`: resolve `dirName` (following links); the file exists when the resolved
entry is a directory listing `f`. -/
def fileExistsInDirD (d : FsDir) (dirName f : String) : Bool :=
  match resolveE d (d.length + 1) dirName with
  | some (_, FsEntry.dir fs) => f ∈ fs
  | _ => false

/-- Prefix test on character lists (structural, so that concrete runs reduce
inside the kernel). -/
def listPre : List Char → List Char → Bool
  | [], _ => true
  | _ :: _, [] => false
  | a :: as, b :: bs => if a = b then listPre as bs else false

/-- Occurrence of `sub` at any position of `l`. -/
def listIn (sub : List Char) : List Char → Bool
  | [] => listPre sub []
  | c :: rest => listPre sub (c :: rest) || listIn sub rest

/-- Python's `sub in s` substring test (on code points, as in CPython). -/
def strIn (sub s : String) : Bool :=
  listIn sub.toList s.toList

/-- `str.startswith` on code points. -/
def strStartsWith (s pre : String) : Bool :=
  listPre pre.toList s.toList

/-- `str.endswith` on code points. -/
def strEndsWith (s post : String) : Bool :=
  listPre post.toList.reverse s.toList.reverse

/-- Python's `<=` on strings: lexicographic comparison of code points. -/
def strListLe : List Char → List Char → Bool
  | [], _ => true
  | _ :: _, [] => false
  | a :: as, b :: bs =>
    if a.toNat < b.toNat then true
    else if b.toNat < a.toNat then false
    else strListLe as bs

/-- Python's `a <= b` on strings. -/
def pyStrLe (a b : String) : Bool :=
  strListLe a.toList b.toList

/-- One insertion step of an ascending insertion sort under `pyStrLe`. -/
def insertSorted (x : String) : List String → List String
  | [] => [x]
  | y :: ys => if pyStrLe x y then x :: y :: ys else y :: insertSorted x ys

/-- An ascending sort under `pyStrLe`; same multiset as Python's
`sorted`, which is all `sorted(...)[-1]` needs. -/
def pySorted : List String → List String
  | [] => []
  | x :: xs => insertSorted x (pySorted xs)

/-- Python's `str.split(sep)` for a single-character separator: splits at every
occurrence, keeping empty fragments (`"a--b" ↦ ["a","","b"]`, `"" ↦ [""]`). -/
def pySplitChar (sep : Char) : List Char → List (List Char)
  | [] => [[]]
  | c :: rest =>
    if c = sep then [] :: pySplitChar sep rest
    else
      match pySplitChar sep rest with
      | [] => [[c]]
      | g :: gs => (c :: g) :: gs

/-- `name.split("-")` as a list of strings. -/
def pySplitOnDash (s : String) : List String :=
  (pySplitChar '-' s.toList).map (fun g => String.mk g)

/-- `pathlib.PurePath.suffix`: the extension from the last dot, empty when the
name has no dot, starts with its only dot, or ends in the dot. -/
def pySuffix (s : String) : String :=
  let cs := s.toList
  match cs.reverse.findIdx? (fun c => c = '.') with
  | none => ""
  | some ri =>
    let i := cs.length - 1 - ri
    if 0 < i ∧ i < cs.length - 1 then String.mk (cs.drop i) else ""

/-- files.py: `TEMP_DIR_PREFIX = "arp-"`. -/
def TEMP_DIR_PREFIX : String := "arp-"

/-- The Python error kinds that matter for `get_version_from_artifact_release_dir`:
its documented `RuntimeError` versus the undocumented `IndexError` escaping
from `path.name.split("-")[1]`. -/
inductive PyErr where
  | runtimeError (msg : String)
  | indexError
  deriving DecidableEq

/-- files.py `get_version_from_artifact_release_dir`: a path is summarized by
whether it is a directory and by its final name component.
`path.name.split("-")[1]` is `(name.splitOn "-")[1]`; a name without `-`
produces a one-element list and the subscript raises `IndexError`. -/
def get_version_from_artifact_release_dir (isDir : Bool) (name : String) :
    Except PyErr String :=
  if !isDir then
    Except.error (PyErr.runtimeError ("The path for the release is not a directory: " ++ name))
  else
    match (pySplitOnDash name).get? 1 with
    | none => Except.error PyErr.indexError
    | some version =>
      if version.length < 1 then
        Except.error (PyErr.runtimeError ("The extracted version string is not valid: " ++ version))
      else
        Except.ok version

/-- files.py `remove_temp_dir`: refuses a non-directory, refuses a directory
whose name does not contain `TEMP_DIR_PREFIX` (a substring test: the Python
code is `TEMP_DIR_PREFIX not in path.name`), and otherwise removes the tree
(`Except.ok ()` models the successful removal). -/
def remove_temp_dir (isDir : Bool) (name : String) : Except String Unit :=
  if !isDir then
    Except.error ("The path to remove is not a directory: " ++ name)
  else if !(strIn TEMP_DIR_PREFIX name) then
    Except.error ("Can not remove a temporary directory, that is not created by the same tool: " ++ name)
  else
    Except.ok ()

/-- files.py `copy_signatures`, restricted to the file-name level: every file
of the source directory whose `pathlib` suffix is `.sig` is copied into the
destination directory (`shutil.copy` overwrites, so a name already present is
kept once).  The is-a-directory checks on both paths are performed by the
caller model (`copy_release_type_promotion_artifacts_to_build_dir`). -/
def copy_signatures (srcFiles dstFiles : List String) : List String :=
  srcFiles.foldl
    (fun acc f => if pySuffix f = ".sig" then (if f ∈ acc then acc else acc ++ [f]) else acc)
    dstFiles

/-- `load_release_from_json_payload` applied to the entry at `n` of `d`:
`open` follows symbolic links; a directory raises `IsADirectoryError`, a
missing path `FileNotFoundError`, an unparsable payload a JSON error. -/
def loadReleaseAt (d : FsDir) (n : String) : Except String Release :=
  match resolveE d (d.length + 1) n with
  | some (_, FsEntry.file (some r)) => Except.ok r
  | some (_, FsEntry.file none) => Except.error ("invalid JSON payload: " ++ n)
  | some (_, FsEntry.dir _) => Except.error ("IsADirectoryError: " ++ n)
  | _ => Except.error ("FileNotFoundError: " ++ n)

/-- `{release_type}-{version}`, the version directory name. -/
def versionDirName (t v : String) : String := t ++ "-" ++ v

/-- `{release_type}-{version}.json`, the sidecar descriptor name. -/
def jsonFileName (t v : String) : String := t ++ "-" ++ v ++ ".json"

/-- `{release_type}-{version}.torrent`, the sidecar torrent name. -/
def torrentFileName (t v : String) : String := t ++ "-" ++ v ++ ".torrent"

/-- Equality of `Except` results is decidable; needed to evaluate concrete
runs of the engine. -/
instance {e a : Type} [DecidableEq e] [DecidableEq a] : DecidableEq (Except e a) := fun x y =>
  match x, y with
  | Except.ok u, Except.ok w =>
    if h : u = w then Decidable.isTrue (congrArg Except.ok h)
    else Decidable.isFalse (fun hh => h (Except.ok.inj hh))
  | Except.error u, Except.error w =>
    if h : u = w then Decidable.isTrue (congrArg Except.error h)
    else Decidable.isFalse (fun hh => h (Except.error.inj hh))
  | Except.ok _, Except.error _ => Decidable.isFalse (fun hh => Except.noConfusion hh)
  | Except.error _, Except.ok _ => Decidable.isFalse (fun hh => Except.noConfusion hh)

/-- Python truthiness of an `Optional[str]`: `None` and `""` are falsy. -/
def optTruthy : Option String → Bool
  | none => false
  | some s => !(decide (s = ""))

/-- config.py `ReleaseConfig`, restricted to the fields files.py reads
(`version_metrics`, `size_metrics`, `amount_metrics`, `extensions_to_sign`
only steer metric extraction and signing, which happen upstream of the sync
engine). -/
structure ReleaseConfig where
  name : String
  create_torrent : Bool
  deriving DecidableEq

/-- config.py `SyncConfig`.  The directory itself is the root of the modelled
`FsTree`, so only the remaining fields appear. -/
structure SyncConfig where
  backlog : Nat
  last_updated_file : Option String
  temp_in_sync_dir : Bool
  deriving DecidableEq

/-- config.py `ProjectConfig`, restricted to the fields files.py reads. -/
structure ProjectConfig where
  name : String
  job_name : String
  output_dir : String
  releases : List ReleaseConfig
  sync_config : SyncConfig

/-- gitlab.py `Upstream`, collapsed to the two downloads the Version Syncer
performs.  `download_promotion_artifact v` is the content of the promotion
bundle of version `v` after `extract_zip_file_to_parent_dir` (a tree
`release type name ↦ directory`), `download_release v` is the content of the
build bundle below `output_dir` after extraction; `none` models the download
raising because the artifact does not exist upstream. -/
structure Upstream where
  download_promotion_artifact : String → Option FsTree
  download_release : String → Option FsTree

namespace ProjectFiles

/-- files.py `ProjectFiles._is_release_type_synced`: `s` is the content of the
project's sync directory.  A missing sidecar is `ok false`; a sidecar that
exists but cannot be deserialized propagates the load error; a declared (and
non-empty: Python truthiness) torrent name missing from the release-type
directory is `ok false`; otherwise the result says whether every file listed
by the descriptor exists inside the version directory. -/
def is_release_type_synced (s : FsTree) (name version : String) : Except String Bool :=
  let d := (lookupT s name).getD []
  if entryExistsD d (jsonFileName name version) = false then Except.ok false
  else
    match loadReleaseAt d (jsonFileName name version) with
    | Except.error e => Except.error e
    | Except.ok release =>
      match release.torrent_file with
      | some tf =>
        if !(decide (tf = "")) && !(entryExistsD d tf) then Except.ok false
        else Except.ok (release.files.all (fun f => fileExistsInDirD d (versionDirName name version) f))
      | none => Except.ok (release.files.all (fun f => fileExistsInDirD d (versionDirName name version) f))

/-- The loop body of `_project_version_requires_sync`: the code first collects
`not is_synced` for every configured release type (no short-circuit) and then
takes `any` of the list. -/
def requiresGo (s : FsTree) (v : String) : List ReleaseConfig → Except String Bool
  | [] => Except.ok false
  | rel :: rest =>
    match is_release_type_synced s rel.name v with
    | Except.error e => Except.error e
    | Except.ok b =>
      match requiresGo s v rest with
      | Except.error e => Except.error e
      | Except.ok brest => Except.ok (!b || brest)

/-- files.py `ProjectFiles._project_version_requires_sync`. -/
def _project_version_requires_sync (cfg : ProjectConfig) (s : FsTree) (v : String) :
    Except String Bool :=
  requiresGo s v cfg.releases

end ProjectFiles

/-- `(tree / sub / n).exists()` for a two-level tree. -/
def existsPathT (tree : FsTree) (sub n : String) : Bool :=
  match lookupT tree sub with
  | none => false
  | some d => entryExistsD d n

/-- `(tree / sub / dirName / f).exists()` for a two-level tree. -/
def fileExistsPathT (tree : FsTree) (sub dirName f : String) : Bool :=
  match lookupT tree sub with
  | none => false
  | some d => fileExistsInDirD d dirName f

namespace ProjectFiles

/-- The per-file loop of `validate_release_type_files`: the first missing file
raises with a message naming its exact path. -/
def validateFilesGo (tree : FsTree) (n v : String) : List String → Except String Unit
  | [] => Except.ok ()
  | f :: fs =>
    if !(fileExistsPathT tree n (versionDirName n v) f) then
      Except.error ("The file '" ++ n ++ "/" ++ versionDirName n v ++ "/" ++ f ++ "' does not exist.")
    else validateFilesGo tree n v fs

/-- files.py `ProjectFiles.validate_release_type_files`: checks the sidecar
JSON, then — when a torrent is declared — the torrent under its *canonical*
name `{name}-{version}.torrent` (not under the descriptor's `torrent_file`
value), then every listed file; the first missing item raises naming its
path. -/
def validate_release_type_files (r : Release) (tree : FsTree) : Except String Unit :=
  if !(existsPathT tree r.name (jsonFileName r.name r.version)) then
    Except.error ("The file '" ++ r.name ++ "/" ++ jsonFileName r.name r.version ++ "' does not exist.")
  else if optTruthy r.torrent_file && !(existsPathT tree r.name (torrentFileName r.name r.version)) then
    Except.error ("The file '" ++ r.name ++ "/" ++ torrentFileName r.name r.version ++ "' does not exist.")
  else validateFilesGo tree r.name r.version r.files

end ProjectFiles

/-- `os.rename` (`Path.rename`) of `src[sn]` onto the path `dst[dn]`: a file
or symlink destination is silently replaced (rename does not follow the
destination path), a directory destination fails; renaming a directory onto
an existing non-directory path also fails. -/
def renameEntryD (src dst : FsDir) (sn dn : String) : Except String (FsDir × FsDir) :=
  match lookupD src sn with
  | none => Except.error ("FileNotFoundError: " ++ sn)
  | some e =>
    match lookupD dst dn with
    | some (FsEntry.dir _) => Except.error ("IsADirectoryError: " ++ dn)
    | some _ =>
      match e with
      | FsEntry.dir _ => Except.error ("NotADirectoryError: " ++ dn)
      | _ => Except.ok (eraseD src sn, setD dst dn e)
    | none => Except.ok (eraseD src sn, setD dst dn e)

/-- `shutil.move` of an entry `e` (basename `dn`, identical to the destination
name in every call site of files.py) onto the path `dst[dn]`: when the
destination resolves to a directory the source is moved *inside* it (failing
if the directory already contains that name); otherwise `os.rename`
semantics replace whatever raw entry occupies the path. -/
def shutilMoveInto (d : FsDir) (dn : String) (e : FsEntry) : Except String FsDir :=
  match lookupD d dn with
  | some (FsEntry.dir fs) =>
    if dn ∈ fs then Except.error ("Destination path already exists: " ++ dn)
    else Except.ok (setD d dn (FsEntry.dir (fs ++ [dn])))
  | some (FsEntry.symlink _) =>
    match resolveE d (d.length + 1) dn with
    | some (m, FsEntry.dir fs) =>
      if dn ∈ fs then Except.error ("Destination path already exists: " ++ dn)
      else Except.ok (setD d m (FsEntry.dir (fs ++ [dn])))
    | _ => Except.ok (setD d dn e)
  | _ => Except.ok (setD d dn e)

namespace ProjectFiles

/-- files.py `ProjectFiles.copy_release_type_promotion_artifacts_to_build_dir`:
`copy_signatures` from the promotion version directory into the build version
directory (both must be directories), then — when a torrent is declared —
`Path.rename` of the promotion torrent (under its *declared* name
`torrent_file`) into the build subdirectory, then `Path.rename` of the
sidecar JSON. -/
def copy_release_type_promotion_artifacts_to_build_dir (r : Release) (src dst : FsTree) :
    Except String (FsTree × FsTree) :=
  let vdir := versionDirName r.name r.version
  match lookupT src r.name with
  | none => Except.error "copy_signatures: the specified path is not a directory"
  | some sd =>
    match resolveE sd (sd.length + 1) vdir with
    | some (_, FsEntry.dir sfs) =>
      match lookupT dst r.name with
      | none => Except.error "copy_signatures: the specified path is not a directory"
      | some dd =>
        match resolveE dd (dd.length + 1) vdir with
        | some (dm, FsEntry.dir dfs) =>
          let dd1 := setD dd dm (FsEntry.dir (copy_signatures sfs dfs))
          let step2 : Except String (FsDir × FsDir) :=
            match r.torrent_file with
            | some tf =>
              if tf = "" then Except.ok (sd, dd1) else renameEntryD sd dd1 tf tf
            | none => Except.ok (sd, dd1)
          match step2 with
          | Except.error e => Except.error e
          | Except.ok (sd1, dd2) =>
            match renameEntryD sd1 dd2 (jsonFileName r.name r.version) (jsonFileName r.name r.version) with
            | Except.error e => Except.error e
            | Except.ok (sd2, dd3) => Except.ok (setT src r.name sd2, setT dst r.name dd3)
        | _ => Except.error "copy_signatures: the specified path is not a directory"
    | _ => Except.error "copy_signatures: the specified path is not a directory"

end ProjectFiles

/-- The "if the destination exists already, remove it first" step of
`move_release_type_to_sync_dir`: an existing directory is `rmtree`d (which
fails on a symlink-to-directory), any other existing entry is unlinked. -/
def removeDestDir (d : FsDir) (n : String) : Except String FsDir :=
  if entryExistsD d n then
    if isDirAt d n then
      match lookupD d n with
      | some (FsEntry.symlink _) => Except.error ("Cannot call rmtree on a symbolic link: " ++ n)
      | _ => Except.ok (eraseD d n)
    else Except.ok (eraseD d n)
  else Except.ok d

/-- The per-file `shutil.move` loop of `move_release_type_to_sync_dir`: each
listed file is moved out of the source version directory (resolved through
symlinks, as path traversal does) into the fresh destination directory whose
accumulated contents are `destFs`. -/
def moveFilesGo (vdir : String) (srcSub : FsDir) (destFs : List String) :
    List String → Except String (FsDir × List String)
  | [] => Except.ok (srcSub, destFs)
  | f :: fs =>
    match resolveE srcSub (srcSub.length + 1) vdir with
    | some (m, FsEntry.dir sfs) =>
      if f ∈ sfs then
        moveFilesGo vdir (setD srcSub m (FsEntry.dir (sfs.erase f)))
          (if f ∈ destFs then destFs else destFs ++ [f]) fs
      else Except.error ("FileNotFoundError: " ++ f)
    | _ => Except.error ("FileNotFoundError: " ++ f)

namespace ProjectFiles

/-- files.py `ProjectFiles.move_release_type_to_sync_dir`: create the
release-type directory if absent, remove any existing destination version
directory, `mkdir` the fresh one (failing on a leftover dangling symlink),
move every listed file into it, then move the torrent (canonical name, when
declared) and the sidecar JSON to the release-type directory root with
`shutil.move`.  A missing source subdirectory makes the move fail (at the
first file move, or at latest at the unconditional JSON move). -/
def move_release_type_to_sync_dir (r : Release) (source sync : FsTree) :
    Except String (FsTree × FsTree) :=
  let vdir := versionDirName r.name r.version
  let sync1 := match lookupT sync r.name with | some _ => sync | none => setT sync r.name []
  let base := (lookupT sync1 r.name).getD []
  match removeDestDir base vdir with
  | Except.error e => Except.error e
  | Except.ok base1 =>
    match lookupD base1 vdir with
    | some _ => Except.error ("FileExistsError: " ++ vdir)
    | none =>
      match lookupT source r.name with
      | none => Except.error ("FileNotFoundError: " ++ r.name)
      | some srcSub =>
        match moveFilesGo vdir srcSub [] r.files with
        | Except.error e => Except.error e
        | Except.ok (srcSub1, destFs) =>
          let base2 := setD base1 vdir (FsEntry.dir destFs)
          let torN := torrentFileName r.name r.version
          let step : Except String (FsDir × FsDir) :=
            if optTruthy r.torrent_file then
              match lookupD srcSub1 torN with
              | none => Except.error ("FileNotFoundError: " ++ torN)
              | some e =>
                match shutilMoveInto base2 torN e with
                | Except.error msg => Except.error msg
                | Except.ok base3 => Except.ok (eraseD srcSub1 torN, base3)
            else Except.ok (srcSub1, base2)
          match step with
          | Except.error e => Except.error e
          | Except.ok (srcSub2, base4) =>
            let jsonN := jsonFileName r.name r.version
            match lookupD srcSub2 jsonN with
            | none => Except.error ("FileNotFoundError: " ++ jsonN)
            | some je =>
              match shutilMoveInto base4 jsonN je with
              | Except.error msg => Except.error msg
              | Except.ok base5 =>
                Except.ok (setT source r.name (eraseD srcSub2 jsonN), setT sync1 r.name base5)

end ProjectFiles

/-- Load every `*.json`-named entry of one unpacked promotion-bundle
subdirectory (the entries matched by the glob pattern `*/*.json`). -/
def loadJsonsInDir (d : FsDir) : List String → Except String (List Release)
  | [] => Except.ok []
  | n :: ns =>
    match loadReleaseAt d n with
    | Except.error e => Except.error e
    | Except.ok r =>
      match loadJsonsInDir d ns with
      | Except.error e => Except.error e
      | Except.ok rs => Except.ok (r :: rs)

/-- The list comprehension
`[load_release_from_json_payload(p) for p in promotion_temp_dir.glob("*/*.json")]`:
all sidecars of the unpacked promotion bundle are deserialized up front,
before the per-release-type loop runs. -/
def globReleases : FsTree → Except String (List Release)
  | [] => Except.ok []
  | (_, d) :: rest =>
    match loadJsonsInDir d ((d.map Prod.fst).filter (fun n => strEndsWith n ".json")) with
    | Except.error e => Except.error e
    | Except.ok rs =>
      match globReleases rest with
      | Except.error e => Except.error e
      | Except.ok rs' => Except.ok (rs ++ rs')

namespace ProjectFiles

/-- The per-descriptor loop of `_sync_version`: copy promotion artifacts into
the build output, validate, move to the sync directory. -/
def processReleaseTypes : List Release → FsTree → FsTree → FsTree →
    Except String (FsTree × FsTree × FsTree)
  | [], promo, build, s => Except.ok (promo, build, s)
  | r :: rs, promo, build, s =>
    match copy_release_type_promotion_artifacts_to_build_dir r promo build with
    | Except.error e => Except.error e
    | Except.ok (promo1, build1) =>
      match validate_release_type_files r build1 with
      | Except.error e => Except.error e
      | Except.ok _ =>
        match move_release_type_to_sync_dir r build1 s with
        | Except.error e => Except.error e
        | Except.ok (build2, s1) => processReleaseTypes rs promo1 build2 s1

/-- files.py `ProjectFiles._sync_version`: download and unpack the promotion
bundle; if the version does not require a sync, report `false` without
touching the mirror; otherwise download and unpack the build bundle, process
every descriptor found in the promotion bundle, and report `true`. -/
def _sync_version (cfg : ProjectConfig) (up : Upstream) (s : FsTree) (v : String) :
    Except String (FsTree × Bool) :=
  match up.download_promotion_artifact v with
  | none => Except.error ("the promotion artifact of version " ++ v ++ " can not be downloaded")
  | some promo =>
    match _project_version_requires_sync cfg s v with
    | Except.error e => Except.error e
    | Except.ok req =>
      if req then
        match up.download_release v with
        | none => Except.error ("the build artifact of version " ++ v ++ " can not be downloaded")
        | some build =>
          match globReleases promo with
          | Except.error e => Except.error e
          | Except.ok rs =>
            match processReleaseTypes rs promo build s with
            | Except.error e => Except.error e
            | Except.ok (_, _, s1) => Except.ok (s1, true)
      else Except.ok (s, false)

end ProjectFiles

/-- `sorted(promoted_releases)[-1]`: the last element of the ascending sort,
i.e. the lexicographically greatest version string; `none` iff the list is
empty. -/
def latestVersion (l : List String) : Option String :=
  (pySorted l).getLast?

/-- `Path.readlink()` when the raw entry is a symbolic link. -/
def readlinkD (d : FsDir) (n : String) : Option String :=
  match lookupD d n with
  | some (FsEntry.symlink t) => some t
  | _ => none

/-- The per-release-type body of `_set_latest_version_symlink`: an existing
`latest` (existence follows the link) that is a symlink to the wrong target
or a plain file is unlinked, a plain directory is `rmtree`d; if afterwards
nothing exists at the path a fresh symlink is created — which raises
`FileExistsError` when a dangling symlink still occupies the path.  A missing
release-type directory makes `symlink_to` fail. -/
def setLatestForType (s : FsTree) (t : String) (latest_version : String) :
    Except String (FsTree × Bool) :=
  let target := versionDirName t latest_version
  match lookupT s t with
  | none => Except.error ("FileNotFoundError: " ++ t)
  | some d =>
    let d1 :=
      if entryExistsD d "latest" then
        let da :=
          if (isSymlinkAt d "latest" && !(decide (readlinkD d "latest" = some target)))
              || isFileAt d "latest" then
            eraseD d "latest"
          else d
        if !(isSymlinkAt da "latest") && isDirAt da "latest" then eraseD da "latest" else da
      else d
    if entryExistsD d1 "latest" then Except.ok (setT s t d1, false)
    else
      match lookupD d1 "latest" with
      | some _ => Except.error ("FileExistsError: " ++ t ++ "/latest")
      | none => Except.ok (setT s t (setD d1 "latest" (FsEntry.symlink target)), true)

namespace ProjectFiles

/-- The loop of `_set_latest_version_symlink` over the configured release
types, accumulating whether any pointer was created. -/
def setLatestGo (latest_version : String) : List ReleaseConfig → FsTree → Bool →
    Except String (FsTree × Bool)
  | [], s, st => Except.ok (s, st)
  | rel :: rest, s, st =>
    match setLatestForType s rel.name latest_version with
    | Except.error e => Except.error e
    | Except.ok (s1, b) => setLatestGo latest_version rest s1 (st || b)

/-- files.py `ProjectFiles._set_latest_version_symlink`: a no-op returning
`false` when the promoted-release list is empty, otherwise the per-type loop
with `sorted(promoted_releases)[-1]` as the latest version. -/
def _set_latest_version_symlink (cfg : ProjectConfig) (promoted : List String) (s : FsTree) :
    Except String (FsTree × Bool) :=
  match latestVersion promoted with
  | none => Except.ok (s, false)
  | some lv => setLatestGo lv cfg.releases s false

end ProjectFiles

/-- The expected directory names of one release type's mirror directory
(files.py accumulates `expected_dirs` across release types, but entries are
compared as full paths below each type's own directory, so membership is
exactly per-type). -/
def expectedDirNames (t : String) (promoted : List String) : List String :=
  "latest" :: promoted.map (fun v => versionDirName t v)

/-- The expected file names of one release type's mirror directory: one
`.json` and one `.torrent` name per retained version (the torrent name is
assumed even for release types without torrents). -/
def expectedFileNames (t : String) (promoted : List String) : List String :=
  promoted.map (fun v => jsonFileName t v) ++ promoted.map (fun v => torrentFileName t v)

/-- The `for file in release_type_dir.iterdir()` loop of
`_remove_obsolete_releases` over the snapshot of entry names: an unexpected
directory is `rmtree`d (failing on a symlink-to-directory), an unexpected
plain file is unlinked.  The code runs both `if`s in sequence (no `elif`),
but a removed entry is no longer a file, and no entry is both a directory
and a file, so the sequence is equivalent to this cascade. -/
def pruneGo (expD expF : List String) : List String → FsDir → Bool →
    Except String (FsDir × Bool)
  | [], d, st => Except.ok (d, st)
  | n :: ns, d, st =>
    match lookupD d n with
    | none => pruneGo expD expF ns d st
    | some e =>
      if isDirAt d n && !(decide (n ∈ expD)) then
        match e with
        | FsEntry.symlink _ => Except.error ("Cannot call rmtree on a symbolic link: " ++ n)
        | _ => pruneGo expD expF ns (eraseD d n) true
      else if isFileAt d n && !(decide (n ∈ expF)) then
        pruneGo expD expF ns (eraseD d n) true
      else pruneGo expD expF ns d st

/-- One release type's prune pass. -/
def pruneDirRun (t : String) (promoted : List String) (d : FsDir) :
    Except String (FsDir × Bool) :=
  pruneGo (expectedDirNames t promoted) (expectedFileNames t promoted) (d.map Prod.fst) d false

namespace ProjectFiles

/-- The loop of `_remove_obsolete_releases` over the configured release
types; `iterdir` on a missing release-type directory raises. -/
def removeObsoleteGo (promoted : List String) : List ReleaseConfig → FsTree → Bool →
    Except String (FsTree × Bool)
  | [], s, st => Except.ok (s, st)
  | rel :: rest, s, st =>
    match lookupT s rel.name with
    | none => Except.error ("FileNotFoundError: " ++ rel.name)
    | some d =>
      match pruneDirRun rel.name promoted d with
      | Except.error e => Except.error e
      | Except.ok (d1, b) => removeObsoleteGo promoted rest (setT s rel.name d1) (st || b)

/-- files.py `ProjectFiles._remove_obsolete_releases`. -/
def _remove_obsolete_releases (cfg : ProjectConfig) (promoted : List String) (s : FsTree) :
    Except String (FsTree × Bool) :=
  removeObsoleteGo promoted cfg.releases s false

/-- The per-version loop of `ProjectFiles.sync`, accumulating whether any
version introduced a change. -/
def syncVersionsGo (cfg : ProjectConfig) (up : Upstream) : List String → FsTree → Bool →
    Except String (FsTree × Bool)
  | [], s, ch => Except.ok (s, ch)
  | v :: vs, s, ch =>
    match _sync_version cfg up s v with
    | Except.error e => Except.error e
    | Except.ok (s1, b) => syncVersionsGo cfg up vs s1 (ch || b)

/-- files.py `ProjectFiles.sync`, one full synchronization pass over the
mirror tree `s0` with the promoted-release list obtained from upstream:
remove leftover `.tmp-` scratch directories from the sync directory, sync
every promoted version, set the latest symlinks, prune obsolete releases.
The returned `Bool` is `any(change_state)`, i.e. whether
`_set_last_update_file_timestamp` (the timestamp notifier) is invoked.  The
pass-private temporary directory is created and removed within the pass and
the constructor's `create_dir` concerns the tree root itself, so neither
appears in the model. -/
def sync (cfg : ProjectConfig) (up : Upstream) (promoted : List String) (s0 : FsTree) :
    Except String (FsTree × Bool) :=
  let s := s0.filter (fun p => !(strStartsWith p.1 ".tmp-"))
  match syncVersionsGo cfg up promoted s false with
  | Except.error e => Except.error e
  | Except.ok (s1, ch1) =>
    match _set_latest_version_symlink cfg promoted s1 with
    | Except.error e => Except.error e
    | Except.ok (s2, ch2) =>
      match _remove_obsolete_releases cfg promoted s2 with
      | Except.error e => Except.error e
      | Except.ok (s3, ch3) => Except.ok (s3, ch1 || ch2 || ch3)

end ProjectFiles

/-!
## Claim-level predicates and concrete instances

Definitions used by the claim statements, their witnesses and their
counterexamples.  `betweenFirstTwoDashes` is written from the specification's
words (the substring strictly between the first and the second `-`), to be
compared against `get_version_from_artifact_release_dir`.
-/

/-- Spec-side: the substring of `s` strictly between the first `-` and the
second `-` (up to the end when no second `-` exists). -/
def betweenFirstTwoDashes (s : String) : String :=
  String.mk ((((s.toList).dropWhile (fun c => !(decide (c = '-')))).drop 1).takeWhile
    (fun c => !(decide (c = '-'))))

/-- All names the Pruner retains in one release-type directory. -/
def expectedNames (t : String) (promoted : List String) : List String :=
  expectedDirNames t promoted ++ expectedFileNames t promoted

/-- A release-type directory all of whose entries are plain files or plain
directories matching the expected shape: anything at an expected directory
name is a directory, anything at an expected file name is a file. -/
def shapelyDir (t : String) (promoted : List String) (d : FsDir) : Prop :=
  ∀ n e, (n, e) ∈ d →
    ((∃ fs, e = FsEntry.dir fs) ∧ ¬(n ∈ expectedFileNames t promoted) ∨
     (∃ pay, e = FsEntry.file pay) ∧ ¬(n ∈ expectedDirNames t promoted))

/-- The `latest` pointer of `d` already is a symlink to `target` that does not
resolve to a plain file — exactly the configuration
`_set_latest_version_symlink` leaves untouched. -/
def latestPointerKept (d : FsDir) (target : String) : Bool :=
  decide (lookupD d "latest" = some (FsEntry.symlink target)) && !(isFileAt d "latest")

/-- A canonical single-release-type descriptor used by concrete runs. -/
def exRelease : Release :=
  { name := "foo", version := "1.0", files := ["a"], amount_metrics := [], size_metrics := [],
    version_metrics := [], torrent_file := some "foo-1.0.torrent", developer := "dev",
    pgp_public_key := "key" }

/-- A project configuration with the single release type `foo`. -/
def exCfg : ProjectConfig :=
  { name := "project", job_name := "build", output_dir := "output",
    releases := [{ name := "foo", create_torrent := true }],
    sync_config := { backlog := 3, last_updated_file := none, temp_in_sync_dir := true } }

/-- An upstream offering exactly version `1.0` with a complete promotion
bundle (descriptor, empty signature directory, torrent) and build bundle. -/
def exUp : Upstream :=
  { download_promotion_artifact := fun v =>
      if v = "1.0" then
        some [("foo", [("foo-1.0.json", FsEntry.file (some exRelease)),
                       ("foo-1.0", FsEntry.dir []),
                       ("foo-1.0.torrent", FsEntry.file none)])]
      else none
    download_release := fun v =>
      if v = "1.0" then some [("foo", [("foo-1.0", FsEntry.dir ["a"])])] else none }

/-- An upstream with no releases at all. -/
def exUpNone : Upstream :=
  { download_promotion_artifact := fun _ => none, download_release := fun _ => none }

/-- The mirror state `exUp`/`exCfg` produce from an empty mirror. -/
def exCleanTree : FsTree :=
  [("foo", [("foo-1.0", FsEntry.dir ["a"]),
            ("foo-1.0.torrent", FsEntry.file none),
            ("foo-1.0.json", FsEntry.file (some exRelease)),
            ("latest", FsEntry.symlink "foo-1.0")])]

/-- A mirror state in which a *directory* squats on the torrent sidecar path
`foo/foo-1.0.torrent`. -/
def exSquatTree : FsTree :=
  [("foo", [("foo-1.0.torrent", FsEntry.dir [])])]

/-- What one pass of the engine leaves behind on `exSquatTree`: the moved
torrent was swallowed by the squatting directory, which the Pruner then
deleted, so the torrent is gone and the version is incomplete again. -/
def exSquatAfter : FsTree :=
  [("foo", [("foo-1.0", FsEntry.dir ["a"]),
            ("foo-1.0.json", FsEntry.file (some exRelease)),
            ("latest", FsEntry.symlink "foo-1.0")])]

/-- What the *second* pass on `exSquatAfter` produces (a full re-sync,
reordering the entries it re-creates). -/
def exSquatAfter2 : FsTree :=
  [("foo", [("foo-1.0.json", FsEntry.file (some exRelease)),
            ("latest", FsEntry.symlink "foo-1.0"),
            ("foo-1.0", FsEntry.dir ["a"]),
            ("foo-1.0.torrent", FsEntry.file none)])]

/-- A release-type directory whose `latest` entry is a dangling symlink. -/
def exDanglingTree : FsTree :=
  [("foo", [("latest", FsEntry.symlink "nowhere")])]

/-- A release-type directory whose `latest` entry degraded into a plain
file. -/
def exLatestFileTree : FsTree :=
  [("foo", [("latest", FsEntry.file none)])]

/-- A release-type directory holding only an obsolete version directory. -/
def exObsoleteTree : FsTree :=
  [("foo", [("foo-0.9", FsEntry.dir [])])]

/-- A descriptor declaring a non-canonical torrent name. -/
def exReleaseOther : Release :=
  { exRelease with torrent_file := some "other.torrent" }

/-- A merged build-output tree containing the sidecar, the *declared* torrent
`other.torrent` and every listed file — but not the canonical
`foo-1.0.torrent` that `validate_release_type_files` actually checks. -/
def exTreeOther : FsTree :=
  [("foo", [("foo-1.0.json", FsEntry.file (some exReleaseOther)),
            ("other.torrent", FsEntry.file none),
            ("foo-1.0", FsEntry.dir ["a"])])]

/-- A merged build-output tree that satisfies `validate_release_type_files`
for `exRelease`. -/
def exValidTree : FsTree :=
  [("foo", [("foo-1.0.json", FsEntry.file (some exRelease)),
            ("foo-1.0.torrent", FsEntry.file none),
            ("foo-1.0", FsEntry.dir ["a"])])]

/-- A shapely (symlink-free, shape-correct) release-type state with one junk
file, used to witness the prune-exactness theorem. -/
def exShapelyTree : FsTree :=
  [("foo", [("latest", FsEntry.dir []),
            ("foo-1.0", FsEntry.dir ["a"]),
            ("foo-1.0.json", FsEntry.file none),
            ("junk", FsEntry.file none)])]

/-- A release-type directory holding nothing but a `latest` directory entry:
the only state the empty-promoted-set prune leaves untouched. -/
def exLatestOnlyTree : FsTree :=
  [("foo", [("latest", FsEntry.dir [])])]

/-- One entry of one release-type directory of a tree (`getD []` mirrors the
code's behaviour of probing paths below a possibly missing directory). -/
def lookupDT (s : FsTree) (t n : String) : Option FsEntry :=
  lookupD ((lookupT s t).getD []) n

/-- The shape `move_release_type_to_sync_dir` establishes for one release
type at one version, sufficient for `_is_release_type_synced` to report
`true`: a parseable sidecar whose descriptor has a non-empty file list and a
canonical torrent name, the torrent file present when declared, and a version
directory containing every listed file. -/
def SyncedNice (s : FsTree) (t v : String) : Prop :=
  ∃ r, lookupDT s t (jsonFileName t v) = some (FsEntry.file (some r)) ∧
    ¬ r.files = [] ∧
    (∀ tf, r.torrent_file = some tf → tf = torrentFileName t v ∧
      ∃ pay, lookupDT s t (torrentFileName t v) = some (FsEntry.file pay)) ∧
    ∃ fs, lookupDT s t (versionDirName t v) = some (FsEntry.dir fs) ∧ ∀ f ∈ r.files, f ∈ fs

/-- Tidiness of one release-type directory at one version: the three derived
entry names are only occupied by entries of the right kind (no symlinks, no
directory squatting on a sidecar path), and a sidecar payload is parseable
with a non-empty file list and a canonical torrent name. -/
def tidyAt (t v : String) (d : FsDir) : Prop :=
  (∀ e, lookupD d (versionDirName t v) = some e → ∃ fs, e = FsEntry.dir fs) ∧
  (∀ e, lookupD d (jsonFileName t v) = some e → ∃ r, e = FsEntry.file (some r) ∧
    ¬ r.files = [] ∧ (∀ tf, r.torrent_file = some tf → tf = torrentFileName t v)) ∧
  (∀ e, lookupD d (torrentFileName t v) = some e → ∃ pay, e = FsEntry.file pay)

/-- Tidiness of the whole mirror for every configured release type at every
promoted version. -/
def tidy (cfg : ProjectConfig) (promoted : List String) (s : FsTree) : Prop :=
  ∀ rel ∈ cfg.releases, ∀ d, lookupT s rel.name = some d → ∀ v ∈ promoted, tidyAt rel.name v d

/-- The promoted versions are pairwise distinct and no version arises from
another by appending a sidecar extension, so the derived entry names of
distinct versions never collide. -/
def versionsOK (promoted : List String) : Prop :=
  promoted.Nodup ∧ ∀ v ∈ promoted, ∀ w ∈ promoted,
    ¬ v = w ++ ".json" ∧ ¬ v = w ++ ".torrent"

/-- Well-formedness of the upstream bundles for every promoted version: the
promotion bundle downloads and its sidecars deserialize into one descriptor
per configured release type (with distinct names, all of them configured),
each carrying the version itself, a non-empty file list and a canonical
torrent name, and each present in the bundle as a plain sidecar file
(together with its torrent file when declared). -/
def upstreamOK (cfg : ProjectConfig) (promoted : List String) (up : Upstream) : Prop :=
  ∀ v ∈ promoted, ∃ promo rs,
    up.download_promotion_artifact v = some promo ∧
    globReleases promo = Except.ok rs ∧
    (∀ rel ∈ cfg.releases, ∃ r ∈ rs, r.name = rel.name) ∧
    (rs.map (fun r => r.name)).Nodup ∧
    (∀ r ∈ rs,
      r.version = v ∧
      (∃ rel ∈ cfg.releases, rel.name = r.name) ∧
      ¬ r.files = [] ∧
      (∀ tf, r.torrent_file = some tf → tf = torrentFileName r.name v) ∧
      (∃ pd, lookupT promo r.name = some pd ∧
        lookupD pd (jsonFileName r.name v) = some (FsEntry.file (some r)) ∧
        (∀ tf, r.torrent_file = some tf → ∃ pay, lookupD pd tf = some (FsEntry.file pay))))

/-!
## Helper lemmas
-/

theorem lookupD_nil (n : String) : lookupD [] n = none := rfl

theorem lookupD_cons (p : String × FsEntry) (d : FsDir) (n : String) :
    lookupD (p :: d) n = if p.1 = n then some p.2 else lookupD d n := by
  by_cases h : p.1 = n <;> simp [lookupD, List.find?_cons, h]

theorem lookupT_nil (n : String) : lookupT [] n = none := rfl

theorem lookupT_cons (p : String × FsDir) (t : FsTree) (n : String) :
    lookupT (p :: t) n = if p.1 = n then some p.2 else lookupT t n := by
  by_cases h : p.1 = n <;> simp [lookupT, List.find?_cons, h]

theorem lookupD_setD_self (d : FsDir) (n : String) (e : FsEntry) :
    lookupD (setD d n e) n = some e := by
  induction d with
  | nil => simp [setD, lookupD_cons]
  | cons p d ih =>
    by_cases h : p.1 = n
    · simp [setD, h, lookupD_cons]
    · simp [setD, h, lookupD_cons, ih]

theorem lookupD_setD_ne (d : FsDir) (n : String) (e : FsEntry) (m : String) (h : ¬ n = m) :
    lookupD (setD d n e) m = lookupD d m := by
  induction d with
  | nil => simp [setD, lookupD_cons, lookupD_nil, h]
  | cons p d ih =>
    by_cases hp : p.1 = n
    · have hm : ¬ p.1 = m := by rw [hp]; exact h
      simp [setD, hp, lookupD_cons, h, hm]
    · simp [setD, hp, lookupD_cons, ih]

theorem lookupD_eraseD_self (d : FsDir) (n : String) :
    lookupD (eraseD d n) n = none := by
  induction d with
  | nil => rfl
  | cons p d ih =>
    by_cases hp : p.1 = n
    · simpa [eraseD, hp] using ih
    · rw [show eraseD (p :: d) n = p :: eraseD d n by simp [eraseD, hp]]
      simpa [lookupD_cons, hp] using ih

theorem lookupD_eraseD_ne (d : FsDir) (n m : String) (h : ¬ n = m) :
    lookupD (eraseD d n) m = lookupD d m := by
  induction d with
  | nil => rfl
  | cons p d ih =>
    by_cases hp : p.1 = n
    · have hm : ¬ p.1 = m := by rw [hp]; exact h
      rw [show eraseD (p :: d) n = eraseD d n by simp [eraseD, hp]]
      simp [ih, lookupD_cons, hm]
    · rw [show eraseD (p :: d) n = p :: eraseD d n by simp [eraseD, hp]]
      simp only [lookupD_cons, ih]

theorem lookupT_setT_self (t : FsTree) (n : String) (d : FsDir) :
    lookupT (setT t n d) n = some d := by
  induction t with
  | nil => simp [setT, lookupT_cons]
  | cons p t ih =>
    by_cases h : p.1 = n
    · simp [setT, h, lookupT_cons]
    · simp [setT, h, lookupT_cons, ih]

theorem lookupT_setT_ne (t : FsTree) (n : String) (d : FsDir) (m : String) (h : ¬ n = m) :
    lookupT (setT t n d) m = lookupT t m := by
  induction t with
  | nil => simp [setT, lookupT_cons, lookupT_nil, h]
  | cons p t ih =>
    by_cases hp : p.1 = n
    · have hm : ¬ p.1 = m := by rw [hp]; exact h
      simp [setT, hp, lookupT_cons, h, hm]
    · simp [setT, hp, lookupT_cons, ih]

theorem resolveE_of_none (d : FsDir) (fuel : Nat) (n : String) (h : lookupD d n = none) :
    resolveE d fuel n = none := by
  cases fuel <;> simp [resolveE, h]

theorem resolveE_of_dir (d : FsDir) (fuel : Nat) (n : String) (fs : List String)
    (h : lookupD d n = some (FsEntry.dir fs)) :
    resolveE d (fuel + 1) n = some (n, FsEntry.dir fs) := by
  simp [resolveE, h]

theorem resolveE_of_file (d : FsDir) (fuel : Nat) (n : String) (pay : Option Release)
    (h : lookupD d n = some (FsEntry.file pay)) :
    resolveE d (fuel + 1) n = some (n, FsEntry.file pay) := by
  simp [resolveE, h]

theorem resolveE_of_symlink (d : FsDir) (fuel : Nat) (n tg : String)
    (h : lookupD d n = some (FsEntry.symlink tg)) :
    resolveE d (fuel + 1) n = resolveE d fuel tg := by
  simp [resolveE, h]

theorem entryExistsD_of_none (d : FsDir) (n : String) (h : lookupD d n = none) :
    entryExistsD d n = false := by
  simp [entryExistsD, resolveE_of_none d _ n h]

theorem entryExistsD_of_dir (d : FsDir) (n : String) (fs : List String)
    (h : lookupD d n = some (FsEntry.dir fs)) :
    entryExistsD d n = true := by
  simp [entryExistsD, resolveE_of_dir d _ n fs h]

theorem entryExistsD_of_file (d : FsDir) (n : String) (pay : Option Release)
    (h : lookupD d n = some (FsEntry.file pay)) :
    entryExistsD d n = true := by
  simp [entryExistsD, resolveE_of_file d _ n pay h]

theorem isDirAt_of_dir (d : FsDir) (n : String) (fs : List String)
    (h : lookupD d n = some (FsEntry.dir fs)) : isDirAt d n = true := by
  simp [isDirAt, resolveE_of_dir d _ n fs h]

theorem isDirAt_of_file (d : FsDir) (n : String) (pay : Option Release)
    (h : lookupD d n = some (FsEntry.file pay)) : isDirAt d n = false := by
  simp [isDirAt, resolveE_of_file d _ n pay h]

theorem isDirAt_of_none (d : FsDir) (n : String) (h : lookupD d n = none) :
    isDirAt d n = false := by
  simp [isDirAt, resolveE_of_none d _ n h]

theorem isFileAt_of_file (d : FsDir) (n : String) (pay : Option Release)
    (h : lookupD d n = some (FsEntry.file pay)) : isFileAt d n = true := by
  simp [isFileAt, resolveE_of_file d _ n pay h]

theorem isFileAt_of_dir (d : FsDir) (n : String) (fs : List String)
    (h : lookupD d n = some (FsEntry.dir fs)) : isFileAt d n = false := by
  simp [isFileAt, resolveE_of_dir d _ n fs h]

theorem isFileAt_of_none (d : FsDir) (n : String) (h : lookupD d n = none) :
    isFileAt d n = false := by
  simp [isFileAt, resolveE_of_none d _ n h]

theorem fileExistsInDirD_of_dir (d : FsDir) (dn f : String) (fs : List String)
    (h : lookupD d dn = some (FsEntry.dir fs)) :
    fileExistsInDirD d dn f = decide (f ∈ fs) := by
  simp [fileExistsInDirD, resolveE_of_dir d _ dn fs h]

theorem listIn_single (c : Char) (l : List Char) :
    listIn [c] l = l.any (fun x => decide (c = x)) := by
  induction l with
  | nil => rfl
  | cons x r ih =>
    by_cases h : c = x <;> simp [listIn, listPre, h, ih]

theorem strIn_dash_iff (name : String) :
    strIn "-" name = true ↔ '-' ∈ name.toList := by
  have hd : ("-" : String).toList = ['-'] := by decide
  rw [strIn, hd, listIn_single, List.any_eq_true]
  constructor
  · rintro ⟨x, hx, he⟩
    rw [of_decide_eq_true he]
    exact hx
  · intro hm
    exact ⟨'-', hm, by simp⟩

theorem pySplitChar_ne_nil (sep : Char) (cs : List Char) : pySplitChar sep cs ≠ [] := by
  induction cs with
  | nil => simp [pySplitChar]
  | cons c rest ih =>
    by_cases h : c = sep
    · simp [pySplitChar, h]
    · simp only [pySplitChar, if_neg h]
      cases hr : pySplitChar sep rest with
      | nil => exact absurd hr ih
      | cons g gs => simp

theorem pySplitChar_head (sep : Char) (cs : List Char) :
    (pySplitChar sep cs).head? = some (cs.takeWhile (fun c => !(decide (c = sep)))) := by
  induction cs with
  | nil => rfl
  | cons c rest ih =>
    by_cases h : c = sep
    · simp [pySplitChar, h, List.takeWhile]
    · simp only [pySplitChar, if_neg h]
      cases hr : pySplitChar sep rest with
      | nil => exact absurd hr (pySplitChar_ne_nil sep rest)
      | cons g gs =>
        rw [hr] at ih
        simp only [List.head?] at ih
        simp [List.takeWhile, h, Option.some.inj ih]

theorem pySplitChar_get1 (sep : Char) (cs : List Char) (h : sep ∈ cs) :
    (pySplitChar sep cs).get? 1 =
      some (((cs.dropWhile (fun c => !(decide (c = sep)))).drop 1).takeWhile
        (fun c => !(decide (c = sep)))) := by
  induction cs with
  | nil => cases h
  | cons c rest ih =>
    by_cases hc : c = sep
    · have h1 : (pySplitChar sep (c :: rest)).get? 1 = (pySplitChar sep rest).head? := by
        simp [pySplitChar, hc, List.get?]
        cases hr : pySplitChar sep rest with
        | nil => exact absurd hr (pySplitChar_ne_nil sep rest)
        | cons g gs => simp
      rw [h1, pySplitChar_head]
      simp [List.dropWhile, hc]
    · have hrest : sep ∈ rest := by
        cases h with
        | head => exact absurd rfl hc
        | tail _ hm => exact hm
      have h1 : (pySplitChar sep (c :: rest)).get? 1 = (pySplitChar sep rest).get? 1 := by
        simp only [pySplitChar, if_neg hc]
        cases hr : pySplitChar sep rest with
        | nil => exact absurd hr (pySplitChar_ne_nil sep rest)
        | cons g gs => simp [List.get?]
      rw [h1, ih hrest]
      simp [List.dropWhile, hc]

theorem pySplitChar_no_sep (sep : Char) (cs : List Char) (h : ¬ sep ∈ cs) :
    pySplitChar sep cs = [cs] := by
  induction cs with
  | nil => rfl
  | cons c rest ih =>
    have hc : ¬ c = sep := fun hh => h (hh ▸ List.mem_cons_self c rest)
    have hr : ¬ sep ∈ rest := fun hh => h (List.mem_cons_of_mem c hh)
    simp [pySplitChar, hc, ih hr]

theorem takeWhile_all {α : Type} (p : α → Bool) (l : List α) (h : ∀ a ∈ l, p a = true) :
    List.takeWhile p l = l := by
  induction l with
  | nil => rfl
  | cons x xs ih =>
    have hx : p x = true := h x (List.mem_cons_self x xs)
    simp [List.takeWhile_cons, hx, ih (fun a ha => h a (List.mem_cons_of_mem x ha))]

/-- C10: `get_version_from_artifact_release_dir` returns the substring of the
directory name strictly between the first and the second `-` separator, so it
yields the release version only when the release-type name itself contains no
`-` (for a name `t-v` with both halves dash-free it yields `v`); and for every
directory whose name contains no `-` at all it fails with an uncaught
`IndexError` rather than the `RuntimeError` its contract documents. -/
theorem claim_C10_get_version_spec :
    (∀ name : String, get_version_from_artifact_release_dir false name =
      Except.error (PyErr.runtimeError ("The path for the release is not a directory: " ++ name))) ∧
    (∀ name : String, strIn "-" name = false →
      get_version_from_artifact_release_dir true name = Except.error PyErr.indexError) ∧
    (∀ name : String, strIn "-" name = true → ¬ betweenFirstTwoDashes name = "" →
      get_version_from_artifact_release_dir true name = Except.ok (betweenFirstTwoDashes name)) ∧
    (∀ t v : String, strIn "-" t = false → strIn "-" v = false → ¬ v = "" →
      get_version_from_artifact_release_dir true (t ++ "-" ++ v) = Except.ok v) := by
  have hBetween : ∀ name : String, '-' ∈ name.toList → ¬ betweenFirstTwoDashes name = "" →
      get_version_from_artifact_release_dir true name = Except.ok (betweenFirstTwoDashes name) := by
    intro name hd hne
    have hsplit := pySplitChar_get1 '-' name.toList hd
    have hmap : (pySplitOnDash name).get? 1 = some (betweenFirstTwoDashes name) := by
      rw [pySplitOnDash, List.get?_map, hsplit]
      rfl
    rw [get_version_from_artifact_release_dir]
    simp only [Bool.not_true, Bool.false_eq_true, if_false, hmap]
    have hlen : ¬ (betweenFirstTwoDashes name).length < 1 := by
      intro hlt
      apply hne
      apply String.ext
      exact List.eq_nil_of_length_eq_zero (Nat.lt_one_iff.mp hlt)
    simp [hlen]
  have hdashfree : ∀ (s : String), strIn "-" s = false → ∀ a ∈ s.toList, (!(decide (a = '-'))) = true := by
    intro s hs a ha
    have : ¬ a = '-' := by
      intro hh
      have hmem : '-' ∈ s.toList := hh ▸ ha
      rw [(strIn_dash_iff s).mpr hmem] at hs
      cases hs
    simp [this]
  refine ⟨?_, ?_, ?_, ?_⟩
  · intro name
    rfl
  · intro name h
    have hnd : ¬ '-' ∈ name.toList := by
      intro hm
      rw [(strIn_dash_iff name).mpr hm] at h
      cases h
    have hnone : (pySplitOnDash name).get? 1 = none := by
      rw [pySplitOnDash, pySplitChar_no_sep '-' name.toList hnd]
      rfl
    rw [get_version_from_artifact_release_dir]
    simp only [Bool.not_true, Bool.false_eq_true, if_false, hnone]
  · intro name h hne
    exact hBetween name ((strIn_dash_iff name).mp h) hne
  · intro t v ht hv hne
    have h1 : (t ++ "-" ++ v).toList = t.toList ++ '-' :: v.toList := by
      show (t ++ "-" ++ v).data = t.data ++ ('-' :: v.data)
      rw [String.data_append, String.data_append, List.append_assoc]
      rfl
    have hbt : betweenFirstTwoDashes (t ++ "-" ++ v) = v := by
      rw [betweenFirstTwoDashes, h1]
      rw [List.dropWhile_append_of_pos (hdashfree t ht)]
      have hstep : List.dropWhile (fun c => !(decide (c = '-'))) ('-' :: v.toList) = '-' :: v.toList := by
        simp [List.dropWhile_cons]
      rw [hstep]
      simp only [List.drop_succ_cons, List.drop_zero]
      rw [takeWhile_all _ _ (hdashfree v hv)]
      show String.mk v.data = v
      cases v
      rfl
    have hd : '-' ∈ (t ++ "-" ++ v).toList := by
      rw [h1]
      exact List.mem_append_right _ (List.mem_cons_self _ _)
    have := hBetween (t ++ "-" ++ v) hd (by rw [hbt]; exact hne)
    rw [hbt] at this
    exact this

/-- Witness for C10 at concrete inputs: a dash-free name raises `IndexError`,
a clean `type-version` name yields the version, and a dashed release-type
name makes the function return a fragment of the type name instead of the
version. -/
theorem claim_C10_get_version_spec_witness :
    get_version_from_artifact_release_dir true "foo" = Except.error PyErr.indexError ∧
    get_version_from_artifact_release_dir true "foo-1.0" = Except.ok "1.0" ∧
    get_version_from_artifact_release_dir true "a-b-2.0" = Except.ok "b" :=
  ⟨claim_C10_get_version_spec.2.1 "foo" (by decide),
   claim_C10_get_version_spec.2.2.2 "foo" "1.0" (by decide) (by decide) (by decide),
   by rw [claim_C10_get_version_spec.2.2.1 "a-b-2.0" (by decide) (by decide)]; decide⟩

/-- C8 (amended): `remove_temp_dir` fails loudly on every non-directory and on
every directory whose name does not *contain* the marker `arp-`; it removes
the directory exactly when the path is a directory whose name contains the
marker anywhere — containment, not a prefix test. -/
theorem claim_C8_remove_temp_dir_amended (isDir : Bool) (name : String) :
    (remove_temp_dir isDir name = Except.ok () ↔
      isDir = true ∧ strIn TEMP_DIR_PREFIX name = true) ∧
    (isDir = false → remove_temp_dir isDir name =
      Except.error ("The path to remove is not a directory: " ++ name)) ∧
    (isDir = true → strIn TEMP_DIR_PREFIX name = false → remove_temp_dir isDir name =
      Except.error ("Can not remove a temporary directory, that is not created by the same tool: "
        ++ name)) := by
  cases isDir with
  | false => simp [remove_temp_dir]
  | true =>
    cases h : strIn TEMP_DIR_PREFIX name with
    | false => simp [remove_temp_dir, h]
    | true => simp [remove_temp_dir, h]

/-- Witness for C8 (amended) at concrete inputs. -/
theorem claim_C8_remove_temp_dir_amended_witness :
    remove_temp_dir false "zzz" = Except.error ("The path to remove is not a directory: " ++ "zzz") ∧
    remove_temp_dir true "arp-x" = Except.ok () :=
  ⟨(claim_C8_remove_temp_dir_amended false "zzz").2.1 rfl,
   (claim_C8_remove_temp_dir_amended true "arp-x").1.mpr ⟨rfl, by decide⟩⟩

/-- C8 counterexample: the directory name `xarp-y` does not *bear* the
reserved prefix (`startswith` is false), yet `remove_temp_dir` removes it
instead of failing loudly, because the code only tests substring
containment. -/
theorem claim_C8_remove_temp_dir_cex :
    remove_temp_dir true "xarp-y" = Except.ok () ∧
    strStartsWith "xarp-y" TEMP_DIR_PREFIX = false := by
  constructor
  · decide
  · decide

theorem loadReleaseAt_ok_exists (d : FsDir) (n : String) (r : Release)
    (h : loadReleaseAt d n = Except.ok r) : entryExistsD d n = true := by
  rw [loadReleaseAt] at h
  rw [entryExistsD]
  cases hres : resolveE d (d.length + 1) n with
  | none => rw [hres] at h; cases h
  | some p =>
    cases p with
    | mk m e => simp [hres]

theorem loadReleaseAt_ok_resolve (d : FsDir) (n : String) (r : Release)
    (h : loadReleaseAt d n = Except.ok r) :
    ∃ m, resolveE d (d.length + 1) n = some (m, FsEntry.file (some r)) := by
  rw [loadReleaseAt] at h
  cases hres : resolveE d (d.length + 1) n with
  | none => rw [hres] at h; cases h
  | some p =>
    obtain ⟨m, e⟩ := p
    rw [hres] at h
    cases e with
    | dir fs => cases h
    | symlink t => cases h
    | file pay =>
      cases pay with
      | none => cases h
      | some r' =>
        simp only [Except.ok.injEq] at h
        exact ⟨m, by rw [h]⟩

/-- C1: the Completeness Checker returns `false` when the sidecar
`{name}-{version}.json` is absent; otherwise, with the deserialized Release
Descriptor, it returns `false` when the descriptor declares a torrent file
absent from the release-type directory, `false` when a listed file is absent
from the `{name}-{version}` directory, and `true` exactly when sidecar,
declared torrent and every listed file are present. -/
theorem claim_C1_completeness_checker (s : FsTree) (name version : String) :
    (entryExistsD ((lookupT s name).getD []) (jsonFileName name version) = false →
      ProjectFiles.is_release_type_synced s name version = Except.ok false) ∧
    (∀ r, loadReleaseAt ((lookupT s name).getD []) (jsonFileName name version) = Except.ok r →
      ((ProjectFiles.is_release_type_synced s name version = Except.ok true ↔
        entryExistsD ((lookupT s name).getD []) (jsonFileName name version) = true ∧
        (∀ tf, r.torrent_file = some tf → ¬ tf = "" →
          entryExistsD ((lookupT s name).getD []) tf = true) ∧
        (∀ f ∈ r.files,
          fileExistsInDirD ((lookupT s name).getD []) (versionDirName name version) f = true)) ∧
       (ProjectFiles.is_release_type_synced s name version = Except.ok false ↔
        ¬((∀ tf, r.torrent_file = some tf → ¬ tf = "" →
            entryExistsD ((lookupT s name).getD []) tf = true) ∧
          (∀ f ∈ r.files,
            fileExistsInDirD ((lookupT s name).getD []) (versionDirName name version) f =
              true))))) := by
  constructor
  · intro h
    simp [ProjectFiles.is_release_type_synced, h]
  · intro r hr
    have hex := loadReleaseAt_ok_exists _ _ _ hr
    have key : ∃ b, ProjectFiles.is_release_type_synced s name version = Except.ok b ∧
        (b = true ↔
          (∀ tf, r.torrent_file = some tf → ¬ tf = "" →
            entryExistsD ((lookupT s name).getD []) tf = true) ∧
          (∀ f ∈ r.files,
            fileExistsInDirD ((lookupT s name).getD []) (versionDirName name version) f =
              true)) := by
      rw [ProjectFiles.is_release_type_synced]
      simp only [hex, Bool.true_eq_false, if_false, hr]
      cases htor : r.torrent_file with
      | none =>
        refine ⟨r.files.all
          (fun f => fileExistsInDirD ((lookupT s name).getD []) (versionDirName name version) f),
          rfl, ?_⟩
        simp [List.all_eq_true]
      | some tf =>
        by_cases hemp : tf = ""
        · refine ⟨r.files.all
            (fun f => fileExistsInDirD ((lookupT s name).getD []) (versionDirName name version) f),
            by simp [hemp], ?_⟩
          constructor
          · intro hall
            refine ⟨?_, by simpa [List.all_eq_true] using hall⟩
            intro tf' htf' hne
            have heq : tf = tf' := Option.some.inj htf'
            rw [← heq] at hne
            exact absurd hemp hne
          · intro ⟨_, hfiles⟩
            simp [List.all_eq_true]
            exact hfiles
        · cases hextf : entryExistsD ((lookupT s name).getD []) tf with
          | false =>
            refine ⟨false, by simp [hemp, hextf], ?_⟩
            constructor
            · intro h; cases h
            · intro ⟨htor', _⟩
              have := htor' tf rfl hemp
              rw [hextf] at this
              cases this
          | true =>
            refine ⟨r.files.all
              (fun f => fileExistsInDirD ((lookupT s name).getD [])
                (versionDirName name version) f),
              by simp [hextf], ?_⟩
            constructor
            · intro hall
              refine ⟨?_, by simpa [List.all_eq_true] using hall⟩
              intro tf' htf' _
              rw [← Option.some.inj htf']
              exact hextf
            · intro ⟨_, hfiles⟩
              simp [List.all_eq_true]
              exact hfiles
    obtain ⟨b, hb, hiff⟩ := key
    constructor
    · rw [hb]
      simp only [Except.ok.injEq]
      rw [hiff]
      constructor
      · intro hp
        exact ⟨hex, hp.1, hp.2⟩
      · intro hp
        exact ⟨hp.2.1, hp.2.2⟩
    · rw [hb]
      simp only [Except.ok.injEq]
      constructor
      · intro hfalse
        rw [← hiff]
        rw [hfalse]
        simp
      · intro hnp
        rw [← hiff] at hnp
        cases b with
        | false => rfl
        | true => exact absurd rfl hnp

/-- Witness for C1: on the fully synchronized concrete mirror the checker
reports `true`. -/
theorem claim_C1_completeness_checker_witness :
    ProjectFiles.is_release_type_synced exCleanTree "foo" "1.0" = Except.ok true := by
  have h := (claim_C1_completeness_checker exCleanTree "foo" "1.0").2 exRelease (by decide)
  refine h.1.mpr ⟨by decide, ?_, by decide⟩
  intro tf htf _
  have h2 : some "foo-1.0.torrent" = some tf := by rw [← htf]; rfl
  rw [← Option.some.inj h2]
  decide

theorem validateFilesGo_ok_iff (tree : FsTree) (n v : String) (files : List String) :
    ProjectFiles.validateFilesGo tree n v files = Except.ok () ↔
      ∀ f ∈ files, fileExistsPathT tree n (versionDirName n v) f = true := by
  induction files with
  | nil => simp [ProjectFiles.validateFilesGo]
  | cons f fs ih =>
    cases hb : fileExistsPathT tree n (versionDirName n v) f with
    | true => simp [ProjectFiles.validateFilesGo, hb, ih]
    | false =>
      rw [ProjectFiles.validateFilesGo]
      simp only [hb]
      constructor
      · intro hcontra
        simp at hcontra
      · intro hall
        have := hall f (List.mem_cons_self f fs)
        rw [hb] at this
        cases this

theorem validateFilesGo_error (tree : FsTree) (n v : String) (files : List String) (msg : String)
    (h : ProjectFiles.validateFilesGo tree n v files = Except.error msg) :
    ∃ f ∈ files,
      fileExistsPathT tree n (versionDirName n v) f = false ∧
      msg = "The file '" ++ n ++ "/" ++ versionDirName n v ++ "/" ++ f ++ "' does not exist." := by
  induction files with
  | nil => cases h
  | cons f fs ih =>
    rw [ProjectFiles.validateFilesGo] at h
    cases hb : fileExistsPathT tree n (versionDirName n v) f with
    | true =>
      rw [hb] at h
      simp only [Bool.not_true, Bool.false_eq_true, if_false] at h
      obtain ⟨g, hg, hfe, hm⟩ := ih h
      exact ⟨g, List.mem_cons_of_mem f hg, hfe, hm⟩
    | false =>
      rw [hb] at h
      simp only [Bool.not_false, if_true, Except.error.injEq] at h
      exact ⟨f, List.mem_cons_self f fs, hb, h.symm⟩

/-- C7 (amended): the Version Syncer's validation step succeeds exactly when
the sidecar JSON, the torrent under its *canonical* name
`{name}-{version}.torrent` (when a torrent is declared — not under the
descriptor's `torrent_file` value), and every listed file are present in the
merged build-output tree; every error names the exact missing path. -/
theorem claim_C7_validate_spec (r : Release) (tree : FsTree) :
    (ProjectFiles.validate_release_type_files r tree = Except.ok () ↔
      existsPathT tree r.name (jsonFileName r.name r.version) = true ∧
      (optTruthy r.torrent_file = true →
        existsPathT tree r.name (torrentFileName r.name r.version) = true) ∧
      (∀ f ∈ r.files,
        fileExistsPathT tree r.name (versionDirName r.name r.version) f = true)) ∧
    (∀ msg, ProjectFiles.validate_release_type_files r tree = Except.error msg →
      (existsPathT tree r.name (jsonFileName r.name r.version) = false ∧
        msg = "The file '" ++ r.name ++ "/" ++ jsonFileName r.name r.version
          ++ "' does not exist.") ∨
      (optTruthy r.torrent_file = true ∧
        existsPathT tree r.name (torrentFileName r.name r.version) = false ∧
        msg = "The file '" ++ r.name ++ "/" ++ torrentFileName r.name r.version
          ++ "' does not exist.") ∨
      (∃ f ∈ r.files,
        fileExistsPathT tree r.name (versionDirName r.name r.version) f = false ∧
        msg = "The file '" ++ r.name ++ "/" ++ versionDirName r.name r.version ++ "/" ++ f
          ++ "' does not exist.")) := by
  cases hjson : existsPathT tree r.name (jsonFileName r.name r.version) with
  | false =>
    rw [ProjectFiles.validate_release_type_files]
    simp only [hjson]
    constructor
    · simp
    · intro msg hmsg
      simp only [Bool.not_false, if_true, Except.error.injEq] at hmsg
      exact Or.inl ⟨trivial, hmsg.symm⟩
  | true =>
    cases htor : (optTruthy r.torrent_file &&
        !(existsPathT tree r.name (torrentFileName r.name r.version))) with
    | true =>
      rw [ProjectFiles.validate_release_type_files]
      simp only [hjson, htor, Bool.not_true, Bool.false_eq_true, if_false, Bool.not_false,
        if_true]
      have hpair : optTruthy r.torrent_file = true ∧
          existsPathT tree r.name (torrentFileName r.name r.version) = false := by
        simpa using htor
      have h1 := hpair.1
      have h2 := hpair.2
      constructor
      · constructor
        · intro hcontra; cases hcontra
        · intro ⟨_, himp, _⟩
          rw [himp h1] at h2
          cases h2

      · intro msg hmsg
        simp only [Except.error.injEq] at hmsg
        exact Or.inr (Or.inl ⟨h1, h2, hmsg.symm⟩)
    | false =>
      rw [ProjectFiles.validate_release_type_files]
      simp only [hjson, htor, Bool.not_true, Bool.false_eq_true, if_false]
      constructor
      · rw [validateFilesGo_ok_iff]
        constructor
        · intro hall
          refine ⟨trivial, ?_, hall⟩
          intro hdecl
          cases hp : existsPathT tree r.name (torrentFileName r.name r.version)
          · rw [hdecl, hp] at htor; cases htor
          · rfl
        · intro ⟨_, _, hall⟩
          exact hall
      · intro msg hmsg
        obtain ⟨f, hf, hfe, hm⟩ := validateFilesGo_error tree r.name r.version r.files msg hmsg
        exact Or.inr (Or.inr ⟨f, hf, hfe, hm⟩)

/-- Witness for C7 (amended): on a complete merged build-output tree
validation succeeds. -/
theorem claim_C7_validate_spec_witness :
    ProjectFiles.validate_release_type_files exRelease exValidTree = Except.ok () :=
  (claim_C7_validate_spec exRelease exValidTree).1.mpr
    ⟨by decide, fun _ => by decide, by decide⟩

/-- C7 counterexample: a descriptor declaring the torrent `other.torrent`,
with sidecar, `other.torrent` and every listed file present — yet validation
raises, because the code checks the canonical name `foo-1.0.torrent` instead
of the declared one. -/
theorem claim_C7_validate_cex :
    ProjectFiles.validate_release_type_files exReleaseOther exTreeOther =
      Except.error "The file 'foo/foo-1.0.torrent' does not exist." ∧
    existsPathT exTreeOther "foo" (jsonFileName "foo" "1.0") = true ∧
    existsPathT exTreeOther "foo" "other.torrent" = true ∧
    (∀ f ∈ exReleaseOther.files,
      fileExistsPathT exTreeOther "foo" (versionDirName "foo" "1.0") f = true) :=
  ⟨by decide, by decide, by decide, by decide⟩

theorem strListLe_refl (cs : List Char) : strListLe cs cs = true := by
  induction cs with
  | nil => rfl
  | cons a as ih => simp [strListLe, Nat.lt_irrefl, ih]

theorem strListLe_total (a b : List Char) :
    strListLe a b = true ∨ strListLe b a = true := by
  induction a generalizing b with
  | nil => exact Or.inl rfl
  | cons x xs ih =>
    cases b with
    | nil => exact Or.inr rfl
    | cons y ys =>
      rcases Nat.lt_trichotomy x.toNat y.toNat with hlt | heq | hgt
      · exact Or.inl (by simp [strListLe, hlt])
      · have hnlt : ¬ x.toNat < y.toNat := by omega
        have hnlt' : ¬ y.toNat < x.toNat := by omega
        rcases ih ys with h | h
        · exact Or.inl (by simp [strListLe, hnlt, hnlt', h])
        · exact Or.inr (by simp [strListLe, hnlt, hnlt', h])
      · exact Or.inr (by simp [strListLe, hgt])

theorem strListLe_trans (a b c : List Char) (hab : strListLe a b = true)
    (hbc : strListLe b c = true) : strListLe a c = true := by
  induction a generalizing b c with
  | nil => rfl
  | cons x xs ih =>
    cases b with
    | nil => cases hab
    | cons y ys =>
      cases c with
      | nil => cases hbc
      | cons z zs =>
        by_cases hxy : x.toNat < y.toNat
        · by_cases hyz : y.toNat < z.toNat
          · simp [strListLe, show x.toNat < z.toNat by omega]
          · by_cases hzy : z.toNat < y.toNat
            · rw [strListLe] at hbc
              simp [hyz, hzy] at hbc
            · simp [strListLe, show x.toNat < z.toNat by omega]
        · by_cases hyx : y.toNat < x.toNat
          · rw [strListLe] at hab
            simp [hxy, hyx] at hab
          · have hxeq : x.toNat = y.toNat := by omega
            rw [strListLe] at hab
            simp [hxy, hyx] at hab
            by_cases hyz : y.toNat < z.toNat
            · simp [strListLe, show x.toNat < z.toNat by omega]
            · by_cases hzy : z.toNat < y.toNat
              · rw [strListLe] at hbc
                simp [hyz, hzy] at hbc
              · rw [strListLe] at hbc
                simp [hyz, hzy] at hbc
                have h1 : ¬ x.toNat < z.toNat := by omega
                have h2 : ¬ z.toNat < x.toNat := by omega
                simp [strListLe, h1, h2, ih ys zs hab hbc]

theorem pyStrLe_refl (a : String) : pyStrLe a a = true := strListLe_refl a.toList

theorem pyStrLe_total (a b : String) : pyStrLe a b = true ∨ pyStrLe b a = true :=
  strListLe_total a.toList b.toList

theorem pyStrLe_trans (a b c : String) (hab : pyStrLe a b = true) (hbc : pyStrLe b c = true) :
    pyStrLe a c = true :=
  strListLe_trans a.toList b.toList c.toList hab hbc

theorem insertSorted_ne_nil (x : String) (l : List String) : ¬ insertSorted x l = [] := by
  cases l with
  | nil => simp [insertSorted]
  | cons y ys =>
    rw [insertSorted]
    split <;> simp

theorem mem_insertSorted (x y : String) (l : List String) :
    y ∈ insertSorted x l ↔ y = x ∨ y ∈ l := by
  induction l with
  | nil => simp [insertSorted]
  | cons z zs ih =>
    rw [insertSorted]
    split
    · simp
    · simp only [List.mem_cons, ih]
      tauto

theorem mem_pySorted (y : String) (l : List String) : y ∈ pySorted l ↔ y ∈ l := by
  induction l with
  | nil => simp [pySorted]
  | cons x xs ih => simp [pySorted, mem_insertSorted, ih]

theorem pairwise_insertSorted (x : String) (l : List String)
    (h : l.Pairwise (fun a b => pyStrLe a b = true)) :
    (insertSorted x l).Pairwise (fun a b => pyStrLe a b = true) := by
  induction l with
  | nil => simp [insertSorted]
  | cons y ys ih =>
    rw [insertSorted]
    split
    · rename_i hxy
      refine List.Pairwise.cons ?_ h
      intro z hz
      rcases List.mem_cons.mp hz with rfl | hz
      · exact hxy
      · exact pyStrLe_trans x y z hxy ((List.pairwise_cons.mp h).1 z hz)
    · rename_i hxy
      have hyx : pyStrLe y x = true := by
        rcases pyStrLe_total x y with hh | hh
        · exact absurd hh hxy
        · exact hh
      refine List.Pairwise.cons ?_ (ih (List.pairwise_cons.mp h).2)
      intro z hz
      rcases (mem_insertSorted x z ys).mp hz with rfl | hz
      · exact hyx
      · exact (List.pairwise_cons.mp h).1 z hz

theorem pairwise_pySorted (l : List String) :
    (pySorted l).Pairwise (fun a b => pyStrLe a b = true) := by
  induction l with
  | nil => simp [pySorted]
  | cons x xs ih => exact pairwise_insertSorted x (pySorted xs) ih

theorem getLast_max (l : List String) (h : l.Pairwise (fun a b => pyStrLe a b = true))
    (m : String) (hm : l.getLast? = some m) : ∀ x ∈ l, pyStrLe x m = true := by
  induction l with
  | nil => cases hm
  | cons x xs ih =>
    intro y hy
    cases xs with
    | nil =>
      simp only [List.getLast?_singleton] at hm
      rcases List.mem_singleton.mp hy with rfl
      rw [Option.some.inj hm]
      exact pyStrLe_refl m
    | cons z zs =>
      rw [List.getLast?_cons_cons] at hm
      rcases List.mem_cons.mp hy with rfl | hy
      · have hmem : m ∈ z :: zs := List.mem_of_getLast?_eq_some hm
        exact (List.pairwise_cons.mp h).1 m hmem
      · exact ih (List.pairwise_cons.mp h).2 hm y hy

theorem latestVersion_spec (l : List String) (m : String) (h : latestVersion l = some m) :
    m ∈ l ∧ ∀ x ∈ l, pyStrLe x m = true := by
  rw [latestVersion] at h
  constructor
  · exact (mem_pySorted m l).mp (List.mem_of_getLast?_eq_some h)
  · intro x hx
    exact getLast_max (pySorted l) (pairwise_pySorted l) m h x ((mem_pySorted x l).mpr hx)

theorem pySorted_ne_nil (l : List String) (h : ¬ l = []) : ¬ pySorted l = [] := by
  cases l with
  | nil => exact absurd rfl h
  | cons x xs => exact insertSorted_ne_nil x (pySorted xs)

theorem latestVersion_isSome (l : List String) (h : ¬ l = []) :
    ∃ m, latestVersion l = some m := by
  rw [latestVersion]
  cases hg : (pySorted l).getLast? with
  | some m => exact ⟨m, rfl⟩
  | none =>
    rw [List.getLast?_eq_none_iff] at hg
    exact absurd hg (pySorted_ne_nil l h)

/-- C9: when a release type's `latest` entry is a symbolic link whose target
does not exist, `_set_latest_version_symlink` with a non-empty promoted set
neither removes nor repairs it — the existence check follows the link and
reports the path as absent, so `symlink_to` raises `FileExistsError` instead
of replacing the stale link.  (Stated for the first configured release type,
which the loop reaches before any mutation.) -/
theorem claim_C9_dangling_latest (cfg : ProjectConfig) (promoted : List String) (s : FsTree)
    (rel : ReleaseConfig) (rest : List ReleaseConfig) (d : FsDir) (tgt : String)
    (hrel : cfg.releases = rel :: rest)
    (hd : lookupT s rel.name = some d)
    (hlink : lookupD d "latest" = some (FsEntry.symlink tgt))
    (hdangling : entryExistsD d "latest" = false)
    (hne : ¬ promoted = []) :
    ProjectFiles._set_latest_version_symlink cfg promoted s =
      Except.error ("FileExistsError: " ++ rel.name ++ "/latest") := by
  obtain ⟨m, hm⟩ := latestVersion_isSome promoted hne
  rw [ProjectFiles._set_latest_version_symlink, hm, hrel]
  simp only [ProjectFiles.setLatestGo]
  rw [setLatestForType, hd]
  simp [hdangling, hlink]

/-- Witness for C9 at a concrete dangling-symlink state. -/
theorem claim_C9_dangling_latest_witness :
    ProjectFiles._set_latest_version_symlink exCfg ["1.0"] exDanglingTree =
      Except.error ("FileExistsError: " ++ "foo" ++ "/latest") :=
  claim_C9_dangling_latest exCfg ["1.0"] exDanglingTree
    { name := "foo", create_torrent := true } [] [("latest", FsEntry.symlink "nowhere")]
    "nowhere" rfl (by decide) (by decide) (by decide) (by decide)

theorem isSymlinkAt_of_symlink (d : FsDir) (n tg : String)
    (h : lookupD d n = some (FsEntry.symlink tg)) : isSymlinkAt d n = true := by
  simp [isSymlinkAt, h]

theorem isSymlinkAt_of_file (d : FsDir) (n : String) (pay : Option Release)
    (h : lookupD d n = some (FsEntry.file pay)) : isSymlinkAt d n = false := by
  simp [isSymlinkAt, h]

theorem isSymlinkAt_of_dir (d : FsDir) (n : String) (fs : List String)
    (h : lookupD d n = some (FsEntry.dir fs)) : isSymlinkAt d n = false := by
  simp [isSymlinkAt, h]

theorem isSymlinkAt_of_none (d : FsDir) (n : String) (h : lookupD d n = none) :
    isSymlinkAt d n = false := by
  simp [isSymlinkAt, h]

theorem readlinkD_of_symlink (d : FsDir) (n tg : String)
    (h : lookupD d n = some (FsEntry.symlink tg)) : readlinkD d n = some tg := by
  simp [readlinkD, h]

theorem setLatestForType_spec (s : FsTree) (t lv : String) (d : FsDir)
    (hd : lookupT s t = some d)
    (hres : isSymlinkAt d "latest" = true → entryExistsD d "latest" = true) :
    ∃ d', setLatestForType s t lv =
        Except.ok (setT s t d', !(latestPointerKept d (versionDirName t lv))) ∧
      lookupD d' "latest" = some (FsEntry.symlink (versionDirName t lv)) ∧
      (∀ n, ¬ n = "latest" → lookupD d' n = lookupD d n) := by
  rw [setLatestForType, hd]
  cases hl : lookupD d "latest" with
  | none =>
    have hex := entryExistsD_of_none d "latest" hl
    refine ⟨setD d "latest" (FsEntry.symlink (versionDirName t lv)), ?_, ?_, ?_⟩
    · simp [hex, hl, latestPointerKept, isFileAt_of_none d "latest" hl]
    · exact lookupD_setD_self d "latest" _
    · intro n hn
      exact lookupD_setD_ne d "latest" _ n (fun hh => hn hh.symm)
  | some e =>
    cases e with
    | file pay =>
      have hex := entryExistsD_of_file d "latest" pay hl
      have hsym := isSymlinkAt_of_file d "latest" pay hl
      have hfile := isFileAt_of_file d "latest" pay hl
      have herase : lookupD (eraseD d "latest") "latest" = none := lookupD_eraseD_self d "latest"
      refine ⟨setD (eraseD d "latest") "latest" (FsEntry.symlink (versionDirName t lv)), ?_, ?_, ?_⟩
      · simp [hex, hsym, hfile, herase, entryExistsD_of_none _ _ herase,
          isSymlinkAt_of_none _ _ herase, isDirAt_of_none _ _ herase, latestPointerKept, hl]
      · exact lookupD_setD_self _ "latest" _
      · intro n hn
        rw [lookupD_setD_ne _ "latest" _ n (fun hh => hn hh.symm)]
        exact lookupD_eraseD_ne d "latest" n (fun hh => hn hh.symm)
    | dir fs =>
      have hex := entryExistsD_of_dir d "latest" fs hl
      have hsym := isSymlinkAt_of_dir d "latest" fs hl
      have hfile := isFileAt_of_dir d "latest" fs hl
      have hdir := isDirAt_of_dir d "latest" fs hl
      have herase : lookupD (eraseD d "latest") "latest" = none := lookupD_eraseD_self d "latest"
      refine ⟨setD (eraseD d "latest") "latest" (FsEntry.symlink (versionDirName t lv)), ?_, ?_, ?_⟩
      · simp [hex, hsym, hfile, hdir, herase, entryExistsD_of_none _ _ herase,
          isSymlinkAt_of_none _ _ herase, isDirAt_of_none _ _ herase, latestPointerKept, hl]
      · exact lookupD_setD_self _ "latest" _
      · intro n hn
        rw [lookupD_setD_ne _ "latest" _ n (fun hh => hn hh.symm)]
        exact lookupD_eraseD_ne d "latest" n (fun hh => hn hh.symm)
    | symlink tg =>
      have hsym := isSymlinkAt_of_symlink d "latest" tg hl
      have hex := hres hsym
      have hread := readlinkD_of_symlink d "latest" tg hl
      have herase : lookupD (eraseD d "latest") "latest" = none := lookupD_eraseD_self d "latest"
      by_cases htg : tg = versionDirName t lv
      · cases hfile : isFileAt d "latest" with
        | true =>
          refine ⟨setD (eraseD d "latest") "latest" (FsEntry.symlink (versionDirName t lv)),
            ?_, ?_, ?_⟩
          · simp [hex, hsym, hfile, hread, htg, herase, entryExistsD_of_none _ _ herase,
              isSymlinkAt_of_none _ _ herase, isDirAt_of_none _ _ herase, latestPointerKept, hl]
          · exact lookupD_setD_self _ "latest" _
          · intro n hn
            rw [lookupD_setD_ne _ "latest" _ n (fun hh => hn hh.symm)]
            exact lookupD_eraseD_ne d "latest" n (fun hh => hn hh.symm)
        | false =>
          refine ⟨d, ?_, ?_, ?_⟩
          · simp [hex, hsym, hfile, hread, htg, latestPointerKept, hl]
          · rw [hl, htg]
          · intro n _
            rfl
      · cases hfile : isFileAt d "latest" with
        | true =>
          refine ⟨setD (eraseD d "latest") "latest" (FsEntry.symlink (versionDirName t lv)),
            ?_, ?_, ?_⟩
          · simp [hex, hsym, hfile, hread, htg, herase, entryExistsD_of_none _ _ herase,
              isSymlinkAt_of_none _ _ herase, isDirAt_of_none _ _ herase, latestPointerKept, hl]
          · exact lookupD_setD_self _ "latest" _
          · intro n hn
            rw [lookupD_setD_ne _ "latest" _ n (fun hh => hn hh.symm)]
            exact lookupD_eraseD_ne d "latest" n (fun hh => hn hh.symm)
        | false =>
          refine ⟨setD (eraseD d "latest") "latest" (FsEntry.symlink (versionDirName t lv)),
            ?_, ?_, ?_⟩
          · simp [hex, hsym, hfile, hread, htg, herase, entryExistsD_of_none _ _ herase,
              isSymlinkAt_of_none _ _ herase, isDirAt_of_none _ _ herase, latestPointerKept, hl]
          · exact lookupD_setD_self _ "latest" _
          · intro n hn
            rw [lookupD_setD_ne _ "latest" _ n (fun hh => hn hh.symm)]
            exact lookupD_eraseD_ne d "latest" n (fun hh => hn hh.symm)

theorem setLatestGo_spec (lv : String) (rels : List ReleaseConfig) :
    ∀ (s : FsTree) (st : Bool),
    (∀ rel ∈ rels, ∃ d, lookupT s rel.name = some d ∧
      (isSymlinkAt d "latest" = true → entryExistsD d "latest" = true)) →
    (rels.map (fun rel => rel.name)).Nodup →
    ∃ s' b, ProjectFiles.setLatestGo lv rels s st = Except.ok (s', b) ∧
      (∀ rel ∈ rels, ∃ d', lookupT s' rel.name = some d' ∧
        lookupD d' "latest" = some (FsEntry.symlink (versionDirName rel.name lv))) ∧
      (∀ n, (∀ rel ∈ rels, ¬ rel.name = n) → lookupT s' n = lookupT s n) ∧
      (b = true ↔ st = true ∨ ∃ rel ∈ rels, ∃ d, lookupT s rel.name = some d ∧
        latestPointerKept d (versionDirName rel.name lv) = false) := by
  induction rels with
  | nil =>
    intro s st _ _
    refine ⟨s, st, rfl, by simp, fun n _ => rfl, by simp⟩
  | cons rel rest ih =>
    intro s st hdirs hnodup
    obtain ⟨d, hd, hres⟩ := hdirs rel (List.mem_cons_self rel rest)
    obtain ⟨d', hstep, hlink, hframe⟩ := setLatestForType_spec s rel.name lv d hd hres
    have hnotin : ∀ rel' ∈ rest, ¬ rel'.name = rel.name := by
      intro rel' hrel' heq
      have hm : rel'.name ∈ rest.map (fun r => r.name) :=
        List.mem_map_of_mem (fun r => r.name) hrel'
      rw [heq] at hm
      exact (List.nodup_cons.mp hnodup).1 hm
    have hrest : ∀ rel' ∈ rest, ∃ dd, lookupT (setT s rel.name d') rel'.name = some dd ∧
        (isSymlinkAt dd "latest" = true → entryExistsD dd "latest" = true) := by
      intro rel' hrel'
      obtain ⟨dd, hdd, hr⟩ := hdirs rel' (List.mem_cons_of_mem rel hrel')
      exact ⟨dd, by rw [lookupT_setT_ne s rel.name d' rel'.name
        (fun hh => hnotin rel' hrel' hh.symm)]; exact hdd, hr⟩
    obtain ⟨s', b, hgo, hpost, hframe', hbiff⟩ :=
      ih (setT s rel.name d') (st || !(latestPointerKept d (versionDirName rel.name lv)))
        hrest (List.nodup_cons.mp hnodup).2
    refine ⟨s', b, ?_, ?_, ?_, ?_⟩
    · simp only [ProjectFiles.setLatestGo, hstep]
      exact hgo
    · intro rel' hrel'
      rcases List.mem_cons.mp hrel' with rfl | hmem
      · refine ⟨d', ?_, hlink⟩
        rw [hframe' rel'.name (fun r hr heq => hnotin r hr heq)]
        exact lookupT_setT_self s rel'.name d'
      · exact hpost rel' hmem
    · intro n hn
      rw [hframe' n (fun r hr => hn r (List.mem_cons_of_mem rel hr))]
      exact lookupT_setT_ne s rel.name d' n
        (fun hh => hn rel (List.mem_cons_self rel rest) hh)
    · rw [hbiff]
      constructor
      · rintro (hst | ⟨rel', hrel', dd, hdd, hkept⟩)
        · rcases Bool.or_eq_true_iff.mp hst with hst' | hch
          · exact Or.inl hst'
          · refine Or.inr ⟨rel, List.mem_cons_self rel rest, d, hd, ?_⟩
            cases hk : latestPointerKept d (versionDirName rel.name lv)
            · rfl
            · rw [hk] at hch; cases hch
        · refine Or.inr ⟨rel', List.mem_cons_of_mem rel hrel', dd, ?_, hkept⟩
          rw [← hdd]
          exact (lookupT_setT_ne s rel.name d' rel'.name
            (fun hh => hnotin rel' hrel' hh.symm)).symm
      · rintro (hst | ⟨rel', hrel', dd, hdd, hkept⟩)
        · exact Or.inl (by rw [hst]; rfl)
        · rcases List.mem_cons.mp hrel' with rfl | hmem
          · rw [hd] at hdd
            rw [← Option.some.inj hdd] at hkept
            exact Or.inl (by rw [hkept]; simp)
          · refine Or.inr ⟨rel', hmem, dd, ?_, hkept⟩
            rw [lookupT_setT_ne s rel.name d' rel'.name
              (fun hh => hnotin rel' hmem hh.symm)]
            exact hdd

/-- C5 (amended): with a non-empty Promoted Release Set, and provided each
configured release-type directory exists and its `latest` entry — if a
symbolic link — is not dangling, `setLatestPointer` succeeds, every `latest`
entry afterwards is a symlink to `{type}-{v}` for the lexicographically
greatest `v` of the set, and it returns `true` iff some pointer was created or
replaced (i.e. some `latest` was not already a correct symlink resolving to a
non-file); with an empty set nothing is touched.  (A dangling pre-existing
`latest` symlink instead aborts with `FileExistsError` — see the
counterexample.) -/
theorem claim_C5_latest_pointer (cfg : ProjectConfig) (promoted : List String) (s : FsTree)
    (hnodup : (cfg.releases.map (fun rel => rel.name)).Nodup) :
    (promoted = [] →
      ProjectFiles._set_latest_version_symlink cfg promoted s = Except.ok (s, false)) ∧
    (¬ promoted = [] →
      (∀ rel ∈ cfg.releases, ∃ d, lookupT s rel.name = some d ∧
        (isSymlinkAt d "latest" = true → entryExistsD d "latest" = true)) →
      ∃ maxv s' b, latestVersion promoted = some maxv ∧ maxv ∈ promoted ∧
        (∀ x ∈ promoted, pyStrLe x maxv = true) ∧
        ProjectFiles._set_latest_version_symlink cfg promoted s = Except.ok (s', b) ∧
        (∀ rel ∈ cfg.releases, ∃ d', lookupT s' rel.name = some d' ∧
          lookupD d' "latest" = some (FsEntry.symlink (versionDirName rel.name maxv))) ∧
        (b = true ↔ ∃ rel ∈ cfg.releases, ∃ d, lookupT s rel.name = some d ∧
          latestPointerKept d (versionDirName rel.name maxv) = false)) := by
  constructor
  · intro hempty
    rw [hempty]
    rfl
  · intro hne hdirs
    obtain ⟨maxv, hmax⟩ := latestVersion_isSome promoted hne
    obtain ⟨hmem, hgreatest⟩ := latestVersion_spec promoted maxv hmax
    obtain ⟨s', b, hgo, hpost, _, hbiff⟩ := setLatestGo_spec maxv cfg.releases s false hdirs hnodup
    refine ⟨maxv, s', b, hmax, hmem, hgreatest, ?_, hpost, ?_⟩
    · rw [ProjectFiles._set_latest_version_symlink, hmax]
      exact hgo
    · rw [hbiff]
      simp

/-- Witness for C5 (amended) at concrete states: the empty set leaves the
mirror alone, and on the already-pointed mirror the pointer step reports no
change. -/
theorem claim_C5_latest_pointer_witness :
    ProjectFiles._set_latest_version_symlink exCfg [] exCleanTree =
      Except.ok (exCleanTree, false) ∧
    ∃ maxv s' b, latestVersion ["1.0"] = some maxv ∧ maxv ∈ ["1.0"] ∧
      (∀ x ∈ ["1.0"], pyStrLe x maxv = true) ∧
      ProjectFiles._set_latest_version_symlink exCfg ["1.0"] exCleanTree =
        Except.ok (s', b) ∧
      (∀ rel ∈ exCfg.releases, ∃ d', lookupT s' rel.name = some d' ∧
        lookupD d' "latest" = some (FsEntry.symlink (versionDirName rel.name maxv))) ∧
      (b = true ↔ ∃ rel ∈ exCfg.releases, ∃ d, lookupT exCleanTree rel.name = some d ∧
        latestPointerKept d (versionDirName rel.name maxv) = false) := by
  constructor
  · exact (claim_C5_latest_pointer exCfg [] exCleanTree (by decide)).1 rfl
  · refine (claim_C5_latest_pointer exCfg ["1.0"] exCleanTree (by decide)).2 (by decide) ?_
    intro rel hrel
    rcases List.mem_singleton.mp hrel with rfl
    exact ⟨[("foo-1.0", FsEntry.dir ["a"]),
            ("foo-1.0.torrent", FsEntry.file none),
            ("foo-1.0.json", FsEntry.file (some exRelease)),
            ("latest", FsEntry.symlink "foo-1.0")], by decide, fun _ => by decide⟩

/-- C5 counterexample: a dangling `latest` symlink makes `setLatestPointer`
raise `FileExistsError` instead of replacing the stale entry, so no
post-state with a correct pointer exists. -/
theorem claim_C5_latest_pointer_cex :
    ProjectFiles._set_latest_version_symlink exCfg ["1.0"] exDanglingTree =
      Except.error "FileExistsError: foo/latest" := by
  decide

theorem lookupD_isSome_of_mem (d : FsDir) (p : String × FsEntry) (h : p ∈ d) :
    (lookupD d p.1).isSome = true := by
  rw [lookupD]
  cases hf : d.find? (fun q => decide (q.1 = p.1)) with
  | some q => simp
  | none =>
    rw [List.find?_eq_none] at hf
    exact absurd (by simp : decide (p.1 = p.1) = true) (by simpa using hf p h)

theorem lookupD_none_of_not_mem (d : FsDir) (n : String)
    (h : ∀ p ∈ d, ¬ p.1 = n) : lookupD d n = none := by
  rw [lookupD]
  rw [List.find?_eq_none.mpr (by simpa using h)]
  rfl

theorem mem_of_lookupD_eq_some (d : FsDir) (n : String) (e : FsEntry)
    (h : lookupD d n = some e) : (n, e) ∈ d := by
  rw [lookupD] at h
  cases hf : d.find? (fun q => decide (q.1 = n)) with
  | none => rw [hf] at h; cases h
  | some q =>
    rw [hf] at h
    have hmem := List.mem_of_find?_eq_some hf
    have hpred := List.find?_some hf
    simp only [decide_eq_true_eq] at hpred
    simp only [Option.map_some'] at h
    have hb := Option.some.inj h
    have hq : q = (n, e) := by
      cases q with
      | mk a b =>
        simp only at hpred hb
        rw [hpred, hb]
    rw [← hq]
    exact hmem

theorem pruneGo_shapely (expD expF : List String) : ∀ (ns : List String) (cur : FsDir) (st : Bool),
    (∀ n e, (n, e) ∈ cur →
      ((∃ fs, e = FsEntry.dir fs) ∧ ¬ n ∈ expF ∨ (∃ pay, e = FsEntry.file pay) ∧ ¬ n ∈ expD)) →
    pruneGo expD expF ns cur st =
      Except.ok
        (cur.filter (fun p =>
          !(decide (p.1 ∈ ns)) || decide (p.1 ∈ expD) || decide (p.1 ∈ expF)),
         st || ns.any (fun n =>
          (lookupD cur n).isSome && !(decide (n ∈ expD) || decide (n ∈ expF)))) := by
  intro ns
  induction ns with
  | nil =>
    intro cur st _
    simp only [pruneGo, List.any_nil, Bool.or_false]
    congr 1
    congr 1
    rw [List.filter_eq_self.mpr]
    intro p _
    simp
  | cons n ns ih =>
    intro cur st hshape
    cases hlook : lookupD cur n with
    | none =>
      simp only [pruneGo, hlook]
      rw [ih cur st hshape]
      have hnotmem : ∀ p ∈ cur, ¬ p.1 = n := by
        intro p hp hpn
        have := lookupD_isSome_of_mem cur p hp
        rw [hpn, hlook] at this
        cases this
      congr 2
      · apply List.filter_congr
        intro p hp
        have h1 : decide (p.1 ∈ n :: ns) = decide (p.1 ∈ ns) := by
          simp [List.mem_cons, hnotmem p hp]
        rw [h1]
      · rw [List.any_cons, hlook]
        simp
    | some e =>
      have hmem := mem_of_lookupD_eq_some cur n e hlook
      rcases hshape n e hmem with ⟨⟨fs, rfl⟩, hnF⟩ | ⟨⟨pay, rfl⟩, hnD⟩
      · -- a directory entry
        have hdir := isDirAt_of_dir cur n fs hlook
        have hfile := isFileAt_of_dir cur n fs hlook
        by_cases hD : n ∈ expD
        · -- kept
          have hc1 : (isDirAt cur n && !(decide (n ∈ expD))) = false := by simp [hdir, hD]
          have hc2 : (isFileAt cur n && !(decide (n ∈ expF))) = false := by simp [hfile]
          simp only [pruneGo, hlook, hc1, hc2, Bool.false_eq_true, if_false]
          rw [ih cur st hshape]
          congr 2
          · apply List.filter_congr
            intro p hp
            by_cases hpn : p.1 = n
            · simp [hpn, hD]
            · simp [List.mem_cons, hpn]
          · rw [List.any_cons, hlook]
            simp [hD]
        · -- removed
          have hc1 : (isDirAt cur n && !(decide (n ∈ expD))) = true := by simp [hdir, hD]
          have hshape2 : ∀ m e', (m, e') ∈ eraseD cur n →
              ((∃ fs', e' = FsEntry.dir fs') ∧ ¬ m ∈ expF ∨
               (∃ pay', e' = FsEntry.file pay') ∧ ¬ m ∈ expD) :=
            fun m e' hm => hshape m e' (List.mem_of_mem_filter hm)
          simp only [pruneGo, hlook, hc1, if_true]
          rw [ih (eraseD cur n) true hshape2]
          congr 2
          · rw [eraseD, List.filter_filter]
            apply List.filter_congr
            intro p hp
            by_cases hpn : p.1 = n
            · simp [hpn, hD, hnF]
            · simp [List.mem_cons, hpn]
          · rw [List.any_cons, hlook]
            simp [hD, hnF]
      · -- a plain-file entry
        have hdir := isDirAt_of_file cur n pay hlook
        have hfile := isFileAt_of_file cur n pay hlook
        have hc1 : (isDirAt cur n && !(decide (n ∈ expD))) = false := by simp [hdir]
        by_cases hF : n ∈ expF
        · -- kept
          have hc2 : (isFileAt cur n && !(decide (n ∈ expF))) = false := by simp [hfile, hF]
          simp only [pruneGo, hlook, hc1, hc2, Bool.false_eq_true, if_false]
          rw [ih cur st hshape]
          congr 2
          · apply List.filter_congr
            intro p hp
            by_cases hpn : p.1 = n
            · simp [hpn, hF]
            · simp [List.mem_cons, hpn]
          · rw [List.any_cons, hlook]
            simp [hF]
        · -- removed
          have hc2 : (isFileAt cur n && !(decide (n ∈ expF))) = true := by simp [hfile, hF]
          have hshape2 : ∀ m e', (m, e') ∈ eraseD cur n →
              ((∃ fs', e' = FsEntry.dir fs') ∧ ¬ m ∈ expF ∨
               (∃ pay', e' = FsEntry.file pay') ∧ ¬ m ∈ expD) :=
            fun m e' hm => hshape m e' (List.mem_of_mem_filter hm)
          simp only [pruneGo, hlook, hc1, hc2, Bool.false_eq_true, if_false, if_true]
          rw [ih (eraseD cur n) true hshape2]
          congr 2
          · rw [eraseD, List.filter_filter]
            apply List.filter_congr
            intro p hp
            by_cases hpn : p.1 = n
            · simp [hpn, hF, hnD]
            · simp [List.mem_cons, hpn]
          · rw [List.any_cons, hlook]
            simp [hF, hnD]

theorem map_fst_filter_nameonly (d : FsDir) (q : String → Bool) :
    (d.filter (fun p => q p.1)).map Prod.fst = (d.map Prod.fst).filter q := by
  induction d with
  | nil => rfl
  | cons p d ih =>
    by_cases hq : q p.1 = true
    · simp [List.filter_cons, hq, ih]
    · simp only [List.filter_cons, List.map_cons]
      rw [if_neg (by simpa using hq), if_neg (by simpa using hq), ih]

theorem decide_mem_expectedNames (t : String) (promoted : List String) (a : String) :
    (decide (a ∈ expectedDirNames t promoted) || decide (a ∈ expectedFileNames t promoted)) =
      decide (a ∈ expectedNames t promoted) := by
  rw [Bool.eq_iff_iff]
  simp [expectedNames, List.mem_append]

theorem pruneDirRun_shapely (t : String) (promoted : List String) (d : FsDir)
    (hshape : shapelyDir t promoted d) :
    pruneDirRun t promoted d =
      Except.ok (d.filter (fun p => decide (p.1 ∈ expectedNames t promoted)),
        d.any (fun p => !(decide (p.1 ∈ expectedNames t promoted)))) := by
  rw [pruneDirRun,
    pruneGo_shapely (expectedDirNames t promoted) (expectedFileNames t promoted)
      (d.map Prod.fst) d false hshape]
  congr 1
  congr 1
  · apply List.filter_congr
    intro p hp
    have hm : p.1 ∈ d.map Prod.fst := List.mem_map_of_mem Prod.fst hp
    simp only [hm, decide_eq_true_eq, decide_True, Bool.not_true, Bool.false_or]
    rw [decide_mem_expectedNames]
  · rw [Bool.false_or, Bool.eq_iff_iff, List.any_eq_true, List.any_eq_true]
    constructor
    · rintro ⟨n, hn, hcond⟩
      obtain ⟨p, hp, rfl⟩ := List.mem_map.mp hn
      refine ⟨p, hp, ?_⟩
      have := (Bool.and_eq_true_iff.mp hcond).2
      rw [← decide_mem_expectedNames t promoted p.1]
      exact this
    · rintro ⟨p, hp, hcond⟩
      refine ⟨p.1, List.mem_map_of_mem Prod.fst hp, ?_⟩
      rw [Bool.and_eq_true_iff]
      refine ⟨lookupD_isSome_of_mem d p hp, ?_⟩
      rw [decide_mem_expectedNames]
      exact hcond

theorem removeObsoleteGo_spec (promoted : List String) (rels : List ReleaseConfig) :
    ∀ (s : FsTree) (st : Bool),
    (∀ rel ∈ rels, ∃ d, lookupT s rel.name = some d ∧ shapelyDir rel.name promoted d) →
    (rels.map (fun rel => rel.name)).Nodup →
    ∃ s' b, ProjectFiles.removeObsoleteGo promoted rels s st = Except.ok (s', b) ∧
      (∀ rel ∈ rels, ∃ d, lookupT s rel.name = some d ∧
        lookupT s' rel.name =
          some (d.filter (fun p => decide (p.1 ∈ expectedNames rel.name promoted)))) ∧
      (∀ n, (∀ rel ∈ rels, ¬ rel.name = n) → lookupT s' n = lookupT s n) ∧
      (b = true ↔ st = true ∨ ∃ rel ∈ rels, ∃ d, lookupT s rel.name = some d ∧
        d.any (fun p => !(decide (p.1 ∈ expectedNames rel.name promoted))) = true) := by
  induction rels with
  | nil =>
    intro s st _ _
    refine ⟨s, st, rfl, by simp, fun n _ => rfl, by simp⟩
  | cons rel rest ih =>
    intro s st hdirs hnodup
    obtain ⟨d, hd, hshape⟩ := hdirs rel (List.mem_cons_self rel rest)
    have hnotin : ∀ rel' ∈ rest, ¬ rel'.name = rel.name := by
      intro rel' hrel' heq
      have hm : rel'.name ∈ rest.map (fun r => r.name) :=
        List.mem_map_of_mem (fun r => r.name) hrel'
      rw [heq] at hm
      exact (List.nodup_cons.mp hnodup).1 hm
    set d' := d.filter (fun p => decide (p.1 ∈ expectedNames rel.name promoted)) with hd'
    set ch := d.any (fun p => !(decide (p.1 ∈ expectedNames rel.name promoted))) with hch
    have hrest : ∀ rel' ∈ rest, ∃ dd, lookupT (setT s rel.name d') rel'.name = some dd ∧
        shapelyDir rel'.name promoted dd := by
      intro rel' hrel'
      obtain ⟨dd, hdd, hsh⟩ := hdirs rel' (List.mem_cons_of_mem rel hrel')
      exact ⟨dd, by rw [lookupT_setT_ne s rel.name d' rel'.name
        (fun hh => hnotin rel' hrel' hh.symm)]; exact hdd, hsh⟩
    obtain ⟨s', b, hgo, hpost, hframe', hbiff⟩ :=
      ih (setT s rel.name d') (st || ch) hrest (List.nodup_cons.mp hnodup).2
    refine ⟨s', b, ?_, ?_, ?_, ?_⟩
    · simp only [ProjectFiles.removeObsoleteGo, hd, pruneDirRun_shapely rel.name promoted d hshape]
      exact hgo
    · intro rel' hrel'
      rcases List.mem_cons.mp hrel' with rfl | hmem
      · refine ⟨d, hd, ?_⟩
        rw [hframe' rel'.name (fun r hr heq => hnotin r hr heq)]
        exact lookupT_setT_self s rel'.name d'
      · obtain ⟨dd, hdd, hdd'⟩ := hpost rel' hmem
        refine ⟨dd, ?_, hdd'⟩
        rw [← hdd]
        exact (lookupT_setT_ne s rel.name d' rel'.name
          (fun hh => hnotin rel' hmem hh.symm)).symm
    · intro n hn
      rw [hframe' n (fun r hr => hn r (List.mem_cons_of_mem rel hr))]
      exact lookupT_setT_ne s rel.name d' n
        (fun hh => hn rel (List.mem_cons_self rel rest) hh)
    · rw [hbiff]
      constructor
      · rintro (hst | ⟨rel', hrel', dd, hdd, hany⟩)
        · rcases Bool.or_eq_true_iff.mp hst with hst' | hc
          · exact Or.inl hst'
          · exact Or.inr ⟨rel, List.mem_cons_self rel rest, d, hd, hc⟩
        · refine Or.inr ⟨rel', List.mem_cons_of_mem rel hrel', dd, ?_, hany⟩
          rw [← hdd]
          exact (lookupT_setT_ne s rel.name d' rel'.name
            (fun hh => hnotin rel' hrel' hh.symm)).symm
      · rintro (hst | ⟨rel', hrel', dd, hdd, hany⟩)
        · exact Or.inl (by rw [hst]; rfl)
        · rcases List.mem_cons.mp hrel' with rfl | hmem
          · rw [hd] at hdd
            rw [← Option.some.inj hdd] at hany
            exact Or.inl (by rw [← hch] at hany; rw [hany]; simp)
          · refine Or.inr ⟨rel', hmem, dd, ?_, hany⟩
            rw [lookupT_setT_ne s rel.name d' rel'.name
              (fun hh => hnotin rel' hmem hh.symm)]
            exact hdd

/-- C4 (amended): for every mirror state whose release-type directories exist
and contain only plain files and directories matching the expected shape
(directories at `latest`/version-directory names, plain files at sidecar
names), after `removeObsolete()` the set of names present in each
release-type directory is exactly
`{latest} ∪ {version dir, .json, .torrent per retained version}` intersected
with what existed before, and the operation returns `true` iff at least one
deletion occurred.  (Dangling symbolic links — neither directories nor
files — would survive the prune, and entries of the wrong shape at expected
names are deleted; see the counterexample.) -/
theorem claim_C4_prune_exactness (cfg : ProjectConfig) (promoted : List String) (s : FsTree)
    (hnodup : (cfg.releases.map (fun rel => rel.name)).Nodup)
    (hdirs : ∀ rel ∈ cfg.releases, ∃ d, lookupT s rel.name = some d ∧
      shapelyDir rel.name promoted d) :
    ∃ s' b, ProjectFiles._remove_obsolete_releases cfg promoted s = Except.ok (s', b) ∧
      (∀ rel ∈ cfg.releases, ∃ d, lookupT s rel.name = some d ∧
        ∃ d', lookupT s' rel.name = some d' ∧
          d'.map Prod.fst =
            (d.map Prod.fst).filter (fun n => decide (n ∈ expectedNames rel.name promoted))) ∧
      (b = true ↔ ∃ rel ∈ cfg.releases, ∃ d, lookupT s rel.name = some d ∧
        ∃ p ∈ d, ¬ p.1 ∈ expectedNames rel.name promoted) := by
  obtain ⟨s', b, hgo, hpost, _, hbiff⟩ :=
    removeObsoleteGo_spec promoted cfg.releases s false hdirs hnodup
  refine ⟨s', b, hgo, ?_, ?_⟩
  · intro rel hrel
    obtain ⟨d, hd, hd'⟩ := hpost rel hrel
    exact ⟨d, hd, d.filter (fun p => decide (p.1 ∈ expectedNames rel.name promoted)), hd',
      map_fst_filter_nameonly d (fun n => decide (n ∈ expectedNames rel.name promoted))⟩
  · rw [hbiff]
    simp only [Bool.false_eq_true, false_or]
    constructor
    · rintro ⟨rel, hrel, d, hd, hany⟩
      obtain ⟨p, hp, hcond⟩ := List.any_eq_true.mp hany
      exact ⟨rel, hrel, d, hd, p, hp, by simpa using hcond⟩
    · rintro ⟨rel, hrel, d, hd, p, hp, hcond⟩
      exact ⟨rel, hrel, d, hd, List.any_eq_true.mpr ⟨p, hp, by simpa using hcond⟩⟩

/-- Witness for C4 (amended) on a shapely state with one junk file. -/
theorem claim_C4_prune_exactness_witness :
    ∃ s' b, ProjectFiles._remove_obsolete_releases exCfg ["1.0"] exShapelyTree =
      Except.ok (s', b) ∧
      (∀ rel ∈ exCfg.releases, ∃ d, lookupT exShapelyTree rel.name = some d ∧
        ∃ d', lookupT s' rel.name = some d' ∧
          d'.map Prod.fst =
            (d.map Prod.fst).filter (fun n => decide (n ∈ expectedNames rel.name ["1.0"]))) ∧
      (b = true ↔ ∃ rel ∈ exCfg.releases, ∃ d, lookupT exShapelyTree rel.name = some d ∧
        ∃ p ∈ d, ¬ p.1 ∈ expectedNames rel.name ["1.0"]) := by
  refine claim_C4_prune_exactness exCfg ["1.0"] exShapelyTree (by decide) ?_
  intro rel hrel
  rcases List.mem_singleton.mp hrel with rfl
  refine ⟨[("latest", FsEntry.dir []),
           ("foo-1.0", FsEntry.dir ["a"]),
           ("foo-1.0.json", FsEntry.file none),
           ("junk", FsEntry.file none)], by decide, ?_⟩
  intro n e h
  simp only [List.mem_cons, List.not_mem_nil, or_false, Prod.mk.injEq] at h
  rcases h with ⟨rfl, rfl⟩ | ⟨rfl, rfl⟩ | ⟨rfl, rfl⟩ | ⟨rfl, rfl⟩
  · exact Or.inl ⟨⟨[], rfl⟩, by decide⟩
  · exact Or.inl ⟨⟨["a"], rfl⟩, by decide⟩
  · exact Or.inr ⟨⟨none, rfl⟩, by decide⟩
  · exact Or.inr ⟨⟨none, rfl⟩, by decide⟩

/-- C4 counterexample: a plain *file* named `latest` — a name inside the
expected set — is nevertheless deleted (it is a file, and `latest` is not
among the expected file names), so the surviving set is not
`expected ∩ before`; the operation reports a deletion. -/
theorem claim_C4_prune_exactness_cex :
    ProjectFiles._remove_obsolete_releases exCfg ["1.0"] exLatestFileTree =
      Except.ok ([("foo", [])], true) ∧
    "latest" ∈ expectedDirNames "foo" ["1.0"] :=
  ⟨by decide, by decide⟩

/-- C3 (amended): with an empty Promoted Release Set one full pass syncs no
version and the Latest-Pointer Manager is a no-op, but the Pruner treats
*every* version directory and sidecar file as obsolete: each release-type
directory keeps only its `latest` entry, and the pass mutates the mirror
(and fires the notifier) iff any other entry existed.  Stated for shapely
release-type directories and a sync directory without leftover `.tmp-`
entries. -/
theorem claim_C3_empty_promoted (cfg : ProjectConfig) (up : Upstream) (s : FsTree)
    (hnodup : (cfg.releases.map (fun rel => rel.name)).Nodup) :
    (ProjectFiles._set_latest_version_symlink cfg [] s = Except.ok (s, false)) ∧
    ((∀ p ∈ s, strStartsWith p.1 ".tmp-" = false) →
     (∀ rel ∈ cfg.releases, ∃ d, lookupT s rel.name = some d ∧ shapelyDir rel.name [] d) →
     ∃ s' b, ProjectFiles.sync cfg up [] s = Except.ok (s', b) ∧
       (∀ rel ∈ cfg.releases, ∃ d, lookupT s rel.name = some d ∧
         ∃ d', lookupT s' rel.name = some d' ∧
           d'.map Prod.fst = (d.map Prod.fst).filter (fun n => decide (n = "latest"))) ∧
       (b = true ↔ ∃ rel ∈ cfg.releases, ∃ d, lookupT s rel.name = some d ∧
         ∃ p ∈ d, ¬ p.1 = "latest")) := by
  have hlatest : ProjectFiles._set_latest_version_symlink cfg [] s = Except.ok (s, false) := rfl
  refine ⟨hlatest, ?_⟩
  intro htmp hdirs
  have hfilter : s.filter (fun p => !(strStartsWith p.1 ".tmp-")) = s := by
    rw [List.filter_eq_self]
    intro p hp
    rw [htmp p hp]
    rfl
  obtain ⟨s', b, hgo, hpost, _, hbiff⟩ := removeObsoleteGo_spec [] cfg.releases s false hdirs hnodup
  have hnames : expectedNames = fun (t : String) (promoted : List String) =>
      expectedDirNames t promoted ++ expectedFileNames t promoted := rfl
  refine ⟨s', b, ?_, ?_, ?_⟩
  · rw [ProjectFiles.sync, hfilter]
    simp only [ProjectFiles.syncVersionsGo, hlatest, ProjectFiles._remove_obsolete_releases]
    rw [hgo]
    simp
  · intro rel hrel
    obtain ⟨d, hd, hd'⟩ := hpost rel hrel
    refine ⟨d, hd, d.filter (fun p => decide (p.1 ∈ expectedNames rel.name [])), hd', ?_⟩
    rw [map_fst_filter_nameonly d (fun n => decide (n ∈ expectedNames rel.name []))]
    apply List.filter_congr
    intro n _
    rw [Bool.eq_iff_iff]
    simp [expectedNames, expectedDirNames, expectedFileNames]
  · rw [hbiff]
    simp only [Bool.false_eq_true, false_or]
    constructor
    · rintro ⟨rel, hrel, d, hd, hany⟩
      obtain ⟨p, hp, hcond⟩ := List.any_eq_true.mp hany
      refine ⟨rel, hrel, d, hd, p, hp, ?_⟩
      simp only [expectedNames, expectedDirNames, expectedFileNames, List.map_nil,
        List.append_nil, List.nil_append] at hcond
      simpa using hcond
    · rintro ⟨rel, hrel, d, hd, p, hp, hcond⟩
      refine ⟨rel, hrel, d, hd, List.any_eq_true.mpr ⟨p, hp, ?_⟩⟩
      simp only [expectedNames, expectedDirNames, expectedFileNames, List.map_nil,
        List.append_nil, List.nil_append]
      simpa using hcond

/-- Witness for C3 (amended): a release-type directory holding only its
`latest` entry is left untouched and the pass reports no change. -/
theorem claim_C3_empty_promoted_witness :
    ∃ s' b, ProjectFiles.sync exCfg exUpNone [] exLatestOnlyTree = Except.ok (s', b) ∧
      (∀ rel ∈ exCfg.releases, ∃ d, lookupT exLatestOnlyTree rel.name = some d ∧
        ∃ d', lookupT s' rel.name = some d' ∧
          d'.map Prod.fst = (d.map Prod.fst).filter (fun n => decide (n = "latest"))) ∧
      (b = true ↔ ∃ rel ∈ exCfg.releases, ∃ d, lookupT exLatestOnlyTree rel.name = some d ∧
        ∃ p ∈ d, ¬ p.1 = "latest") := by
  refine (claim_C3_empty_promoted exCfg exUpNone exLatestOnlyTree (by decide)).2 (by decide) ?_
  intro rel hrel
  rcases List.mem_singleton.mp hrel with rfl
  refine ⟨[("latest", FsEntry.dir [])], by decide, ?_⟩
  intro n e h
  simp only [List.mem_cons, List.not_mem_nil, or_false, Prod.mk.injEq] at h
  rcases h with ⟨rfl, rfl⟩
  exact Or.inl ⟨⟨[], rfl⟩, by decide⟩

/-- C3 counterexample: with an empty Promoted Release Set, a pass over a
mirror holding the version directory `foo-0.9` *deletes* it — the Pruner is
not a no-op — and the change flag (the timestamp notifier) fires. -/
theorem claim_C3_empty_promoted_cex :
    ProjectFiles.sync exCfg exUpNone [] exObsoleteTree = Except.ok ([("foo", [])], true) := by
  decide

theorem requiresGo_spec (s : FsTree) (v : String) : ∀ (rels : List ReleaseConfig) (b : Bool),
    ProjectFiles.requiresGo s v rels = Except.ok b →
    (b = true ↔ ∃ rel ∈ rels,
      ProjectFiles.is_release_type_synced s rel.name v = Except.ok false) := by
  intro rels
  induction rels with
  | nil =>
    intro b h
    rw [ProjectFiles.requiresGo] at h
    rw [← Except.ok.inj h]
    simp
  | cons rel rest ih =>
    intro b h
    rw [ProjectFiles.requiresGo] at h
    cases hs : ProjectFiles.is_release_type_synced s rel.name v with
    | error e => rw [hs] at h; cases h
    | ok bh =>
      rw [hs] at h
      cases hr : ProjectFiles.requiresGo s v rest with
      | error e => rw [hr] at h; cases h
      | ok br =>
        rw [hr] at h
        rw [← Except.ok.inj h]
        constructor
        · intro hor
          rcases Bool.or_eq_true_iff.mp hor with hnb | hbr
          · refine ⟨rel, List.mem_cons_self rel rest, ?_⟩
            rw [hs]
            have : bh = false := by
              cases bh
              · rfl
              · cases hnb
            rw [this]
          · obtain ⟨rel', hm, hsync⟩ := (ih br hr).mp hbr
            exact ⟨rel', List.mem_cons_of_mem rel hm, hsync⟩
        · rintro ⟨rel', hm, hsync⟩
          rcases List.mem_cons.mp hm with rfl | hm'
          · rw [hs] at hsync
            have : bh = false := Except.ok.inj hsync
            rw [this]
            rfl
          · rw [Bool.or_eq_true_iff]
            exact Or.inr ((ih br hr).mpr ⟨rel', hm', hsync⟩)

/-- C6: `requiresSync(version)` is true iff `isSynced` is false for at least
one configured release type (OR across all release types); when it is false,
`syncVersion` returns `false` right after the promotion-bundle probe with the
mirror untouched (no build-bundle download); when it is true, any `ok` result
of `syncVersion` reports `true`. -/
theorem claim_C6_requires_sync (cfg : ProjectConfig) (up : Upstream) (s : FsTree) (v : String) :
    (∀ b, ProjectFiles._project_version_requires_sync cfg s v = Except.ok b →
      (b = true ↔ ∃ rel ∈ cfg.releases,
        ProjectFiles.is_release_type_synced s rel.name v = Except.ok false)) ∧
    (∀ promo, up.download_promotion_artifact v = some promo →
      ProjectFiles._project_version_requires_sync cfg s v = Except.ok false →
      ProjectFiles._sync_version cfg up s v = Except.ok (s, false)) ∧
    (∀ s' b, ProjectFiles._project_version_requires_sync cfg s v = Except.ok true →
      ProjectFiles._sync_version cfg up s v = Except.ok (s', b) → b = true) := by
  refine ⟨?_, ?_, ?_⟩
  · intro b h
    exact requiresGo_spec s v cfg.releases b h
  · intro promo hpromo hreq
    simp only [ProjectFiles._sync_version, hpromo, hreq, Bool.false_eq_true, if_false]
  · intro s' b hreq h
    cases hp : up.download_promotion_artifact v with
    | none =>
      simp only [ProjectFiles._sync_version, hp] at h
      cases h
    | some promo =>
      simp only [ProjectFiles._sync_version, hp, hreq, if_true] at h
      cases hb : up.download_release v with
      | none =>
        simp only [hb] at h
        cases h
      | some build =>
        simp only [hb] at h
        cases hg : globReleases promo with
        | error e =>
          simp only [hg] at h
          cases h
        | ok rs =>
          simp only [hg] at h
          cases hpr : ProjectFiles.processReleaseTypes rs promo build s with
          | error e =>
            simp only [hpr] at h
            cases h
          | ok trip =>
            obtain ⟨p1, p2, s1⟩ := trip
            simp only [hpr, Except.ok.injEq, Prod.mk.injEq] at h
            exact h.2.symm

/-- Witness for C6 at the concrete synchronized mirror: no release type is
out of sync, so `requiresSync` is false and `syncVersion` reports no
change. -/
theorem claim_C6_requires_sync_witness :
    (false = true ↔ ∃ rel ∈ exCfg.releases,
      ProjectFiles.is_release_type_synced exCleanTree rel.name "1.0" = Except.ok false) ∧
    ProjectFiles._sync_version exCfg exUp exCleanTree "1.0" = Except.ok (exCleanTree, false) := by
  constructor
  · exact (claim_C6_requires_sync exCfg exUp exCleanTree "1.0").1 false (by decide)
  · exact (claim_C6_requires_sync exCfg exUp exCleanTree "1.0").2.1
      [("foo", [("foo-1.0.json", FsEntry.file (some exRelease)),
                ("foo-1.0", FsEntry.dir []),
                ("foo-1.0.torrent", FsEntry.file none)])] (by decide) (by decide)

theorem versionDirName_data (t v : String) :
    (versionDirName t v).data = t.data ++ '-' :: v.data := by
  show (t.data ++ ('-' :: List.nil)) ++ v.data = t.data ++ '-' :: v.data
  simp

theorem versionDirName_inj (t a b : String) (h : versionDirName t a = versionDirName t b) :
    a = b := by
  have hd := congrArg String.data h
  rw [versionDirName_data, versionDirName_data] at hd
  exact String.ext (List.cons_injective.eq_iff.mp (List.append_cancel_left hd))

theorem jsonFileName_eq_versionDirName (t v : String) :
    jsonFileName t v = versionDirName t (v ++ ".json") := by
  apply String.ext
  show ((t.data ++ '-'.toString.data) ++ v.data) ++ (".json" : String).data =
    (t.data ++ '-'.toString.data) ++ (v.data ++ (".json" : String).data)
  simp

theorem torrentFileName_eq_versionDirName (t v : String) :
    torrentFileName t v = versionDirName t (v ++ ".torrent") := by
  apply String.ext
  show ((t.data ++ '-'.toString.data) ++ v.data) ++ (".torrent" : String).data =
    (t.data ++ '-'.toString.data) ++ (v.data ++ (".torrent" : String).data)
  simp

theorem str_ne_append_of_data_ne_nil (v e : String) (he : ¬ e.data = []) : ¬ v = v ++ e := by
  intro h
  have hd := congrArg (fun s => s.data.length) h
  simp only [String.data] at hd
  have : (v ++ e).data = v.data ++ e.data := rfl
  rw [this, List.length_append] at hd
  have : e.data.length = 0 := by omega
  exact he (List.eq_nil_of_length_eq_zero this)

theorem jsonFileName_ne_torrentFileName (t v t2 w : String) :
    ¬ jsonFileName t v = torrentFileName t2 w := by
  intro h
  have hd := congrArg (fun s => s.data.getLast?) h
  have h1 : (jsonFileName t v).data = ((t ++ "-" ++ v).data) ++ (".json" : String).data := rfl
  have h2 : (torrentFileName t2 w).data = ((t2 ++ "-" ++ w).data) ++ (".torrent" : String).data := rfl
  simp only [h1, h2, List.getLast?_append] at hd
  have hj : (".json" : String).data.getLast? = some 'n' := by decide
  have ht : (".torrent" : String).data.getLast? = some 't' := by decide
  rw [hj, ht] at hd
  simp [Option.or] at hd

theorem torrentFileName_ne_empty (t v : String) : ¬ torrentFileName t v = "" := by
  intro h
  have hd := congrArg String.data h
  have h2 : (torrentFileName t v).data = ((t ++ "-" ++ v).data) ++ (".torrent" : String).data := rfl
  rw [h2] at hd
  have : ((t ++ "-" ++ v).data) ++ (".torrent" : String).data = [] := hd
  rcases List.append_eq_nil.mp this with ⟨-, h4⟩
  have : (".torrent" : String).data = ['.', 't', 'o', 'r', 'r', 'e', 'n', 't'] := by decide
  rw [this] at h4
  cases h4

theorem versionDirName_ne_jsonFileName (t a b : String) (hab : ¬ a = b ++ ".json") :
    ¬ versionDirName t a = jsonFileName t b := by
  rw [jsonFileName_eq_versionDirName]
  intro h
  exact hab (versionDirName_inj t a (b ++ ".json") h)

theorem versionDirName_ne_torrentFileName (t a b : String) (hab : ¬ a = b ++ ".torrent") :
    ¬ versionDirName t a = torrentFileName t b := by
  rw [torrentFileName_eq_versionDirName]
  intro h
  exact hab (versionDirName_inj t a (b ++ ".torrent") h)

theorem versionDirName_ne_jsonFileName_self (t v : String) :
    ¬ versionDirName t v = jsonFileName t v :=
  versionDirName_ne_jsonFileName t v v
    (str_ne_append_of_data_ne_nil v ".json" (by decide))

theorem versionDirName_ne_torrentFileName_self (t v : String) :
    ¬ versionDirName t v = torrentFileName t v :=
  versionDirName_ne_torrentFileName t v v
    (str_ne_append_of_data_ne_nil v ".torrent" (by decide))

theorem jsonFileName_ne_torrentFileName_self (t v : String) :
    ¬ jsonFileName t v = torrentFileName t v :=
  jsonFileName_ne_torrentFileName t v t v

theorem jsonFileName_inj (t a b : String) (h : jsonFileName t a = jsonFileName t b) : a = b := by
  rw [jsonFileName_eq_versionDirName, jsonFileName_eq_versionDirName] at h
  have := versionDirName_inj t (a ++ ".json") (b ++ ".json") h
  have hd := congrArg String.data this
  have h1 : (a ++ ".json").data = a.data ++ (".json" : String).data := rfl
  have h2 : (b ++ ".json").data = b.data ++ (".json" : String).data := rfl
  rw [h1, h2] at hd
  exact String.ext (List.append_cancel_right hd)

theorem torrentFileName_inj (t a b : String) (h : torrentFileName t a = torrentFileName t b) :
    a = b := by
  rw [torrentFileName_eq_versionDirName, torrentFileName_eq_versionDirName] at h
  have := versionDirName_inj t (a ++ ".torrent") (b ++ ".torrent") h
  have hd := congrArg String.data this
  have h1 : (a ++ ".torrent").data = a.data ++ (".torrent" : String).data := rfl
  have h2 : (b ++ ".torrent").data = b.data ++ (".torrent" : String).data := rfl
  rw [h1, h2] at hd
  exact String.ext (List.append_cancel_right hd)

theorem latest_ne_versionDirName (t v : String) : ¬ ("latest" : String) = versionDirName t v := by
  intro h
  have hd := congrArg (fun s => '-' ∈ s.data) h
  simp only [versionDirName_data] at hd
  have h1 : ('-' ∈ ("latest" : String).data) = False := by
    simp only [eq_iff_iff, iff_false]
    decide
  rw [h1] at hd
  exact hd.mpr (List.mem_append.mpr (Or.inr (List.mem_cons_self '-' v.data)))

theorem latest_ne_jsonFileName (t v : String) : ¬ ("latest" : String) = jsonFileName t v := by
  rw [jsonFileName_eq_versionDirName]
  exact latest_ne_versionDirName t (v ++ ".json")

theorem latest_ne_torrentFileName (t v : String) : ¬ ("latest" : String) = torrentFileName t v := by
  rw [torrentFileName_eq_versionDirName]
  exact latest_ne_versionDirName t (v ++ ".torrent")

theorem lookupD_filter (d : FsDir) (Q : String → Bool) (n : String) :
    lookupD (d.filter (fun p => Q p.1)) n = if Q n = true then lookupD d n else none := by
  induction d with
  | nil => cases hq : Q n <;> simp [lookupD]
  | cons p d ih =>
    by_cases hp : p.1 = n
    · subst hp
      cases hq : Q p.1 <;> simp [List.filter_cons, hq, lookupD_cons, ih]
    · cases hq : Q p.1 <;> cases hqn : Q n <;>
        simp [List.filter_cons, hq, lookupD_cons, hp, ih, hqn]

theorem lookupT_filter (s : FsTree) (Q : String → Bool) (n : String) :
    lookupT (s.filter (fun p => Q p.1)) n = if Q n = true then lookupT s n else none := by
  induction s with
  | nil => cases hq : Q n <;> simp [lookupT]
  | cons p s ih =>
    by_cases hp : p.1 = n
    · subst hp
      cases hq : Q p.1 <;> simp [List.filter_cons, hq, lookupT_cons, ih]
    · cases hq : Q p.1 <;> cases hqn : Q n <;>
        simp [List.filter_cons, hq, lookupT_cons, hp, ih, hqn]

theorem lookupD_length_pos (d : FsDir) (n : String) (e : FsEntry)
    (h : lookupD d n = some e) : 0 < d.length := by
  cases d with
  | nil => cases h
  | cons p d => simp

theorem resolveE_mono (d : FsDir) :
    ∀ f g (n : String) (x : String × FsEntry), resolveE d f n = some x → f ≤ g →
      resolveE d g n = some x := by
  intro f
  induction f with
  | zero => intro g n x h; cases h
  | succ f ih =>
    intro g n x h hle
    cases g with
    | zero => exact absurd hle (by omega)
    | succ g =>
      have hg : f ≤ g := Nat.succ_le_succ_iff.mp hle
      cases hn : lookupD d n with
      | none => rw [resolveE, hn] at h; cases h
      | some e =>
        cases e with
        | symlink tg =>
          rw [resolveE_of_symlink d f n tg hn] at h
          rw [resolveE_of_symlink d g n tg hn]
          exact ih g tg x h hg
        | dir fs =>
          rw [resolveE_of_dir d f n fs hn] at h
          rw [resolveE_of_dir d g n fs hn]
          exact h
        | file pay =>
          rw [resolveE_of_file d f n pay hn] at h
          rw [resolveE_of_file d g n pay hn]
          exact h

theorem resolveE_filter (d : FsDir) (Q : String → Bool) :
    ∀ f (n : String) (x : String × FsEntry),
      resolveE (d.filter (fun p => Q p.1)) f n = some x → resolveE d f n = some x := by
  intro f
  induction f with
  | zero => intro n x h; cases h
  | succ f ih =>
    intro n x h
    cases hn : lookupD (d.filter (fun p => Q p.1)) n with
    | none => rw [resolveE, hn] at h; cases h
    | some e =>
      have hdn : lookupD d n = some e := by
        rw [lookupD_filter] at hn
        by_cases hq : Q n = true
        · rw [if_pos hq] at hn; exact hn
        · rw [if_neg hq] at hn; cases hn
      cases e with
      | symlink tg =>
        rw [resolveE_of_symlink _ f n tg hn] at h
        rw [resolveE_of_symlink d f n tg hdn]
        exact ih tg x h
      | dir fs =>
        rw [resolveE_of_dir _ f n fs hn] at h
        rw [resolveE_of_dir d f n fs hdn]
        exact h
      | file pay =>
        rw [resolveE_of_file _ f n pay hn] at h
        rw [resolveE_of_file d f n pay hdn]
        exact h

theorem isDirAt_filter (d : FsDir) (Q : String → Bool) (n : String)
    (h : isDirAt (d.filter (fun p => Q p.1)) n = true) : isDirAt d n = true := by
  rw [isDirAt] at h
  cases hr : resolveE (d.filter (fun p => Q p.1)) ((d.filter (fun p => Q p.1)).length + 1) n with
  | none => rw [hr] at h; cases h
  | some x =>
    rw [hr] at h
    obtain ⟨m, e⟩ := x
    cases e with
    | dir fs =>
      have h1 := resolveE_filter d Q _ n (m, FsEntry.dir fs) hr
      have h2 := resolveE_mono d _ (d.length + 1) n (m, FsEntry.dir fs) h1
        (by have := d.length_filter_le (fun p => Q p.1); omega)
      rw [isDirAt, h2]
    | file pay => cases h
    | symlink tg => cases h

theorem isFileAt_filter (d : FsDir) (Q : String → Bool) (n : String)
    (h : isFileAt (d.filter (fun p => Q p.1)) n = true) : isFileAt d n = true := by
  rw [isFileAt] at h
  cases hr : resolveE (d.filter (fun p => Q p.1)) ((d.filter (fun p => Q p.1)).length + 1) n with
  | none => rw [hr] at h; cases h
  | some x =>
    rw [hr] at h
    obtain ⟨m, e⟩ := x
    cases e with
    | file pay =>
      have h1 := resolveE_filter d Q _ n (m, FsEntry.file pay) hr
      have h2 := resolveE_mono d _ (d.length + 1) n (m, FsEntry.file pay) h1
        (by have := d.length_filter_le (fun p => Q p.1); omega)
      rw [isFileAt, h2]
    | dir fs => cases h
    | symlink tg => cases h

theorem resolveE_link_dir (d : FsDir) (n m : String) (fs : List String)
    (hn : lookupD d n = some (FsEntry.symlink m)) (hm : lookupD d m = some (FsEntry.dir fs)) :
    resolveE d (d.length + 1) n = some (m, FsEntry.dir fs) := by
  have hpos : 0 < d.length := lookupD_length_pos d n _ hn
  obtain ⟨k, hk⟩ : ∃ k, d.length = k + 1 := ⟨d.length - 1, by omega⟩
  rw [hk]
  rw [resolveE_of_symlink d (k + 1) n m hn]
  exact resolveE_of_dir d k m fs hm

theorem mem_setD (d : FsDir) (n : String) (e : FsEntry) (p : String × FsEntry)
    (h : p ∈ setD d n e) : p = (n, e) ∨ p ∈ d := by
  induction d with
  | nil => simp [setD] at h; exact Or.inl h
  | cons q d ih =>
    by_cases hq : q.1 = n
    · rw [show setD (q :: d) n e = (n, e) :: d by
        obtain ⟨q1, q2⟩ := q; simp [setD] at hq ⊢; simp [hq]] at h
      rcases List.mem_cons.mp h with h1 | h1
      · exact Or.inl h1
      · exact Or.inr (List.mem_cons_of_mem q h1)
    · rw [show setD (q :: d) n e = q :: setD d n e by
        obtain ⟨q1, q2⟩ := q; simp [setD] at hq ⊢; simp [hq]] at h
      rcases List.mem_cons.mp h with h1 | h1
      · exact Or.inr (h1 ▸ List.mem_cons_self q d)
      · rcases ih h1 with h2 | h2
        · exact Or.inl h2
        · exact Or.inr (List.mem_cons_of_mem q h2)

theorem mem_setT (s : FsTree) (n : String) (d : FsDir) (p : String × FsDir)
    (h : p ∈ setT s n d) : p = (n, d) ∨ p ∈ s := by
  induction s with
  | nil => simp [setT] at h; exact Or.inl h
  | cons q s ih =>
    by_cases hq : q.1 = n
    · rw [show setT (q :: s) n d = (n, d) :: s by
        obtain ⟨q1, q2⟩ := q; simp [setT] at hq ⊢; simp [hq]] at h
      rcases List.mem_cons.mp h with h1 | h1
      · exact Or.inl h1
      · exact Or.inr (List.mem_cons_of_mem q h1)
    · rw [show setT (q :: s) n d = q :: setT s n d by
        obtain ⟨q1, q2⟩ := q; simp [setT] at hq ⊢; simp [hq]] at h
      rcases List.mem_cons.mp h with h1 | h1
      · exact Or.inr (h1 ▸ List.mem_cons_self q s)
      · rcases ih h1 with h2 | h2
        · exact Or.inl h2
        · exact Or.inr (List.mem_cons_of_mem q h2)

theorem setT_self_eq (s : FsTree) (t : String) (d : FsDir) (h : lookupT s t = some d) :
    setT s t d = s := by
  induction s with
  | nil => cases h
  | cons p s ih =>
    by_cases hp : p.1 = t
    · rw [lookupT_cons, if_pos hp] at h
      obtain ⟨p1, p2⟩ := p
      simp only at hp h
      subst hp
      have h2 : p2 = d := Option.some.inj h
      subst h2
      simp [setT]
    · rw [lookupT_cons, if_neg hp] at h
      rw [show setT (p :: s) t d = p :: setT s t d by
        obtain ⟨p1, p2⟩ := p; simp only at hp; simp [setT, hp]]
      rw [ih h]

theorem mem_map_fst_of_lookupT (s : FsTree) (t : String) (d : FsDir)
    (h : lookupT s t = some d) : t ∈ s.map Prod.fst := by
  induction s with
  | nil => cases h
  | cons p s ih =>
    by_cases hp : p.1 = t
    · exact List.mem_cons.mpr (Or.inl hp.symm)
    · rw [lookupT_cons, if_neg hp] at h
      exact List.mem_cons.mpr (Or.inr (ih h))

theorem fileExistsInDirD_of_none (d : FsDir) (dn f : String) (h : lookupD d dn = none) :
    fileExistsInDirD d dn f = false := by
  simp [fileExistsInDirD, resolveE_of_none d _ dn h]

theorem isSynced_of_nice (s : FsTree) (t v : String) (h : SyncedNice s t v) :
    ProjectFiles.is_release_type_synced s t v = Except.ok true := by
  obtain ⟨r, hj, hne, ht, fs, hd, hsub⟩ := h
  have hj' : lookupD ((lookupT s t).getD []) (jsonFileName t v) = some (FsEntry.file (some r)) := hj
  have hd' : lookupD ((lookupT s t).getD []) (versionDirName t v) = some (FsEntry.dir fs) := hd
  have hload : loadReleaseAt ((lookupT s t).getD []) (jsonFileName t v) = Except.ok r := by
    rw [loadReleaseAt, resolveE_of_file _ _ _ _ hj']
  have hall : r.files.all
      (fun f => fileExistsInDirD ((lookupT s t).getD []) (versionDirName t v) f) = true := by
    rw [List.all_eq_true]
    intro f hf
    rw [fileExistsInDirD_of_dir _ _ f fs hd']
    exact decide_eq_true (hsub f hf)
  simp only [ProjectFiles.is_release_type_synced,
    entryExistsD_of_file _ _ _ hj', Bool.true_eq_false, if_false, hload]
  cases htf : r.torrent_file with
  | none => simp only [hall]
  | some tf =>
    obtain ⟨htc, pay, hpay⟩ := ht tf htf
    subst htc
    have hpay' : lookupD ((lookupT s t).getD []) (torrentFileName t v) =
        some (FsEntry.file pay) := hpay
    simp only [entryExistsD_of_file _ _ _ hpay', Bool.not_true, Bool.and_false,
      Bool.false_eq_true, if_false, hall]

theorem nice_of_synced (s : FsTree) (t v : String)
    (hok : ProjectFiles.is_release_type_synced s t v = Except.ok true)
    (h1 : ∀ e, lookupDT s t (versionDirName t v) = some e → ∃ fs, e = FsEntry.dir fs)
    (h2 : ∀ e, lookupDT s t (jsonFileName t v) = some e → ∃ r, e = FsEntry.file (some r) ∧
      ¬ r.files = [] ∧ (∀ tf, r.torrent_file = some tf → tf = torrentFileName t v))
    (h3 : ∀ e, lookupDT s t (torrentFileName t v) = some e → ∃ pay, e = FsEntry.file pay) :
    SyncedNice s t v := by
  cases hj : lookupD ((lookupT s t).getD []) (jsonFileName t v) with
  | none =>
    rw [ProjectFiles.is_release_type_synced] at hok
    simp only [entryExistsD_of_none _ _ hj, if_true] at hok
    cases Except.ok.inj hok
  | some e =>
    obtain ⟨r, he, hfne, hcan⟩ := h2 e hj
    subst he
    have hload : loadReleaseAt ((lookupT s t).getD []) (jsonFileName t v) = Except.ok r := by
      rw [loadReleaseAt, resolveE_of_file _ _ _ _ hj]
    rw [ProjectFiles.is_release_type_synced] at hok
    simp only [entryExistsD_of_file _ _ _ hj, Bool.true_eq_false, if_false, hload] at hok
    have hfiles : ∀ tl, Except.ok (r.files.all
          (fun f => fileExistsInDirD ((lookupT s t).getD []) (versionDirName t v) f)) =
          (Except.ok true : Except String Bool) →
        (∀ tf, r.torrent_file = some tf → tf = torrentFileName t v ∧
          ∃ pay, lookupDT s t (torrentFileName t v) = some (FsEntry.file pay)) →
        r.torrent_file = tl → SyncedNice s t v := by
      intro tl hall htor htl
      have hall' := Except.ok.inj hall
      rw [List.all_eq_true] at hall'
      obtain ⟨f0, hf0⟩ : ∃ f0, f0 ∈ r.files := List.exists_mem_of_ne_nil r.files hfne
      cases hv : lookupD ((lookupT s t).getD []) (versionDirName t v) with
      | none =>
        have := hall' f0 hf0
        rw [fileExistsInDirD_of_none _ _ f0 hv] at this
        cases this
      | some ev =>
        obtain ⟨fs, hev⟩ := h1 ev hv
        subst hev
        refine ⟨r, hj, hfne, htor, fs, hv, ?_⟩
        intro f hf
        have := hall' f hf
        rw [fileExistsInDirD_of_dir _ _ f fs hv] at this
        exact of_decide_eq_true this
    cases htf : r.torrent_file with
    | none =>
      simp only [htf] at hok
      exact hfiles none hok (fun tf h => absurd (htf ▸ h) (by simp)) htf
    | some tf =>
      have htc : tf = torrentFileName t v := hcan tf htf
      subst htc
      simp only [htf] at hok
      cases hte : lookupD ((lookupT s t).getD []) (torrentFileName t v) with
      | none =>
        rw [entryExistsD_of_none _ _ hte] at hok
        have hne' : (decide (torrentFileName t v = "")) = false :=
          decide_eq_false (torrentFileName_ne_empty t v)
        rw [hne'] at hok
        simp only [Bool.not_false, Bool.and_true, if_true] at hok
        cases Except.ok.inj hok
      | some et =>
        obtain ⟨pay, hpay⟩ := h3 et hte
        subst hpay
        rw [entryExistsD_of_file _ _ _ hte] at hok
        simp only [Bool.not_true, Bool.and_false, Bool.false_eq_true, if_false] at hok
        exact hfiles (some (torrentFileName t v)) hok
          (fun tf' h => ⟨by rw [htf] at h; exact (Option.some.inj h).symm, pay, hte⟩) htf

theorem requiresGo_false_intro (s : FsTree) (v : String) : ∀ (rels : List ReleaseConfig),
    (∀ rel ∈ rels, ProjectFiles.is_release_type_synced s rel.name v = Except.ok true) →
    ProjectFiles.requiresGo s v rels = Except.ok false := by
  intro rels
  induction rels with
  | nil => intro _; rfl
  | cons rel rest ih =>
    intro h
    simp only [ProjectFiles.requiresGo, h rel (List.mem_cons_self rel rest),
      ih (fun r hr => h r (List.mem_cons_of_mem rel hr)), Bool.not_true, Bool.false_or]

theorem requiresGo_false_elim (s : FsTree) (v : String) : ∀ (rels : List ReleaseConfig),
    ProjectFiles.requiresGo s v rels = Except.ok false →
    ∀ rel ∈ rels, ProjectFiles.is_release_type_synced s rel.name v = Except.ok true := by
  intro rels
  induction rels with
  | nil => intro _ rel hm; cases hm
  | cons rel rest ih =>
    intro h r hm
    rw [ProjectFiles.requiresGo] at h
    cases hs : ProjectFiles.is_release_type_synced s rel.name v with
    | error e => rw [hs] at h; cases h
    | ok bh =>
      rw [hs] at h
      cases hr : ProjectFiles.requiresGo s v rest with
      | error e => rw [hr] at h; cases h
      | ok br =>
        rw [hr] at h
        have hor := Except.ok.inj h
        have hbh : bh = true := by
          cases bh
          · rw [Bool.not_false, Bool.true_or] at hor; cases hor
          · rfl
        have hbr : br = false := by
          cases br
          · rfl
          · rw [Bool.or_true] at hor; cases hor
        rcases List.mem_cons.mp hm with rfl | hm'
        · rw [hs, hbh]
        · exact ih (hbr ▸ hr) r hm'

theorem sync_version_noop (cfg : ProjectConfig) (up : Upstream) (s : FsTree) (v : String)
    (promo : FsTree) (hp : up.download_promotion_artifact v = some promo)
    (hr : ∀ rel ∈ cfg.releases,
      ProjectFiles.is_release_type_synced s rel.name v = Except.ok true) :
    ProjectFiles._sync_version cfg up s v = Except.ok (s, false) := by
  simp only [ProjectFiles._sync_version, hp, ProjectFiles._project_version_requires_sync,
    requiresGo_false_intro s v cfg.releases hr, Bool.false_eq_true, if_false]

theorem syncVersionsGo_noop (cfg : ProjectConfig) (up : Upstream) : ∀ (vs : List String)
    (s : FsTree) (st : Bool),
    (∀ v ∈ vs, ProjectFiles._sync_version cfg up s v = Except.ok (s, false)) →
    ProjectFiles.syncVersionsGo cfg up vs s st = Except.ok (s, st) := by
  intro vs
  induction vs with
  | nil => intro s st _; rfl
  | cons v vs ih =>
    intro s st h
    simp only [ProjectFiles.syncVersionsGo, h v (List.mem_cons_self v vs), Bool.or_false]
    exact ih s st (fun w hw => h w (List.mem_cons_of_mem v hw))

theorem setLatestForType_noop (s : FsTree) (t lv : String) (d : FsDir) (fs : List String)
    (hd : lookupT s t = some d)
    (hl : lookupD d "latest" = some (FsEntry.symlink (versionDirName t lv)))
    (ht : lookupD d (versionDirName t lv) = some (FsEntry.dir fs)) :
    setLatestForType s t lv = Except.ok (s, false) := by
  have hres := resolveE_link_dir d "latest" (versionDirName t lv) fs hl ht
  have hex : entryExistsD d "latest" = true := by
    rw [entryExistsD, hres]
    rfl
  have hfil : isFileAt d "latest" = false := by
    rw [isFileAt, hres]
  have hrd : readlinkD d "latest" = some (versionDirName t lv) := by
    rw [readlinkD, hl]
  have hc1 : ((isSymlinkAt d "latest" &&
      !(decide (readlinkD d "latest" = some (versionDirName t lv)))) ||
      isFileAt d "latest") = false := by
    rw [hrd, isSymlinkAt_of_symlink d "latest" _ hl, hfil]
    simp
  have hc2 : (!(isSymlinkAt d "latest") && isDirAt d "latest") = false := by
    rw [isSymlinkAt_of_symlink d "latest" _ hl]
    simp
  rw [setLatestForType, hd]
  simp only [hc1, Bool.false_eq_true, if_false, hex, if_true, hc2, setT_self_eq s t d hd]

theorem setLatestGo_noop (lv : String) : ∀ (rels : List ReleaseConfig) (s : FsTree) (st : Bool),
    (∀ rel ∈ rels, setLatestForType s rel.name lv = Except.ok (s, false)) →
    ProjectFiles.setLatestGo lv rels s st = Except.ok (s, st) := by
  intro rels
  induction rels with
  | nil => intro s st _; rfl
  | cons rel rest ih =>
    intro s st h
    simp only [ProjectFiles.setLatestGo, h rel (List.mem_cons_self rel rest), Bool.or_false]
    exact ih s st (fun r hr => h r (List.mem_cons_of_mem rel hr))

theorem removeObsoleteGo_noop (promoted : List String) : ∀ (rels : List ReleaseConfig)
    (s : FsTree) (st : Bool),
    (∀ rel ∈ rels, ∃ d, lookupT s rel.name = some d ∧
      pruneDirRun rel.name promoted d = Except.ok (d, false)) →
    ProjectFiles.removeObsoleteGo promoted rels s st = Except.ok (s, st) := by
  intro rels
  induction rels with
  | nil => intro s st _; rfl
  | cons rel rest ih =>
    intro s st h
    obtain ⟨d, hd, hprune⟩ := h rel (List.mem_cons_self rel rest)
    simp only [ProjectFiles.removeObsoleteGo, hd, hprune, Bool.or_false,
      setT_self_eq s rel.name d hd]
    exact ih s st (fun r hr => h r (List.mem_cons_of_mem rel hr))

theorem pruneGo_keep (expD expF : List String) : ∀ (ns : List String) (d : FsDir) (st : Bool)
    (d1 : FsDir) (b : Bool), pruneGo expD expF ns d st = Except.ok (d1, b) →
    ∀ (n : String) (e : FsEntry), lookupD d n = some e →
      ((∃ fs, e = FsEntry.dir fs) ∧ n ∈ expD ∨ (∃ pay, e = FsEntry.file pay) ∧ n ∈ expF) →
      lookupD d1 n = some e := by
  intro ns
  induction ns with
  | nil =>
    intro d st d1 b h n e hn hk
    rw [pruneGo] at h
    cases Except.ok.inj h
    exact hn
  | cons m ns ih =>
    intro d st d1 b h n e hn hk
    rw [pruneGo] at h
    have hmn_of : ∀ em, lookupD d m = some em → (∀ fs, ¬ em = FsEntry.dir fs) →
        (∀ pay, ¬ em = FsEntry.file pay) → ¬ m = n := by
      intro em hm hd hf hq
      subst hq
      rw [hm] at hn
      rcases hk with ⟨⟨fs, hfs⟩, -⟩ | ⟨⟨pay, hpay⟩, -⟩
      · exact hd fs (Option.some.inj hn ▸ hfs)
      · exact hf pay (Option.some.inj hn ▸ hpay)
    cases hm : lookupD d m with
    | none =>
      simp only [hm] at h
      exact ih d st d1 b h n e hn hk
    | some em =>
      cases em with
      | symlink tg =>
        simp only [hm] at h
        by_cases hC1 : (isDirAt d m && !(decide (m ∈ expD))) = true
        · rw [if_pos hC1] at h
          cases h
        · rw [if_neg hC1] at h
          have hmn : ¬ m = n :=
            hmn_of _ hm (fun fs hq => by cases hq) (fun pay hq => by cases hq)
          by_cases hC2 : (isFileAt d m && !(decide (m ∈ expF))) = true
          · rw [if_pos hC2] at h
            exact ih _ _ _ _ h n e (by rw [lookupD_eraseD_ne d m n hmn]; exact hn) hk
          · rw [if_neg hC2] at h
            exact ih d st d1 b h n e hn hk
      | dir fs =>
        simp only [hm] at h
        by_cases hC1 : (isDirAt d m && !(decide (m ∈ expD))) = true
        · rw [if_pos hC1] at h
          have hmn : ¬ m = n := by
            intro hq
            subst hq
            rw [hm] at hn
            have hee : e = FsEntry.dir fs := (Option.some.inj hn).symm
            have hmem : m ∈ expD := by
              rcases hk with ⟨-, hmem⟩ | ⟨⟨pay, hpay⟩, -⟩
              · exact hmem
              · rw [hee] at hpay; cases hpay
            have := (Bool.and_eq_true_iff.mp hC1).2
            rw [decide_eq_true hmem] at this
            cases this
          exact ih _ _ _ _ h n e (by rw [lookupD_eraseD_ne d m n hmn]; exact hn) hk
        · rw [if_neg hC1] at h
          by_cases hC2 : (isFileAt d m && !(decide (m ∈ expF))) = true
          · rw [isFileAt_of_dir d m fs hm] at hC2
            cases hC2
          · rw [if_neg hC2] at h
            exact ih d st d1 b h n e hn hk
      | file pay =>
        simp only [hm] at h
        by_cases hC1 : (isDirAt d m && !(decide (m ∈ expD))) = true
        · rw [isDirAt_of_file d m pay hm] at hC1
          cases hC1
        · rw [if_neg hC1] at h
          by_cases hC2 : (isFileAt d m && !(decide (m ∈ expF))) = true
          · rw [if_pos hC2] at h
            have hmn : ¬ m = n := by
              intro hq
              subst hq
              rw [hm] at hn
              have hee : e = FsEntry.file pay := (Option.some.inj hn).symm
              have hmem : m ∈ expF := by
                rcases hk with ⟨⟨fs, hfs⟩, -⟩ | ⟨-, hmem⟩
                · rw [hee] at hfs; cases hfs
                · exact hmem
              have := (Bool.and_eq_true_iff.mp hC2).2
              rw [decide_eq_true hmem] at this
              cases this
            exact ih _ _ _ _ h n e (by rw [lookupD_eraseD_ne d m n hmn]; exact hn) hk
          · rw [if_neg hC2] at h
            exact ih d st d1 b h n e hn hk

theorem pruneGo_keep_link (expD expF : List String) : ∀ (ns : List String) (d : FsDir)
    (st : Bool) (d1 : FsDir) (b : Bool), pruneGo expD expF ns d st = Except.ok (d1, b) →
    ∀ (n m : String) (fs : List String), lookupD d n = some (FsEntry.symlink m) →
      lookupD d m = some (FsEntry.dir fs) → n ∈ expD → m ∈ expD → ¬ n = m →
      lookupD d1 n = some (FsEntry.symlink m) := by
  intro ns
  induction ns with
  | nil =>
    intro d st d1 b h n m fs hn hm _ _ _
    rw [pruneGo] at h
    cases Except.ok.inj h
    exact hn
  | cons k ns ih =>
    intro d st d1 b h n m fs hn hm hnD hmD hnm
    rw [pruneGo] at h
    cases hk : lookupD d k with
    | none =>
      simp only [hk] at h
      exact ih d st d1 b h n m fs hn hm hnD hmD hnm
    | some ek =>
      by_cases hkn : k = n
      · subst hkn
        have hee : ek = FsEntry.symlink m := Option.some.inj (hk.symm.trans hn)
        subst hee
        simp only [hk] at h
        have hdir : isDirAt d k = true := by
          rw [isDirAt, resolveE_link_dir d k m fs hn hm]
        have hfil : isFileAt d k = false := by
          rw [isFileAt, resolveE_link_dir d k m fs hn hm]
        by_cases hC1 : (isDirAt d k && !(decide (k ∈ expD))) = true
        · rw [if_pos hC1] at h
          cases h
        · rw [if_neg hC1] at h
          have hC2 : ¬ (isFileAt d k && !(decide (k ∈ expF))) = true := by
            rw [hfil]
            simp
          rw [if_neg hC2] at h
          exact ih d st d1 b h k m fs hn hm hnD hmD hnm
      · by_cases hkm : k = m
        · subst hkm
          have hee : ek = FsEntry.dir fs := Option.some.inj (hk.symm.trans hm)
          subst hee
          simp only [hk] at h
          have hC1 : ¬ (isDirAt d k && !(decide (k ∈ expD))) = true := by
            rw [decide_eq_true hmD]
            simp
          rw [if_neg hC1] at h
          have hC2 : ¬ (isFileAt d k && !(decide (k ∈ expF))) = true := by
            rw [isFileAt_of_dir d k fs hk]
            simp
          rw [if_neg hC2] at h
          exact ih d st d1 b h n k fs hn hm hnD hmD hnm
        · simp only [hk] at h
          have hn' : lookupD (eraseD d k) n = some (FsEntry.symlink m) := by
            rw [lookupD_eraseD_ne d k n hkn]; exact hn
          have hm' : lookupD (eraseD d k) m = some (FsEntry.dir fs) := by
            rw [lookupD_eraseD_ne d k m hkm]; exact hm
          cases ek with
          | symlink tg =>
            by_cases hC1 : (isDirAt d k && !(decide (k ∈ expD))) = true
            · rw [if_pos hC1] at h
              cases h
            · rw [if_neg hC1] at h
              by_cases hC2 : (isFileAt d k && !(decide (k ∈ expF))) = true
              · rw [if_pos hC2] at h
                exact ih _ _ _ _ h n m fs hn' hm' hnD hmD hnm
              · rw [if_neg hC2] at h
                exact ih d st d1 b h n m fs hn hm hnD hmD hnm
          | dir gs =>
            by_cases hC1 : (isDirAt d k && !(decide (k ∈ expD))) = true
            · rw [if_pos hC1] at h
              exact ih _ _ _ _ h n m fs hn' hm' hnD hmD hnm
            · rw [if_neg hC1] at h
              by_cases hC2 : (isFileAt d k && !(decide (k ∈ expF))) = true
              · rw [isFileAt_of_dir d k gs hk] at hC2
                cases hC2
              · rw [if_neg hC2] at h
                exact ih d st d1 b h n m fs hn hm hnD hmD hnm
          | file pay =>
            by_cases hC1 : (isDirAt d k && !(decide (k ∈ expD))) = true
            · rw [isDirAt_of_file d k pay hk] at hC1
              cases hC1
            · rw [if_neg hC1] at h
              by_cases hC2 : (isFileAt d k && !(decide (k ∈ expF))) = true
              · rw [if_pos hC2] at h
                exact ih _ _ _ _ h n m fs hn' hm' hnD hmD hnm
              · rw [if_neg hC2] at h
                exact ih d st d1 b h n m fs hn hm hnD hmD hnm

theorem pruneGo_inv (expD expF : List String) : ∀ (ns : List String) (d : FsDir) (st : Bool)
    (d1 : FsDir) (b : Bool), pruneGo expD expF ns d st = Except.ok (d1, b) →
    (∃ Q : String → Bool, d1 = d.filter (fun p => Q p.1)) ∧
    (∀ n ∈ ns, ∀ e, lookupD d1 n = some e →
      (isDirAt d1 n = true → n ∈ expD) ∧ (isFileAt d1 n = true → n ∈ expF)) := by
  intro ns
  induction ns with
  | nil =>
    intro d st d1 b h
    rw [pruneGo] at h
    cases Except.ok.inj h
    exact ⟨⟨fun _ => true, by simp⟩, fun n hn => absurd hn (List.not_mem_nil n)⟩
  | cons m ns ih =>
    intro d st d1 b h
    rw [pruneGo] at h
    have herase : ∀ st', pruneGo expD expF ns (eraseD d m) st' = Except.ok (d1, b) →
        (∃ Q : String → Bool, d1 = d.filter (fun p => Q p.1)) ∧
        (∀ n ∈ m :: ns, ∀ e, lookupD d1 n = some e →
          (isDirAt d1 n = true → n ∈ expD) ∧ (isFileAt d1 n = true → n ∈ expF)) := by
      intro st' h'
      obtain ⟨⟨Q, hQ⟩, hpost⟩ := ih (eraseD d m) st' d1 b h'
      have hQ2 : d1 = d.filter (fun p => (Q p.1 && !(decide (p.1 = m)))) := by
        rw [hQ]
        show (d.filter (fun p => !(decide (p.1 = m)))).filter (fun p => Q p.1) = _
        rw [List.filter_filter]
      refine ⟨⟨fun x => Q x && !(decide (x = m)), hQ2⟩, ?_⟩
      intro n hn e hne
      rcases List.mem_cons.mp hn with rfl | hn'
      · have hne2 : (if (Q n && !(decide (n = n))) = true then lookupD d n else none) =
            some e := by
          rw [← lookupD_filter d (fun x => Q x && !(decide (x = n))) n]
          exact hQ2 ▸ hne
        simp at hne2
      · exact hpost n hn' e hne
    have hkeep : pruneGo expD expF ns d st = Except.ok (d1, b) →
        (isDirAt d m = true → m ∈ expD) → (isFileAt d m = true → m ∈ expF) →
        (∃ Q : String → Bool, d1 = d.filter (fun p => Q p.1)) ∧
        (∀ n ∈ m :: ns, ∀ e, lookupD d1 n = some e →
          (isDirAt d1 n = true → n ∈ expD) ∧ (isFileAt d1 n = true → n ∈ expF)) := by
      intro h' hD hF
      obtain ⟨⟨Q, hQ⟩, hpost⟩ := ih d st d1 b h'
      refine ⟨⟨Q, hQ⟩, ?_⟩
      intro n hn e hne
      rcases List.mem_cons.mp hn with rfl | hn'
      · constructor
        · intro hdir
          exact hD (isDirAt_filter d Q n (hQ ▸ hdir))
        · intro hfil
          exact hF (isFileAt_filter d Q n (hQ ▸ hfil))
      · exact hpost n hn' e hne
    cases hm : lookupD d m with
    | none =>
      simp only [hm] at h
      apply hkeep h
      · intro hdir
        rw [isDirAt_of_none d m hm] at hdir
        cases hdir
      · intro hfil
        rw [isFileAt_of_none d m hm] at hfil
        cases hfil
    | some em =>
      cases em with
      | symlink tg =>
        simp only [hm] at h
        by_cases hC1 : (isDirAt d m && !(decide (m ∈ expD))) = true
        · rw [if_pos hC1] at h
          cases h
        · rw [if_neg hC1] at h
          by_cases hC2 : (isFileAt d m && !(decide (m ∈ expF))) = true
          · rw [if_pos hC2] at h
            exact herase true h
          · rw [if_neg hC2] at h
            rw [Bool.not_eq_true, Bool.and_eq_false_iff] at hC1 hC2
            apply hkeep h
            · intro hdir
              rcases hC1 with hC1 | hC1
              · rw [hdir] at hC1; cases hC1
              · rw [Bool.not_eq_false'] at hC1
                exact of_decide_eq_true hC1
            · intro hfil
              rcases hC2 with hC2 | hC2
              · rw [hfil] at hC2; cases hC2
              · rw [Bool.not_eq_false'] at hC2
                exact of_decide_eq_true hC2
      | dir fs =>
        simp only [hm] at h
        by_cases hC1 : (isDirAt d m && !(decide (m ∈ expD))) = true
        · rw [if_pos hC1] at h
          exact herase true h
        · rw [if_neg hC1] at h
          by_cases hC2 : (isFileAt d m && !(decide (m ∈ expF))) = true
          · rw [if_pos hC2] at h
            exact herase true h
          · rw [if_neg hC2] at h
            rw [Bool.not_eq_true, Bool.and_eq_false_iff] at hC1 hC2
            apply hkeep h
            · intro hdir
              rcases hC1 with hC1 | hC1
              · rw [hdir] at hC1; cases hC1
              · rw [Bool.not_eq_false'] at hC1
                exact of_decide_eq_true hC1
            · intro hfil
              rcases hC2 with hC2 | hC2
              · rw [hfil] at hC2; cases hC2
              · rw [Bool.not_eq_false'] at hC2
                exact of_decide_eq_true hC2
      | file pay =>
        simp only [hm] at h
        by_cases hC1 : (isDirAt d m && !(decide (m ∈ expD))) = true
        · rw [isDirAt_of_file d m pay hm] at hC1
          cases hC1
        · rw [if_neg hC1] at h
          by_cases hC2 : (isFileAt d m && !(decide (m ∈ expF))) = true
          · rw [if_pos hC2] at h
            exact herase true h
          · rw [if_neg hC2] at h
            rw [Bool.not_eq_true, Bool.and_eq_false_iff] at hC1 hC2
            apply hkeep h
            · intro hdir
              rcases hC1 with hC1 | hC1
              · rw [hdir] at hC1; cases hC1
              · rw [Bool.not_eq_false'] at hC1
                exact of_decide_eq_true hC1
            · intro hfil
              rcases hC2 with hC2 | hC2
              · rw [hfil] at hC2; cases hC2
              · rw [Bool.not_eq_false'] at hC2
                exact of_decide_eq_true hC2

theorem pruneGo_noop (expD expF : List String) : ∀ (ns : List String) (d : FsDir) (st : Bool),
    (∀ n ∈ ns, ∀ e, lookupD d n = some e →
      (isDirAt d n = true → n ∈ expD) ∧ (isFileAt d n = true → n ∈ expF)) →
    pruneGo expD expF ns d st = Except.ok (d, st) := by
  intro ns
  induction ns with
  | nil => intro d st _; rfl
  | cons m ns ih =>
    intro d st hcond
    rw [pruneGo]
    cases hm : lookupD d m with
    | none =>
      exact ih d st (fun n hn => hcond n (List.mem_cons_of_mem m hn))
    | some em =>
      obtain ⟨hD, hF⟩ := hcond m (List.mem_cons_self m ns) em hm
      have hC1 : (isDirAt d m && !(decide (m ∈ expD))) = false := by
        cases hdir : isDirAt d m
        · rfl
        · rw [decide_eq_true (hD hdir)]
          rfl
      have hC2 : (isFileAt d m && !(decide (m ∈ expF))) = false := by
        cases hfil : isFileAt d m
        · rfl
        · rw [decide_eq_true (hF hfil)]
          rfl
      cases em with
      | symlink tg =>
        simp only [hC1, Bool.false_eq_true, if_false, hC2]
        exact ih d st (fun n hn => hcond n (List.mem_cons_of_mem m hn))
      | dir fs =>
        simp only [hC1, Bool.false_eq_true, if_false, hC2]
        exact ih d st (fun n hn => hcond n (List.mem_cons_of_mem m hn))
      | file pay =>
        simp only [hC1, Bool.false_eq_true, if_false, hC2]
        exact ih d st (fun n hn => hcond n (List.mem_cons_of_mem m hn))

theorem pruneDirRun_idem (t : String) (promoted : List String) (d d1 : FsDir) (b : Bool)
    (h : pruneDirRun t promoted d = Except.ok (d1, b)) :
    pruneDirRun t promoted d1 = Except.ok (d1, false) := by
  rw [pruneDirRun] at h
  obtain ⟨⟨Q, hQ⟩, hpost⟩ := pruneGo_inv _ _ _ d false d1 b h
  rw [pruneDirRun]
  apply pruneGo_noop
  intro n hn e hne
  have hn' : n ∈ List.map Prod.fst d := by
    rw [hQ] at hn
    rcases List.mem_map.mp hn with ⟨p, hp, hpn⟩
    exact hpn ▸ List.mem_map_of_mem Prod.fst (List.mem_of_mem_filter hp)
  exact hpost n hn' e hne

theorem removeObsoleteGo_inv (promoted : List String) : ∀ (rels : List ReleaseConfig)
    (s : FsTree) (st : Bool) (s3 : FsTree) (b : Bool),
    ProjectFiles.removeObsoleteGo promoted rels s st = Except.ok (s3, b) →
    (rels.map (fun rel => rel.name)).Nodup →
    (∀ rel ∈ rels, ∃ d d1 bb, lookupT s rel.name = some d ∧
      pruneDirRun rel.name promoted d = Except.ok (d1, bb) ∧ lookupT s3 rel.name = some d1) ∧
    (∀ t, (∀ rel ∈ rels, ¬ rel.name = t) → lookupT s3 t = lookupT s t) ∧
    (∀ p ∈ s3, p.1 ∈ s.map Prod.fst) := by
  intro rels
  induction rels with
  | nil =>
    intro s st s3 b h _
    rw [ProjectFiles.removeObsoleteGo] at h
    cases Except.ok.inj h
    exact ⟨fun rel hrel => absurd hrel (List.not_mem_nil rel),
      fun t _ => rfl, fun p hp => List.mem_map_of_mem Prod.fst hp⟩
  | cons rel rest ih =>
    intro s st s3 b h hnodup
    rw [List.map_cons, List.nodup_cons] at hnodup
    obtain ⟨hrelnm, hnodup'⟩ := hnodup
    rw [ProjectFiles.removeObsoleteGo] at h
    cases hd : lookupT s rel.name with
    | none =>
      rw [hd] at h
      cases h
    | some d =>
      simp only [hd] at h
      cases hpr : pruneDirRun rel.name promoted d with
      | error e =>
        rw [hpr] at h
        cases h
      | ok pr =>
        obtain ⟨d1, bb⟩ := pr
        simp only [hpr] at h
        obtain ⟨hall, hframe, hnames⟩ := ih (setT s rel.name d1) (st || bb) s3 b h hnodup'
        have hother : ∀ rel' ∈ rest, ¬ rel'.name = rel.name := by
          intro rel' hm hq
          exact hrelnm (hq ▸ List.mem_map_of_mem (fun x => x.name) hm)
        refine ⟨?_, ?_, ?_⟩
        · intro r hm
          rcases List.mem_cons.mp hm with rfl | hm'
          · refine ⟨d, d1, bb, hd, hpr, ?_⟩
            rw [hframe r.name (fun rel' hm' hq => hother rel' hm' hq),
              lookupT_setT_self]
          · obtain ⟨dr, dr1, bbr, hdr, hprr, hd3⟩ := hall r hm'
            refine ⟨dr, dr1, bbr, ?_, hprr, hd3⟩
            rw [← hdr, lookupT_setT_ne s rel.name d1 r.name (fun hq => hother r hm' hq.symm)]
        · intro t ht
          rw [hframe t (fun r hm => ht r (List.mem_cons_of_mem rel hm)),
            lookupT_setT_ne s rel.name d1 t (ht rel (List.mem_cons_self rel rest))]
        · intro p hp
          have h1 := hnames p hp
          rcases List.mem_map.mp h1 with ⟨q, hq, hqp⟩
          rcases mem_setT s rel.name d1 q hq with rfl | hq'
          · exact hqp ▸ mem_map_fst_of_lookupT s rel.name d hd
          · exact hqp ▸ List.mem_map_of_mem Prod.fst hq'

theorem latest_mem_expectedDirNames (t : String) (promoted : List String) :
    "latest" ∈ expectedDirNames t promoted :=
  List.mem_cons_self "latest" _

theorem versionDir_mem_expectedDirNames (t v : String) (promoted : List String)
    (h : v ∈ promoted) : versionDirName t v ∈ expectedDirNames t promoted :=
  List.mem_cons_of_mem "latest" (List.mem_map_of_mem (fun w => versionDirName t w) h)

theorem json_mem_expectedFileNames (t v : String) (promoted : List String)
    (h : v ∈ promoted) : jsonFileName t v ∈ expectedFileNames t promoted :=
  List.mem_append.mpr (Or.inl (List.mem_map_of_mem (fun w => jsonFileName t w) h))

theorem torrent_mem_expectedFileNames (t v : String) (promoted : List String)
    (h : v ∈ promoted) : torrentFileName t v ∈ expectedFileNames t promoted :=
  List.mem_append.mpr (Or.inr (List.mem_map_of_mem (fun w => torrentFileName t w) h))

theorem setLatestForType_inv (s : FsTree) (t lv : String) (s2 : FsTree) (ch : Bool)
    (h : setLatestForType s t lv = Except.ok (s2, ch)) :
    ∃ d d', lookupT s t = some d ∧ s2 = setT s t d' ∧
      lookupD d' "latest" = some (FsEntry.symlink (versionDirName t lv)) ∧
      ∀ n, ¬ n = "latest" → lookupD d' n = lookupD d n := by
  rw [setLatestForType] at h
  cases hd : lookupT s t with
  | none =>
    rw [hd] at h
    cases h
  | some d =>
    simp only [hd] at h
    refine ⟨d, ?_⟩
    have hcreate : ∀ (da : FsDir), lookupD da "latest" = none →
        (∀ n, ¬ n = "latest" → lookupD da n = lookupD d n) →
        (if entryExistsD da "latest" = true then
          Except.ok (setT s t da, false)
        else
          match lookupD da "latest" with
          | some _ => Except.error ("FileExistsError: " ++ t ++ "/latest")
          | none => Except.ok
              (setT s t (setD da "latest" (FsEntry.symlink (versionDirName t lv))), true)) =
          Except.ok (s2, ch) →
        ∃ d', s2 = setT s t d' ∧
          lookupD d' "latest" = some (FsEntry.symlink (versionDirName t lv)) ∧
          ∀ n, ¬ n = "latest" → lookupD d' n = lookupD d n := by
      intro da hnone hframe hh
      rw [entryExistsD_of_none da "latest" hnone] at hh
      simp only [Bool.false_eq_true, if_false, hnone] at hh
      have h2 := Except.ok.inj hh
      refine ⟨setD da "latest" (FsEntry.symlink (versionDirName t lv)),
        ((Prod.mk.injEq _ _ _ _).mp h2).1.symm, lookupD_setD_self da "latest" _, ?_⟩
      intro n hn
      rw [lookupD_setD_ne da "latest" _ n (fun hq => hn hq.symm), hframe n hn]
    by_cases hE0 : entryExistsD d "latest" = true
    · by_cases hC1 : ((isSymlinkAt d "latest" &&
          !(decide (readlinkD d "latest" = some (versionDirName t lv)))) ||
          isFileAt d "latest") = true
      · have hnone : lookupD (eraseD d "latest") "latest" = none :=
          lookupD_eraseD_self d "latest"
        have hC2 : (!(isSymlinkAt (eraseD d "latest") "latest") &&
            isDirAt (eraseD d "latest") "latest") = false := by
          rw [isDirAt_of_none _ "latest" hnone]
          simp
        rw [hE0] at h
        simp only [if_true, hC1, Bool.false_eq_true, if_false, hC2] at h
        obtain ⟨d', hh1, hh2, hh3⟩ := hcreate (eraseD d "latest") hnone
          (fun n hn => lookupD_eraseD_ne d "latest" n (fun hq => hn hq.symm)) h
        exact ⟨d', rfl, hh1, hh2, hh3⟩
      · rw [hE0] at h
        rw [Bool.not_eq_true] at hC1
        simp only [if_true, hC1, Bool.false_eq_true, if_false] at h
        by_cases hC2 : (!(isSymlinkAt d "latest") && isDirAt d "latest") = true
        · have hnone : lookupD (eraseD d "latest") "latest" = none :=
            lookupD_eraseD_self d "latest"
          simp only [hC2, if_true] at h
          obtain ⟨d', hh1, hh2, hh3⟩ := hcreate (eraseD d "latest") hnone
            (fun n hn => lookupD_eraseD_ne d "latest" n (fun hq => hn hq.symm)) h
          exact ⟨d', rfl, hh1, hh2, hh3⟩
        · rw [Bool.not_eq_true] at hC2
          simp only [hC2, Bool.false_eq_true, if_false, hE0, if_true] at h
          have h2 := Except.ok.inj h
          cases hL : lookupD d "latest" with
          | none =>
            rw [entryExistsD_of_none d "latest" hL] at hE0
            cases hE0
          | some e =>
            cases e with
            | file pay =>
              rw [isFileAt_of_file d "latest" pay hL, Bool.or_true] at hC1
              cases hC1
            | dir fs =>
              rw [isSymlinkAt_of_dir d "latest" fs hL, isDirAt_of_dir d "latest" fs hL] at hC2
              cases hC2
            | symlink tg =>
              rw [isSymlinkAt_of_symlink d "latest" tg hL, readlinkD_of_symlink d "latest" tg hL,
                Bool.true_and] at hC1
              have htg : tg = versionDirName t lv := by
                have : decide ((some tg : Option String) =
                    some (versionDirName t lv)) = true := by
                  cases hdec : decide ((some tg : Option String) =
                      some (versionDirName t lv))
                  · rw [hdec] at hC1
                    simp at hC1
                  · rfl
                exact Option.some.inj (of_decide_eq_true this)
              refine ⟨d, rfl, ((Prod.mk.injEq _ _ _ _).mp h2).1.symm, ?_, fun n _ => rfl⟩
              rw [hL, htg]
    · rw [Bool.not_eq_true] at hE0
      simp only [hE0, Bool.false_eq_true, if_false] at h
      cases hL : lookupD d "latest" with
      | none =>
        simp only [hL] at h
        have h2 := Except.ok.inj h
        refine ⟨setD d "latest" (FsEntry.symlink (versionDirName t lv)), rfl,
          ((Prod.mk.injEq _ _ _ _).mp h2).1.symm, lookupD_setD_self d "latest" _, ?_⟩
        intro n hn
        rw [lookupD_setD_ne d "latest" _ n (fun hq => hn hq.symm)]
      | some e =>
        simp only [hL] at h
        cases h

theorem setLatestGo_inv (lv : String) : ∀ (rels : List ReleaseConfig) (s : FsTree) (st : Bool)
    (s2 : FsTree) (ch : Bool),
    ProjectFiles.setLatestGo lv rels s st = Except.ok (s2, ch) →
    (rels.map (fun rel => rel.name)).Nodup →
    (∀ rel ∈ rels,
      lookupDT s2 rel.name "latest" = some (FsEntry.symlink (versionDirName rel.name lv)) ∧
      ∀ n, ¬ n = "latest" → lookupDT s2 rel.name n = lookupDT s rel.name n) ∧
    (∀ t, (∀ rel ∈ rels, ¬ rel.name = t) → lookupT s2 t = lookupT s t) ∧
    (∀ p ∈ s2, p.1 ∈ s.map Prod.fst) := by
  intro rels
  induction rels with
  | nil =>
    intro s st s2 ch h _
    rw [ProjectFiles.setLatestGo] at h
    cases Except.ok.inj h
    exact ⟨fun rel hrel => absurd hrel (List.not_mem_nil rel),
      fun t _ => rfl, fun p hp => List.mem_map_of_mem Prod.fst hp⟩
  | cons rel rest ih =>
    intro s st s2 ch h hnodup
    rw [List.map_cons, List.nodup_cons] at hnodup
    obtain ⟨hrelnm, hnodup'⟩ := hnodup
    rw [ProjectFiles.setLatestGo] at h
    cases hstep : setLatestForType s rel.name lv with
    | error e =>
      rw [hstep] at h
      cases h
    | ok pr =>
      obtain ⟨s1, b⟩ := pr
      simp only [hstep] at h
      obtain ⟨d, d', hd, hs1, hlat, hframe⟩ := setLatestForType_inv s rel.name lv s1 b hstep
      obtain ⟨hall, htree, hnames⟩ := ih s1 (st || b) s2 ch h hnodup'
      have hother : ∀ rel' ∈ rest, ¬ rel'.name = rel.name := by
        intro rel' hm hq
        exact hrelnm (hq ▸ List.mem_map_of_mem (fun x => x.name) hm)
      have hs1rel : lookupT s1 rel.name = some d' := by
        rw [hs1, lookupT_setT_self]
      have hs2rel : lookupT s2 rel.name = lookupT s1 rel.name :=
        htree rel.name (fun r hm hq => hother r hm hq)
      refine ⟨?_, ?_, ?_⟩
      · intro r hm
        rcases List.mem_cons.mp hm with rfl | hm'
        · constructor
          · rw [lookupDT, hs2rel, hs1rel]
            exact hlat
          · intro n hn
            rw [lookupDT, lookupDT, hs2rel, hs1rel, hd]
            exact hframe n hn
        · obtain ⟨h1, h2⟩ := hall r hm'
          refine ⟨h1, ?_⟩
          intro n hn
          rw [h2 n hn, lookupDT, lookupDT, hs1,
            lookupT_setT_ne s rel.name d' r.name (fun hq => hother r hm' hq.symm)]
      · intro u hu
        rw [htree u (fun r hm => hu r (List.mem_cons_of_mem rel hm)), hs1,
          lookupT_setT_ne s rel.name d' u (hu rel (List.mem_cons_self rel rest))]
      · intro p hp
        have h1 := hnames p hp
        rcases List.mem_map.mp h1 with ⟨q, hq, hqp⟩
        rw [hs1] at hq
        rcases mem_setT s rel.name d' q hq with rfl | hq'
        · exact hqp ▸ mem_map_fst_of_lookupT s rel.name d hd
        · exact hqp ▸ List.mem_map_of_mem Prod.fst hq'

theorem resolveE_lookup (d : FsDir) : ∀ (fuel : Nat) (x m : String) (e : FsEntry),
    resolveE d fuel x = some (m, e) → lookupD d m = some e := by
  intro fuel
  induction fuel with
  | zero => intro x m e h; cases h
  | succ fuel ih =>
    intro x m e h
    cases hx : lookupD d x with
    | none =>
      rw [resolveE_of_none d _ x hx] at h
      cases h
    | some e' =>
      cases e' with
      | symlink tg =>
        rw [resolveE_of_symlink d fuel x tg hx] at h
        exact ih tg m e h
      | dir fs =>
        rw [resolveE_of_dir d fuel x fs hx] at h
        obtain ⟨h1, h2⟩ := Prod.mk.injEq _ _ _ _ ▸ Option.some.inj h
        rw [← h1, ← h2]
        exact hx
      | file pay =>
        rw [resolveE_of_file d fuel x pay hx] at h
        obtain ⟨h1, h2⟩ := Prod.mk.injEq _ _ _ _ ▸ Option.some.inj h
        rw [← h1, ← h2]
        exact hx

theorem removeDestDir_frame (d : FsDir) (n : String) (d1 : FsDir)
    (h : removeDestDir d n = Except.ok d1) :
    ∀ m, ¬ m = n → lookupD d1 m = lookupD d m := by
  rw [removeDestDir] at h
  have herase : eraseD d n = d1 → ∀ m, ¬ m = n → lookupD d1 m = lookupD d m := by
    intro he m hm
    rw [← he]
    exact lookupD_eraseD_ne d n m (fun hq => hm hq.symm)
  by_cases hE : entryExistsD d n = true
  · rw [if_pos hE] at h
    by_cases hD : isDirAt d n = true
    · rw [if_pos hD] at h
      cases hL : lookupD d n with
      | none =>
        simp only [hL] at h
        exact herase (Except.ok.inj h)
      | some e =>
        cases e with
        | symlink tg =>
          simp only [hL] at h
          cases h
        | dir fs =>
          simp only [hL] at h
          exact herase (Except.ok.inj h)
        | file pay =>
          simp only [hL] at h
          exact herase (Except.ok.inj h)
    · rw [if_neg hD] at h
      exact herase (Except.ok.inj h)
  · rw [if_neg hE] at h
    intro m _
    rw [← Except.ok.inj h]

theorem shutilMoveInto_set (d : FsDir) (dn : String) (e : FsEntry)
    (h1 : ∀ fs, ¬ lookupD d dn = some (FsEntry.dir fs))
    (h2 : ∀ tg, ¬ lookupD d dn = some (FsEntry.symlink tg)) :
    shutilMoveInto d dn e = Except.ok (setD d dn e) := by
  rw [shutilMoveInto]
  cases hL : lookupD d dn with
  | none => simp only [hL]
  | some e' =>
    cases e' with
    | dir fs => exact absurd hL (h1 fs)
    | symlink tg => exact absurd hL (h2 tg)
    | file pay => simp only [hL]

theorem moveFilesGo_frame (vdir : String) : ∀ (files : List String) (srcSub : FsDir)
    (destFs : List String) (srcSub1 : FsDir) (destFs1 : List String),
    moveFilesGo vdir srcSub destFs files = Except.ok (srcSub1, destFs1) →
    ∀ n e, lookupD srcSub n = some e → (∀ fs, ¬ e = FsEntry.dir fs) →
    lookupD srcSub1 n = some e := by
  intro files
  induction files with
  | nil =>
    intro srcSub destFs srcSub1 destFs1 h n e hn _
    rw [moveFilesGo] at h
    cases Except.ok.inj h
    exact hn
  | cons f fs ih =>
    intro srcSub destFs srcSub1 destFs1 h n e hn hnd
    rw [moveFilesGo] at h
    cases hr : resolveE srcSub (srcSub.length + 1) vdir with
    | none =>
      simp only [hr] at h
      cases h
    | some pr =>
      obtain ⟨m, em⟩ := pr
      cases em with
      | dir sfs =>
        simp only [hr] at h
        by_cases hf : f ∈ sfs
        · rw [if_pos hf] at h
          have hm : lookupD srcSub m = some (FsEntry.dir sfs) :=
            resolveE_lookup srcSub _ vdir m _ hr
          have hmn : ¬ m = n := by
            intro hq
            subst hq
            exact hnd sfs (Option.some.inj (hn.symm.trans hm))
          refine ih _ _ _ _ h n e ?_ hnd
          rw [lookupD_setD_ne _ m _ n hmn]
          exact hn
        · rw [if_neg hf] at h
          cases h
      | file pay =>
        simp only [hr] at h
        cases h
      | symlink tg =>
        simp only [hr] at h
        cases h

theorem moveFilesGo_files (vdir : String) : ∀ (files : List String) (srcSub : FsDir)
    (destFs : List String) (srcSub1 : FsDir) (destFs1 : List String),
    moveFilesGo vdir srcSub destFs files = Except.ok (srcSub1, destFs1) →
    (∀ g ∈ destFs, g ∈ destFs1) ∧ (∀ f ∈ files, f ∈ destFs1) := by
  intro files
  induction files with
  | nil =>
    intro srcSub destFs srcSub1 destFs1 h
    rw [moveFilesGo] at h
    cases Except.ok.inj h
    exact ⟨fun g hg => hg, fun f hf => absurd hf (List.not_mem_nil f)⟩
  | cons f fs ih =>
    intro srcSub destFs srcSub1 destFs1 h
    rw [moveFilesGo] at h
    cases hr : resolveE srcSub (srcSub.length + 1) vdir with
    | none =>
      simp only [hr] at h
      cases h
    | some pr =>
      obtain ⟨m, em⟩ := pr
      cases em with
      | dir sfs =>
        simp only [hr] at h
        by_cases hf : f ∈ sfs
        · rw [if_pos hf] at h
          obtain ⟨hsub, hall⟩ := ih _ _ _ _ h
          have hsub0 : ∀ g ∈ destFs, g ∈ (if f ∈ destFs then destFs else destFs ++ [f]) := by
            intro g hg
            by_cases hfd : f ∈ destFs
            · rw [if_pos hfd]; exact hg
            · rw [if_neg hfd]; exact List.mem_append_left [f] hg
          have hfin : f ∈ (if f ∈ destFs then destFs else destFs ++ [f]) := by
            by_cases hfd : f ∈ destFs
            · rw [if_pos hfd]; exact hfd
            · rw [if_neg hfd]
              exact List.mem_append_right destFs (List.mem_singleton_self f)
          refine ⟨fun g hg => hsub g (hsub0 g hg), ?_⟩
          intro f' hf'
          rcases List.mem_cons.mp hf' with rfl | hf''
          · exact hsub f' hfin
          · exact hall f' hf''
        · rw [if_neg hf] at h
          cases h
      | file pay =>
        simp only [hr] at h
        cases h
      | symlink tg =>
        simp only [hr] at h
        cases h

theorem move_post_aux (r : Release) (source sync source' sync' : FsTree) (srcSub base : FsDir)
    (hb : lookupT sync r.name = some base)
    (hsrc : lookupT source r.name = some srcSub)
    (hjson : lookupD srcSub (jsonFileName r.name r.version) = some (FsEntry.file (some r)))
    (htor : ∀ tf, r.torrent_file = some tf → tf = torrentFileName r.name r.version ∧
      ∃ pay, lookupD srcSub (torrentFileName r.name r.version) = some (FsEntry.file pay))
    (hbj : ∀ e, lookupD base (jsonFileName r.name r.version) = some e →
      ∃ pay, e = FsEntry.file pay)
    (hbt : ∀ e, lookupD base (torrentFileName r.name r.version) = some e →
      ∃ pay, e = FsEntry.file pay)
    (hmv : ProjectFiles.move_release_type_to_sync_dir r source sync =
      Except.ok (source', sync')) :
    ∃ base5, sync' = setT sync r.name base5 ∧
      lookupD base5 (jsonFileName r.name r.version) = some (FsEntry.file (some r)) ∧
      (∀ tf, r.torrent_file = some tf →
        ∃ pay, lookupD base5 (torrentFileName r.name r.version) = some (FsEntry.file pay)) ∧
      (∃ fs, lookupD base5 (versionDirName r.name r.version) = some (FsEntry.dir fs) ∧
        ∀ f ∈ r.files, f ∈ fs) ∧
      (∀ n, ¬ n = versionDirName r.name r.version → ¬ n = jsonFileName r.name r.version →
        ¬ n = torrentFileName r.name r.version → lookupD base5 n = lookupD base n) ∧
      (∀ t, ¬ t = r.name → lookupT source' t = lookupT source t) := by
  simp only [ProjectFiles.move_release_type_to_sync_dir, hb, Option.getD_some] at hmv
  cases hrd : removeDestDir base (versionDirName r.name r.version) with
  | error e =>
    rw [hrd] at hmv
    cases hmv
  | ok base1 =>
    simp only [hrd] at hmv
    have hrdframe := removeDestDir_frame base (versionDirName r.name r.version) base1 hrd
    cases hb1 : lookupD base1 (versionDirName r.name r.version) with
    | some e =>
      simp only [hb1] at hmv
      cases hmv
    | none =>
      simp only [hb1, hsrc] at hmv
      cases hmf : moveFilesGo (versionDirName r.name r.version) srcSub [] r.files with
      | error e =>
        simp only [hmf] at hmv
        cases hmv
      | ok pr =>
        obtain ⟨srcSub1, destFs⟩ := pr
        simp only [hmf] at hmv
        have hfiles := (moveFilesGo_files _ _ _ _ _ _ hmf).2
        have hjson1 : lookupD srcSub1 (jsonFileName r.name r.version) =
            some (FsEntry.file (some r)) :=
          moveFilesGo_frame _ _ _ _ _ _ hmf _ _ hjson (fun fs hq => by cases hq)
        have hb2j : lookupD (setD base1 (versionDirName r.name r.version) (FsEntry.dir destFs))
            (jsonFileName r.name r.version) = lookupD base (jsonFileName r.name r.version) := by
          rw [lookupD_setD_ne _ _ _ _ (versionDirName_ne_jsonFileName_self r.name r.version),
            hrdframe _ (fun hq => versionDirName_ne_jsonFileName_self r.name r.version hq.symm)]
        have hb2t : lookupD (setD base1 (versionDirName r.name r.version) (FsEntry.dir destFs))
            (torrentFileName r.name r.version) =
            lookupD base (torrentFileName r.name r.version) := by
          rw [lookupD_setD_ne _ _ _ _ (versionDirName_ne_torrentFileName_self r.name r.version),
            hrdframe _
              (fun hq => versionDirName_ne_torrentFileName_self r.name r.version hq.symm)]
        have hb2v : lookupD (setD base1 (versionDirName r.name r.version) (FsEntry.dir destFs))
            (versionDirName r.name r.version) = some (FsEntry.dir destFs) :=
          lookupD_setD_self base1 _ _
        cases htf : r.torrent_file with
        | none =>
          have hopt : optTruthy r.torrent_file = false := by rw [htf]; rfl
          simp only [hopt, Bool.false_eq_true, if_false, hjson1] at hmv
          have hset : shutilMoveInto
              (setD base1 (versionDirName r.name r.version) (FsEntry.dir destFs))
              (jsonFileName r.name r.version) (FsEntry.file (some r)) =
              Except.ok (setD (setD base1 (versionDirName r.name r.version)
                (FsEntry.dir destFs)) (jsonFileName r.name r.version)
                (FsEntry.file (some r))) := by
            apply shutilMoveInto_set
            · intro fs hfs
              rw [hb2j] at hfs
              obtain ⟨pay, hpay⟩ := hbj _ hfs
              cases hpay
            · intro tg htg
              rw [hb2j] at htg
              obtain ⟨pay, hpay⟩ := hbj _ htg
              cases hpay
          simp only [hset] at hmv
          have hpair := Except.ok.inj hmv
          obtain ⟨hsrceq, hsynceq⟩ := (Prod.mk.injEq _ _ _ _).mp hpair
          refine ⟨_, hsynceq.symm, ?_, ?_, ?_, ?_, ?_⟩
          · rw [lookupD_setD_self]
          · intro tf htf'
            cases htf'
          · refine ⟨destFs, ?_, hfiles⟩
            rw [lookupD_setD_ne _ _ _ _
              (fun hq => versionDirName_ne_jsonFileName_self r.name r.version hq.symm), hb2v]
          · intro n hnv hnj hnt
            rw [lookupD_setD_ne _ _ _ _ (fun hq => hnj hq.symm),
              lookupD_setD_ne _ _ _ _ (fun hq => hnv hq.symm),
              hrdframe n hnv]
          · intro t ht
            rw [← hsrceq, lookupT_setT_ne source r.name _ t (fun hq => ht hq.symm)]
        | some tf =>
          obtain ⟨htc, pay, hpay⟩ := htor tf htf
          subst htc
          have hopt : optTruthy r.torrent_file = true := by
            rw [htf, optTruthy, decide_eq_false (torrentFileName_ne_empty r.name r.version)]
            rfl
          have hpay1 : lookupD srcSub1 (torrentFileName r.name r.version) =
              some (FsEntry.file pay) :=
            moveFilesGo_frame _ _ _ _ _ _ hmf _ _ hpay (fun fs hq => by cases hq)
          simp only [hopt, if_true, hpay1] at hmv
          have hsetT : shutilMoveInto
              (setD base1 (versionDirName r.name r.version) (FsEntry.dir destFs))
              (torrentFileName r.name r.version) (FsEntry.file pay) =
              Except.ok (setD (setD base1 (versionDirName r.name r.version)
                (FsEntry.dir destFs)) (torrentFileName r.name r.version)
                (FsEntry.file pay)) := by
            apply shutilMoveInto_set
            · intro fs hfs
              rw [hb2t] at hfs
              obtain ⟨pay', hpay'⟩ := hbt _ hfs
              cases hpay'
            · intro tg htg
              rw [hb2t] at htg
              obtain ⟨pay', hpay'⟩ := hbt _ htg
              cases hpay'
          simp only [hsetT] at hmv
          have hjson2 : lookupD (eraseD srcSub1 (torrentFileName r.name r.version))
              (jsonFileName r.name r.version) = some (FsEntry.file (some r)) := by
            rw [lookupD_eraseD_ne _ _ _
              (fun hq => jsonFileName_ne_torrentFileName_self r.name r.version hq.symm)]
            exact hjson1
          simp only [hjson2] at hmv
          have hb4j : lookupD (setD (setD base1 (versionDirName r.name r.version)
              (FsEntry.dir destFs)) (torrentFileName r.name r.version) (FsEntry.file pay))
              (jsonFileName r.name r.version) = lookupD base (jsonFileName r.name r.version) := by
            rw [lookupD_setD_ne _ _ _ _
              (fun hq => jsonFileName_ne_torrentFileName_self r.name r.version hq.symm), hb2j]
          have hset : shutilMoveInto (setD (setD base1 (versionDirName r.name r.version)
              (FsEntry.dir destFs)) (torrentFileName r.name r.version) (FsEntry.file pay))
              (jsonFileName r.name r.version) (FsEntry.file (some r)) =
              Except.ok (setD (setD (setD base1 (versionDirName r.name r.version)
                (FsEntry.dir destFs)) (torrentFileName r.name r.version) (FsEntry.file pay))
                (jsonFileName r.name r.version) (FsEntry.file (some r))) := by
            apply shutilMoveInto_set
            · intro fs hfs
              rw [hb4j] at hfs
              obtain ⟨pay', hpay'⟩ := hbj _ hfs
              cases hpay'
            · intro tg htg
              rw [hb4j] at htg
              obtain ⟨pay', hpay'⟩ := hbj _ htg
              cases hpay'
          simp only [hset] at hmv
          have hpair := Except.ok.inj hmv
          obtain ⟨hsrceq, hsynceq⟩ := (Prod.mk.injEq _ _ _ _).mp hpair
          refine ⟨_, hsynceq.symm, ?_, ?_, ?_, ?_, ?_⟩
          · rw [lookupD_setD_self]
          · intro tf' _
            refine ⟨pay, ?_⟩
            rw [lookupD_setD_ne _ _ _ _
              (jsonFileName_ne_torrentFileName_self r.name r.version), lookupD_setD_self]
          · refine ⟨destFs, ?_, hfiles⟩
            rw [lookupD_setD_ne _ _ _ _
              (fun hq => versionDirName_ne_jsonFileName_self r.name r.version hq.symm),
              lookupD_setD_ne _ _ _ _
              (fun hq => versionDirName_ne_torrentFileName_self r.name r.version hq.symm), hb2v]
          · intro n hnv hnj hnt
            rw [lookupD_setD_ne _ _ _ _ (fun hq => hnj hq.symm),
              lookupD_setD_ne _ _ _ _ (fun hq => hnt hq.symm),
              lookupD_setD_ne _ _ _ _ (fun hq => hnv hq.symm),
              hrdframe n hnv]
          · intro t ht
            rw [← hsrceq, lookupT_setT_ne source r.name _ t (fun hq => ht hq.symm)]

theorem move_unfold_none (r : Release) (source sync : FsTree)
    (h : lookupT sync r.name = none) :
    ProjectFiles.move_release_type_to_sync_dir r source sync =
    ProjectFiles.move_release_type_to_sync_dir r source (setT sync r.name []) := by
  simp only [ProjectFiles.move_release_type_to_sync_dir, h, lookupT_setT_self,
    Option.getD_some]

theorem move_post (r : Release) (source sync source' sync' : FsTree) (srcSub : FsDir)
    (hsrc : lookupT source r.name = some srcSub)
    (hjson : lookupD srcSub (jsonFileName r.name r.version) = some (FsEntry.file (some r)))
    (htor : ∀ tf, r.torrent_file = some tf → tf = torrentFileName r.name r.version ∧
      ∃ pay, lookupD srcSub (torrentFileName r.name r.version) = some (FsEntry.file pay))
    (hbj : ∀ e, lookupDT sync r.name (jsonFileName r.name r.version) = some e →
      ∃ pay, e = FsEntry.file pay)
    (hbt : ∀ e, lookupDT sync r.name (torrentFileName r.name r.version) = some e →
      ∃ pay, e = FsEntry.file pay)
    (hmv : ProjectFiles.move_release_type_to_sync_dir r source sync =
      Except.ok (source', sync')) :
    ∃ base5, lookupT sync' r.name = some base5 ∧
      lookupD base5 (jsonFileName r.name r.version) = some (FsEntry.file (some r)) ∧
      (∀ tf, r.torrent_file = some tf →
        ∃ pay, lookupD base5 (torrentFileName r.name r.version) = some (FsEntry.file pay)) ∧
      (∃ fs, lookupD base5 (versionDirName r.name r.version) = some (FsEntry.dir fs) ∧
        ∀ f ∈ r.files, f ∈ fs) ∧
      (∀ n, ¬ n = versionDirName r.name r.version → ¬ n = jsonFileName r.name r.version →
        ¬ n = torrentFileName r.name r.version → lookupD base5 n = lookupDT sync r.name n) ∧
      (∀ t, ¬ t = r.name → lookupT sync' t = lookupT sync t) ∧
      (∀ t, ¬ t = r.name → lookupT source' t = lookupT source t) ∧
      (∀ p, p ∈ sync' → p.1 = r.name ∨ p.1 ∈ sync.map Prod.fst) := by
  cases hS : lookupT sync r.name with
  | some base =>
    have hbj' : ∀ e, lookupD base (jsonFileName r.name r.version) = some e →
        ∃ pay, e = FsEntry.file pay := by
      intro e he
      apply hbj
      rw [lookupDT, hS]
      exact he
    have hbt' : ∀ e, lookupD base (torrentFileName r.name r.version) = some e →
        ∃ pay, e = FsEntry.file pay := by
      intro e he
      apply hbt
      rw [lookupDT, hS]
      exact he
    obtain ⟨base5, hsy, h1, h2, h3, h4, h5⟩ :=
      move_post_aux r source sync source' sync' srcSub base hS hsrc hjson htor hbj' hbt' hmv
    refine ⟨base5, ?_, h1, h2, h3, ?_, ?_, h5, ?_⟩
    · rw [hsy, lookupT_setT_self]
    · intro n hnv hnj hnt
      rw [h4 n hnv hnj hnt, lookupDT, hS]
      rfl
    · intro t ht
      rw [hsy, lookupT_setT_ne sync r.name base5 t (fun hq => ht hq.symm)]
    · intro p hp
      rw [hsy] at hp
      rcases mem_setT sync r.name base5 p hp with rfl | hp'
      · exact Or.inl rfl
      · exact Or.inr (List.mem_map_of_mem Prod.fst hp')
  | none =>
    rw [move_unfold_none r source sync hS] at hmv
    have hbj' : ∀ e, lookupD ([] : FsDir) (jsonFileName r.name r.version) = some e →
        ∃ pay, e = FsEntry.file pay := by
      intro e he
      cases he
    have hbt' : ∀ e, lookupD ([] : FsDir) (torrentFileName r.name r.version) = some e →
        ∃ pay, e = FsEntry.file pay := by
      intro e he
      cases he
    obtain ⟨base5, hsy, h1, h2, h3, h4, h5⟩ :=
      move_post_aux r source (setT sync r.name []) source' sync' srcSub []
        (lookupT_setT_self sync r.name []) hsrc hjson htor hbj' hbt' hmv
    refine ⟨base5, ?_, h1, h2, h3, ?_, ?_, h5, ?_⟩
    · rw [hsy, lookupT_setT_self]
    · intro n hnv hnj hnt
      rw [h4 n hnv hnj hnt, lookupDT, hS]
      rfl
    · intro t ht
      rw [hsy, lookupT_setT_ne _ r.name base5 t (fun hq => ht hq.symm),
        lookupT_setT_ne sync r.name [] t (fun hq => ht hq.symm)]
    · intro p hp
      rw [hsy] at hp
      rcases mem_setT _ r.name base5 p hp with rfl | hp'
      · exact Or.inl rfl
      · rcases mem_setT sync r.name [] p hp' with rfl | hp''
        · exact Or.inl rfl
        · exact Or.inr (List.mem_map_of_mem Prod.fst hp'')

theorem renameEntryD_ok_file (src dst : FsDir) (sn dn : String) (pay : Option Release)
    (res : FsDir × FsDir) (hs : lookupD src sn = some (FsEntry.file pay))
    (h : renameEntryD src dst sn dn = Except.ok res) :
    res = (eraseD src sn, setD dst dn (FsEntry.file pay)) := by
  rw [renameEntryD] at h
  simp only [hs] at h
  cases hd : lookupD dst dn with
  | none =>
    simp only [hd] at h
    exact (Except.ok.inj h).symm
  | some e =>
    cases e with
    | dir fs =>
      simp only [hd] at h
      cases h
    | file pay' =>
      simp only [hd] at h
      exact (Except.ok.inj h).symm
    | symlink tg =>
      simp only [hd] at h
      exact (Except.ok.inj h).symm

theorem copy_post (r : Release) (src dst src' dst' : FsTree) (sd : FsDir)
    (hsd : lookupT src r.name = some sd)
    (hjson : lookupD sd (jsonFileName r.name r.version) = some (FsEntry.file (some r)))
    (htor : ∀ tf, r.torrent_file = some tf → tf = torrentFileName r.name r.version ∧
      ∃ pay, lookupD sd tf = some (FsEntry.file pay))
    (hcp : ProjectFiles.copy_release_type_promotion_artifacts_to_build_dir r src dst =
      Except.ok (src', dst')) :
    ∃ bd, lookupT dst' r.name = some bd ∧
      lookupD bd (jsonFileName r.name r.version) = some (FsEntry.file (some r)) ∧
      (∀ tf, r.torrent_file = some tf →
        ∃ pay, lookupD bd (torrentFileName r.name r.version) = some (FsEntry.file pay)) ∧
      (∀ t, ¬ t = r.name → lookupT src' t = lookupT src t) ∧
      (∀ t, ¬ t = r.name → lookupT dst' t = lookupT dst t) := by
  simp only [ProjectFiles.copy_release_type_promotion_artifacts_to_build_dir, hsd] at hcp
  cases hres : resolveE sd (sd.length + 1) (versionDirName r.name r.version) with
  | none =>
    simp only [hres] at hcp
    cases hcp
  | some pr =>
    obtain ⟨x, e⟩ := pr
    cases e with
    | file pay =>
      simp only [hres] at hcp
      cases hcp
    | symlink tg =>
      simp only [hres] at hcp
      cases hcp
    | dir sfs =>
      simp only [hres] at hcp
      cases hdd : lookupT dst r.name with
      | none =>
        simp only [hdd] at hcp
        cases hcp
      | some dd =>
        simp only [hdd] at hcp
        cases hres2 : resolveE dd (dd.length + 1) (versionDirName r.name r.version) with
        | none =>
          simp only [hres2] at hcp
          cases hcp
        | some pr2 =>
          obtain ⟨dm, e2⟩ := pr2
          cases e2 with
          | file pay =>
            simp only [hres2] at hcp
            cases hcp
          | symlink tg =>
            simp only [hres2] at hcp
            cases hcp
          | dir dfs =>
            simp only [hres2] at hcp
            cases htf : r.torrent_file with
            | none =>
              simp only [htf] at hcp
              cases hren : renameEntryD sd
                  (setD dd dm (FsEntry.dir (copy_signatures sfs dfs)))
                  (jsonFileName r.name r.version) (jsonFileName r.name r.version) with
              | error e =>
                rw [hren] at hcp
                cases hcp
              | ok pr3 =>
                obtain ⟨sd2, dd3⟩ := pr3
                have heq := renameEntryD_ok_file _ _ _ _ _ _ hjson hren
                obtain ⟨hsd2, hdd3⟩ := (Prod.mk.injEq _ _ _ _).mp heq
                simp only [hren] at hcp
                have hpair := (Prod.mk.injEq _ _ _ _).mp (Except.ok.inj hcp)
                refine ⟨dd3, ?_, ?_, ?_, ?_, ?_⟩
                · rw [← hpair.2, lookupT_setT_self]
                · rw [hdd3, lookupD_setD_self]
                · intro tf htf'
                  cases htf'
                · intro t ht
                  rw [← hpair.1, lookupT_setT_ne src r.name _ t (fun hq => ht hq.symm)]
                · intro t ht
                  rw [← hpair.2, lookupT_setT_ne dst r.name _ t (fun hq => ht hq.symm)]
            | some tf =>
              obtain ⟨htc, pay, hpay⟩ := htor tf htf
              subst htc
              simp only [htf, if_neg (torrentFileName_ne_empty r.name r.version)] at hcp
              cases hren : renameEntryD sd
                  (setD dd dm (FsEntry.dir (copy_signatures sfs dfs)))
                  (torrentFileName r.name r.version) (torrentFileName r.name r.version) with
              | error e =>
                rw [hren] at hcp
                cases hcp
              | ok pr2t =>
                obtain ⟨sd1, dd2⟩ := pr2t
                have heqT := renameEntryD_ok_file _ _ _ _ _ _ hpay hren
                obtain ⟨hsd1, hdd2⟩ := (Prod.mk.injEq _ _ _ _).mp heqT
                simp only [hren] at hcp
                have hjson1 : lookupD sd1 (jsonFileName r.name r.version) =
                    some (FsEntry.file (some r)) := by
                  rw [hsd1, lookupD_eraseD_ne _ _ _
                    (fun hq => jsonFileName_ne_torrentFileName_self r.name r.version hq.symm)]
                  exact hjson
                cases hren2 : renameEntryD sd1 dd2 (jsonFileName r.name r.version)
                    (jsonFileName r.name r.version) with
                | error e =>
                  rw [hren2] at hcp
                  cases hcp
                | ok pr3 =>
                  obtain ⟨sd2, dd3⟩ := pr3
                  have heqJ := renameEntryD_ok_file _ _ _ _ _ _ hjson1 hren2
                  obtain ⟨hsd2, hdd3⟩ := (Prod.mk.injEq _ _ _ _).mp heqJ
                  simp only [hren2] at hcp
                  have hpair := (Prod.mk.injEq _ _ _ _).mp (Except.ok.inj hcp)
                  refine ⟨dd3, ?_, ?_, ?_, ?_, ?_⟩
                  · rw [← hpair.2, lookupT_setT_self]
                  · rw [hdd3, lookupD_setD_self]
                  · intro tf' _
                    refine ⟨pay, ?_⟩
                    rw [hdd3, lookupD_setD_ne _ _ _ _
                      (jsonFileName_ne_torrentFileName_self r.name r.version), hdd2,
                      lookupD_setD_self]
                  · intro t ht
                    rw [← hpair.1, lookupT_setT_ne src r.name _ t (fun hq => ht hq.symm)]
                  · intro t ht
                    rw [← hpair.2, lookupT_setT_ne dst r.name _ t (fun hq => ht hq.symm)]

theorem SyncedNice_of_lookupT_eq (s1 s2 : FsTree) (t v : String)
    (h : lookupT s2 t = lookupT s1 t) (hn : SyncedNice s1 t v) : SyncedNice s2 t v := by
  have hDT : ∀ n, lookupDT s2 t n = lookupDT s1 t n := by
    intro n
    rw [lookupDT, h]
    rfl
  obtain ⟨r, h1, h2, h3, fs, h4, h5⟩ := hn
  refine ⟨r, (hDT _).trans h1, h2, ?_, fs, (hDT _).trans h4, h5⟩
  intro tf htf
  refine ⟨(h3 tf htf).1, ?_⟩
  obtain ⟨pay, hp⟩ := (h3 tf htf).2
  exact ⟨pay, (hDT _).trans hp⟩

theorem processReleaseTypes_post : ∀ (rs : List Release) (promo build mir p1 b1 m1 : FsTree),
    ProjectFiles.processReleaseTypes rs promo build mir = Except.ok (p1, b1, m1) →
    (rs.map (fun r => r.name)).Nodup →
    (∀ r ∈ rs, ¬ r.files = []) →
    (∀ r ∈ rs, ∃ pd, lookupT promo r.name = some pd ∧
      lookupD pd (jsonFileName r.name r.version) = some (FsEntry.file (some r)) ∧
      (∀ tf, r.torrent_file = some tf → tf = torrentFileName r.name r.version ∧
        ∃ pay, lookupD pd tf = some (FsEntry.file pay))) →
    (∀ r ∈ rs,
      (∀ e, lookupDT mir r.name (jsonFileName r.name r.version) = some e →
        ∃ pay, e = FsEntry.file pay) ∧
      (∀ e, lookupDT mir r.name (torrentFileName r.name r.version) = some e →
        ∃ pay, e = FsEntry.file pay)) →
    (∀ r ∈ rs, SyncedNice m1 r.name r.version ∧
      ∀ n, ¬ n = versionDirName r.name r.version → ¬ n = jsonFileName r.name r.version →
        ¬ n = torrentFileName r.name r.version → lookupDT m1 r.name n = lookupDT mir r.name n) ∧
    (∀ t, (∀ r ∈ rs, ¬ r.name = t) → lookupT m1 t = lookupT mir t) ∧
    (∀ p ∈ m1, p.1 ∈ mir.map Prod.fst ∨ ∃ r ∈ rs, r.name = p.1) := by
  intro rs
  induction rs with
  | nil =>
    intro promo build mir p1 b1 m1 h _ _ _ _
    rw [ProjectFiles.processReleaseTypes] at h
    obtain ⟨hp, hb, hm⟩ := (Prod.mk.injEq _ _ _ _).mp (Except.ok.inj h) |>.imp id
      (fun hq => (Prod.mk.injEq _ _ _ _).mp hq)
    refine ⟨fun r hr => absurd hr (List.not_mem_nil r), fun t _ => ?_, fun p hp2 => ?_⟩
    · rw [← hm]
    · rw [← hm] at hp2
      exact Or.inl (List.mem_map_of_mem Prod.fst hp2)
  | cons r rs ih =>
    intro promo build mir p1 b1 m1 h hnodup hfne hpromo hmir
    rw [List.map_cons, List.nodup_cons] at hnodup
    obtain ⟨hrnm, hnodup'⟩ := hnodup
    have hother : ∀ r' ∈ rs, ¬ r'.name = r.name := by
      intro r' hm' hq
      exact hrnm (hq ▸ List.mem_map_of_mem (fun x => x.name) hm')
    rw [ProjectFiles.processReleaseTypes] at h
    cases hcp : ProjectFiles.copy_release_type_promotion_artifacts_to_build_dir r promo build with
    | error e =>
      rw [hcp] at h
      cases h
    | ok prc =>
      obtain ⟨promo1, build1⟩ := prc
      simp only [hcp] at h
      cases hval : ProjectFiles.validate_release_type_files r build1 with
      | error e =>
        rw [hval] at h
        cases h
      | ok u =>
        simp only [hval] at h
        cases hmv : ProjectFiles.move_release_type_to_sync_dir r build1 mir with
        | error e =>
          rw [hmv] at h
          cases h
        | ok prm =>
          obtain ⟨build2, mir1⟩ := prm
          simp only [hmv] at h
          obtain ⟨pd, hpd, hpdj, hpdt⟩ := hpromo r (List.mem_cons_self r rs)
          obtain ⟨bd, hbd, hbdj, hbdt, hpframe, hbframe⟩ :=
            copy_post r promo build promo1 build1 pd hpd hpdj hpdt hcp
          obtain ⟨hmj, hmt⟩ := hmir r (List.mem_cons_self r rs)
          obtain ⟨base5, hb5, hb5j, hb5t, ⟨fs5, hb5v, hb5sub⟩, hb5frame, hmirframe,
            hbuildframe, hnames⟩ :=
            move_post r build1 mir build2 mir1 bd hbd hbdj
              (fun tf htf => ⟨(hpdt tf htf).1, hbdt tf htf⟩) hmj hmt hmv
          have hnice1 : SyncedNice mir1 r.name r.version := by
            refine ⟨r, ?_, hfne r (List.mem_cons_self r rs), ?_, fs5, ?_, hb5sub⟩
            · rw [lookupDT, hb5]
              exact hb5j
            · intro tf htf
              refine ⟨(hpdt tf htf).1, ?_⟩
              obtain ⟨pay, hp⟩ := hb5t tf htf
              refine ⟨pay, ?_⟩
              rw [lookupDT, hb5]
              exact hp
            · rw [lookupDT, hb5]
              exact hb5v
          obtain ⟨hall, htree, hnames2⟩ := ih promo1 build2 mir1 p1 b1 m1 h hnodup'
            (fun r' hr' => hfne r' (List.mem_cons_of_mem r hr'))
            (fun r' hr' => by
              obtain ⟨pd', h1, h2, h3⟩ := hpromo r' (List.mem_cons_of_mem r hr')
              exact ⟨pd', by rw [hpframe r'.name (hother r' hr')]; exact h1, h2, h3⟩)
            (fun r' hr' => by
              obtain ⟨h1, h2⟩ := hmir r' (List.mem_cons_of_mem r hr')
              have hDT : ∀ n, lookupDT mir1 r'.name n = lookupDT mir r'.name n := by
                intro n
                rw [lookupDT, hmirframe r'.name (hother r' hr')]
                rfl
              exact ⟨fun e he => h1 e ((hDT _).symm.trans he),
                fun e he => h2 e ((hDT _).symm.trans he)⟩)
          have hm1r : lookupT m1 r.name = lookupT mir1 r.name :=
            htree r.name (fun r' hr' hq => hother r' hr' hq)
          refine ⟨?_, ?_, ?_⟩
          · intro r' hm'
            rcases List.mem_cons.mp hm' with rfl | hm''
            · refine ⟨SyncedNice_of_lookupT_eq mir1 m1 r'.name r'.version hm1r hnice1, ?_⟩
              intro n hnv hnj hnt
              have h1 : lookupDT m1 r'.name n = lookupDT mir1 r'.name n := by
                rw [lookupDT, hm1r]
                rfl
              have h2 : lookupDT mir1 r'.name n = lookupD base5 n := by
                rw [lookupDT, hb5]
                rfl
              rw [h1, h2, hb5frame n hnv hnj hnt]
            · obtain ⟨hn1, hn2⟩ := hall r' hm''
              refine ⟨hn1, ?_⟩
              intro n hnv hnj hnt
              rw [hn2 n hnv hnj hnt, lookupDT, hmirframe r'.name (hother r' hm'')]
              rfl
          · intro t ht
            rw [htree t (fun r' hr' => ht r' (List.mem_cons_of_mem r hr')),
              hmirframe t (fun hq => ht r (List.mem_cons_self r rs) hq.symm)]
          · intro p hp
            rcases hnames2 p hp with hp1 | ⟨r', hr', hr'n⟩
            · rcases List.mem_map.mp hp1 with ⟨q, hq, hqp⟩
              rcases hnames q hq with hq1 | hq2
              · exact Or.inr ⟨r, List.mem_cons_self r rs, by rw [← hqp, hq1]⟩
              · exact Or.inl (hqp ▸ hq2)
            · exact Or.inr ⟨r', List.mem_cons_of_mem r hr', hr'n⟩

theorem sync_version_post (cfg : ProjectConfig) (up : Upstream) (promoted : List String)
    (hup : upstreamOK cfg promoted up) (v : String) (hv : v ∈ promoted) (s s' : FsTree)
    (ch : Bool) (h : ProjectFiles._sync_version cfg up s v = Except.ok (s', ch))
    (htidy : ∀ rel ∈ cfg.releases, ∀ d, lookupT s rel.name = some d → tidyAt rel.name v d) :
    (∀ rel ∈ cfg.releases, SyncedNice s' rel.name v) ∧
    (∀ rel ∈ cfg.releases, ∀ n, ¬ n = versionDirName rel.name v →
      ¬ n = jsonFileName rel.name v → ¬ n = torrentFileName rel.name v →
      lookupDT s' rel.name n = lookupDT s rel.name n) ∧
    (∀ t, (∀ rel ∈ cfg.releases, ¬ rel.name = t) → lookupT s' t = lookupT s t) ∧
    (∀ p ∈ s', p.1 ∈ s.map Prod.fst ∨ ∃ rel ∈ cfg.releases, rel.name = p.1) := by
  have htidyDT : ∀ rel ∈ cfg.releases,
      (∀ e, lookupDT s rel.name (versionDirName rel.name v) = some e →
        ∃ fs, e = FsEntry.dir fs) ∧
      (∀ e, lookupDT s rel.name (jsonFileName rel.name v) = some e →
        ∃ r2, e = FsEntry.file (some r2) ∧ ¬ r2.files = [] ∧
          (∀ tf, r2.torrent_file = some tf → tf = torrentFileName rel.name v)) ∧
      (∀ e, lookupDT s rel.name (torrentFileName rel.name v) = some e →
        ∃ pay, e = FsEntry.file pay) := by
    intro rel hrel
    cases hd : lookupT s rel.name with
    | none =>
      refine ⟨?_, ?_, ?_⟩ <;> (intro e he; rw [lookupDT, hd] at he; cases he)
    | some d =>
      obtain ⟨ht1, ht2, ht3⟩ := htidy rel hrel d hd
      refine ⟨?_, ?_, ?_⟩
      · intro e he
        exact ht1 e (by rw [lookupDT, hd] at he; exact he)
      · intro e he
        exact ht2 e (by rw [lookupDT, hd] at he; exact he)
      · intro e he
        exact ht3 e (by rw [lookupDT, hd] at he; exact he)
  rw [ProjectFiles._sync_version] at h
  obtain ⟨promo, rs, hdl, hglob, hcover, hnodup, hfacts⟩ := hup v hv
  simp only [hdl] at h
  cases hreq : ProjectFiles._project_version_requires_sync cfg s v with
  | error e =>
    rw [hreq] at h
    cases h
  | ok req =>
    simp only [hreq] at h
    cases req with
    | false =>
      simp only [Bool.false_eq_true, if_false] at h
      obtain ⟨hs, hch⟩ := (Prod.mk.injEq _ _ _ _).mp (Except.ok.inj h)
      subst hs
      rw [ProjectFiles._project_version_requires_sync] at hreq
      have hsynced := requiresGo_false_elim s v cfg.releases hreq
      refine ⟨?_, fun rel _ n _ _ _ => rfl, fun t _ => rfl,
        fun p hp => Or.inl (List.mem_map_of_mem Prod.fst hp)⟩
      intro rel hrel
      obtain ⟨hc1, hc2, hc3⟩ := htidyDT rel hrel
      exact nice_of_synced s rel.name v (hsynced rel hrel) hc1 hc2 hc3
    | true =>
      simp only [if_true] at h
      cases hb : up.download_release v with
      | none =>
        rw [hb] at h
        cases h
      | some build =>
        simp only [hb, hglob] at h
        cases hproc : ProjectFiles.processReleaseTypes rs promo build s with
        | error e =>
          rw [hproc] at h
          cases h
        | ok trip =>
          obtain ⟨pp, bb, s1⟩ := trip
          simp only [hproc] at h
          obtain ⟨hs, hch⟩ := (Prod.mk.injEq _ _ _ _).mp (Except.ok.inj h)
          subst hs
          have hpromo2 : ∀ r ∈ rs, ∃ pd, lookupT promo r.name = some pd ∧
              lookupD pd (jsonFileName r.name r.version) = some (FsEntry.file (some r)) ∧
              (∀ tf, r.torrent_file = some tf → tf = torrentFileName r.name r.version ∧
                ∃ pay, lookupD pd tf = some (FsEntry.file pay)) := by
            intro r hr
            obtain ⟨hrv, hcfgd, hfne, hcan, pd, hpd, hpdj, hpdt⟩ := hfacts r hr
            refine ⟨pd, hpd, ?_, ?_⟩
            · rw [hrv]
              exact hpdj
            · intro tf htf
              refine ⟨by rw [hrv]; exact hcan tf htf, hpdt tf htf⟩
          have hmir2 : ∀ r ∈ rs,
              (∀ e, lookupDT s r.name (jsonFileName r.name r.version) = some e →
                ∃ pay, e = FsEntry.file pay) ∧
              (∀ e, lookupDT s r.name (torrentFileName r.name r.version) = some e →
                ∃ pay, e = FsEntry.file pay) := by
            intro r hr
            obtain ⟨hrv, ⟨rel, hrel, hreln⟩, hfne, hcan, -⟩ := hfacts r hr
            obtain ⟨hc1, hc2, hc3⟩ := htidyDT rel hrel
            constructor
            · intro e he
              rw [hrv, ← hreln] at he
              obtain ⟨r2, he2, -, -⟩ := hc2 e he
              exact ⟨some r2, he2⟩
            · intro e he
              rw [hrv, ← hreln] at he
              exact hc3 e he
          obtain ⟨hall, htree, hnames⟩ := processReleaseTypes_post rs promo build s pp bb s1
            hproc hnodup (fun r hr => (hfacts r hr).2.2.1) hpromo2 hmir2
          refine ⟨?_, ?_, ?_, ?_⟩
          · intro rel hrel
            obtain ⟨r, hr, hrn⟩ := hcover rel hrel
            have hrv := (hfacts r hr).1
            have := (hall r hr).1
            rw [hrn, hrv] at this
            exact this
          · intro rel hrel n hnv hnj hnt
            obtain ⟨r, hr, hrn⟩ := hcover rel hrel
            have hrv := (hfacts r hr).1
            have := (hall r hr).2 n
            rw [hrn, hrv] at this
            exact this hnv hnj hnt
          · intro t ht
            apply htree
            intro r hr hq
            obtain ⟨-, ⟨rel, hrel, hreln⟩, -⟩ := hfacts r hr
            exact ht rel hrel (hreln.trans hq)
          · intro p hp
            rcases hnames p hp with hp1 | ⟨r, hr, hrn⟩
            · exact Or.inl hp1
            · obtain ⟨-, ⟨rel, hrel, hreln⟩, -⟩ := hfacts r hr
              exact Or.inr ⟨rel, hrel, hreln.trans hrn⟩

theorem derived_names_disjoint (t v w : String) (hvw : ¬ w = v)
    (h1 : ¬ v = w ++ ".json") (h2 : ¬ v = w ++ ".torrent")
    (h3 : ¬ w = v ++ ".json") (h4 : ¬ w = v ++ ".torrent") :
    (¬ versionDirName t w = versionDirName t v ∧ ¬ versionDirName t w = jsonFileName t v ∧
      ¬ versionDirName t w = torrentFileName t v) ∧
    (¬ jsonFileName t w = versionDirName t v ∧ ¬ jsonFileName t w = jsonFileName t v ∧
      ¬ jsonFileName t w = torrentFileName t v) ∧
    (¬ torrentFileName t w = versionDirName t v ∧ ¬ torrentFileName t w = jsonFileName t v ∧
      ¬ torrentFileName t w = torrentFileName t v) :=
  ⟨⟨fun hq => hvw (versionDirName_inj t w v hq),
    versionDirName_ne_jsonFileName t w v h3,
    versionDirName_ne_torrentFileName t w v h4⟩,
   ⟨fun hq => (versionDirName_ne_jsonFileName t v w h1) hq.symm,
    fun hq => hvw (jsonFileName_inj t w v hq),
    jsonFileName_ne_torrentFileName t w t v⟩,
   ⟨fun hq => (versionDirName_ne_torrentFileName t v w h2) hq.symm,
    fun hq => (jsonFileName_ne_torrentFileName t v t w) hq.symm,
    fun hq => hvw (torrentFileName_inj t w v hq)⟩⟩

theorem SyncedNice_transfer (sv s1 : FsTree) (t v : String)
    (h1 : lookupDT s1 t (jsonFileName t v) = lookupDT sv t (jsonFileName t v))
    (h2 : lookupDT s1 t (torrentFileName t v) = lookupDT sv t (torrentFileName t v))
    (h3 : lookupDT s1 t (versionDirName t v) = lookupDT sv t (versionDirName t v))
    (hn : SyncedNice sv t v) : SyncedNice s1 t v := by
  obtain ⟨r, hj, hf, ht, fs, hd, hs⟩ := hn
  refine ⟨r, h1.trans hj, hf, ?_, fs, h3.trans hd, hs⟩
  intro tf htf
  refine ⟨(ht tf htf).1, ?_⟩
  obtain ⟨pay, hp⟩ := (ht tf htf).2
  exact ⟨pay, h2.trans hp⟩

theorem syncVersionsGo_post (cfg : ProjectConfig) (up : Upstream) (promoted : List String)
    (hver : versionsOK promoted) (hup : upstreamOK cfg promoted up) :
    ∀ (vs : List String) (s : FsTree) (ch0 : Bool) (s1 : FsTree) (ch1 : Bool),
    ProjectFiles.syncVersionsGo cfg up vs s ch0 = Except.ok (s1, ch1) →
    (∀ v ∈ vs, v ∈ promoted) → vs.Nodup →
    (∀ rel ∈ cfg.releases, ∀ v ∈ vs, ∀ d, lookupT s rel.name = some d → tidyAt rel.name v d) →
    (∀ v ∈ vs, ∀ rel ∈ cfg.releases, SyncedNice s1 rel.name v) ∧
    (∀ rel ∈ cfg.releases, ∀ n,
      (∀ v ∈ vs, ¬ n = versionDirName rel.name v ∧ ¬ n = jsonFileName rel.name v ∧
        ¬ n = torrentFileName rel.name v) →
      lookupDT s1 rel.name n = lookupDT s rel.name n) ∧
    (∀ t, (∀ rel ∈ cfg.releases, ¬ rel.name = t) → lookupT s1 t = lookupT s t) ∧
    (∀ p ∈ s1, p.1 ∈ s.map Prod.fst ∨ ∃ rel ∈ cfg.releases, rel.name = p.1) := by
  intro vs
  induction vs with
  | nil =>
    intro s ch0 s1 ch1 h _ _ _
    rw [ProjectFiles.syncVersionsGo] at h
    obtain ⟨hs, -⟩ := (Prod.mk.injEq _ _ _ _).mp (Except.ok.inj h)
    subst hs
    exact ⟨fun v hv => absurd hv (List.not_mem_nil v), fun rel _ n _ => rfl,
      fun t _ => rfl, fun p hp => Or.inl (List.mem_map_of_mem Prod.fst hp)⟩
  | cons v vs ih =>
    intro s ch0 s1 ch1 h hmem hnodup htidy
    rw [List.nodup_cons] at hnodup
    obtain ⟨hvvs, hnodup'⟩ := hnodup
    rw [ProjectFiles.syncVersionsGo] at h
    cases hsv : ProjectFiles._sync_version cfg up s v with
    | error e =>
      rw [hsv] at h
      cases h
    | ok pr =>
      obtain ⟨sv, b⟩ := pr
      simp only [hsv] at h
      have hvp : v ∈ promoted := hmem v (List.mem_cons_self v vs)
      obtain ⟨hA, hC, hB, hD⟩ := sync_version_post cfg up promoted hup v hvp s sv b hsv
        (fun rel hrel d hd => htidy rel hrel v (List.mem_cons_self v vs) d hd)
      have hdisj : ∀ t w, w ∈ vs →
          (¬ versionDirName t w = versionDirName t v ∧
            ¬ versionDirName t w = jsonFileName t v ∧
            ¬ versionDirName t w = torrentFileName t v) ∧
          (¬ jsonFileName t w = versionDirName t v ∧ ¬ jsonFileName t w = jsonFileName t v ∧
            ¬ jsonFileName t w = torrentFileName t v) ∧
          (¬ torrentFileName t w = versionDirName t v ∧
            ¬ torrentFileName t w = jsonFileName t v ∧
            ¬ torrentFileName t w = torrentFileName t v) := by
        intro t w hw
        have hwp : w ∈ promoted := hmem w (List.mem_cons_of_mem v hw)
        have hvw : ¬ w = v := fun hq => hvvs (hq ▸ hw)
        exact derived_names_disjoint t v w hvw (hver.2 v hvp w hwp).1 (hver.2 v hvp w hwp).2
          (hver.2 w hwp v hvp).1 (hver.2 w hwp v hvp).2
      have htidy2 : ∀ rel ∈ cfg.releases, ∀ w ∈ vs, ∀ d,
          lookupT sv rel.name = some d → tidyAt rel.name w d := by
        intro rel hrel w hw d' hd'
        obtain ⟨hdj1, hdj2, hdj3⟩ := hdisj rel.name w hw
        have hclause : ∀ X, ¬ X = versionDirName rel.name v → ¬ X = jsonFileName rel.name v →
            ¬ X = torrentFileName rel.name v → ∀ e, lookupD d' X = some e →
            ∃ d0, lookupT s rel.name = some d0 ∧ lookupD d0 X = some e := by
          intro X hx1 hx2 hx3 e he
          have h0 : lookupDT s rel.name X = some e := by
            rw [← hC rel hrel X hx1 hx2 hx3, lookupDT, hd']
            exact he
          cases hsd : lookupT s rel.name with
          | none =>
            rw [lookupDT, hsd] at h0
            cases h0
          | some d0 =>
            refine ⟨d0, rfl, ?_⟩
            rw [lookupDT, hsd] at h0
            exact h0
        refine ⟨?_, ?_, ?_⟩
        · intro e he
          obtain ⟨d0, hd0, he0⟩ := hclause _ hdj1.1 hdj1.2.1 hdj1.2.2 e he
          exact (htidy rel hrel w (List.mem_cons_of_mem v hw) d0 hd0).1 e he0
        · intro e he
          obtain ⟨d0, hd0, he0⟩ := hclause _ hdj2.1 hdj2.2.1 hdj2.2.2 e he
          exact (htidy rel hrel w (List.mem_cons_of_mem v hw) d0 hd0).2.1 e he0
        · intro e he
          obtain ⟨d0, hd0, he0⟩ := hclause _ hdj3.1 hdj3.2.1 hdj3.2.2 e he
          exact (htidy rel hrel w (List.mem_cons_of_mem v hw) d0 hd0).2.2 e he0
      obtain ⟨iA, iC, iB, iD⟩ := ih sv (ch0 || b) s1 ch1 h
        (fun w hw => hmem w (List.mem_cons_of_mem v hw)) hnodup' htidy2
      refine ⟨?_, ?_, ?_, ?_⟩
      · intro w hw rel hrel
        rcases List.mem_cons.mp hw with rfl | hw'
        · refine SyncedNice_transfer sv s1 rel.name w ?_ ?_ ?_ (hA rel hrel)
          · apply iC rel hrel
            intro u hu
            obtain ⟨hu1, hu2, hu3⟩ := hdisj rel.name u hu
            exact ⟨fun hq => hu1.2.1 hq.symm, fun hq => hu2.2.1 hq.symm,
              fun hq => hu3.2.1 hq.symm⟩
          · apply iC rel hrel
            intro u hu
            obtain ⟨hu1, hu2, hu3⟩ := hdisj rel.name u hu
            exact ⟨fun hq => hu1.2.2 hq.symm, fun hq => hu2.2.2 hq.symm,
              fun hq => hu3.2.2 hq.symm⟩
          · apply iC rel hrel
            intro u hu
            obtain ⟨hu1, hu2, hu3⟩ := hdisj rel.name u hu
            exact ⟨fun hq => hu1.1 hq.symm, fun hq => hu2.1 hq.symm,
              fun hq => hu3.1 hq.symm⟩
        · exact iA w hw' rel hrel
      · intro rel hrel n hn
        rw [iC rel hrel n (fun u hu => hn u (List.mem_cons_of_mem v hu))]
        obtain ⟨h1, h2, h3⟩ := hn v (List.mem_cons_self v vs)
        exact hC rel hrel n h1 h2 h3
      · intro t ht
        rw [iB t ht, hB t ht]
      · intro p hp
        rcases iD p hp with hp1 | hcfg2
        · rcases List.mem_map.mp hp1 with ⟨q, hq, hqp⟩
          rcases hD q hq with hq1 | ⟨rel, hrel, hreln⟩
          · exact Or.inl (hqp ▸ hq1)
          · exact Or.inr ⟨rel, hrel, hreln.trans hqp⟩
        · exact Or.inr hcfg2

theorem SyncedNice_prune (sL s1 : FsTree) (t : String) (promoted : List String) (v : String)
    (hv : v ∈ promoted) (dL d1 : FsDir) (b : Bool)
    (hL : lookupT sL t = some dL) (h1 : lookupT s1 t = some d1)
    (hpr : pruneDirRun t promoted dL = Except.ok (d1, b))
    (hn : SyncedNice sL t v) : SyncedNice s1 t v := by
  obtain ⟨r, hj, hf, ht, fs, hd, hs⟩ := hn
  have convL : ∀ X e, lookupDT sL t X = some e → lookupD dL X = some e := by
    intro X e he
    rw [lookupDT, hL] at he
    exact he
  rw [pruneDirRun] at hpr
  have keepJ := pruneGo_keep _ _ _ _ _ _ _ hpr (jsonFileName t v) _ (convL _ _ hj)
    (Or.inr ⟨⟨some r, rfl⟩, json_mem_expectedFileNames t v promoted hv⟩)
  have keepV := pruneGo_keep _ _ _ _ _ _ _ hpr (versionDirName t v) _ (convL _ _ hd)
    (Or.inl ⟨⟨fs, rfl⟩, versionDir_mem_expectedDirNames t v promoted hv⟩)
  refine ⟨r, ?_, hf, ?_, fs, ?_, hs⟩
  · rw [lookupDT, h1]
    exact keepJ
  · intro tf htf
    refine ⟨(ht tf htf).1, ?_⟩
    obtain ⟨pay, hp⟩ := (ht tf htf).2
    have keepT := pruneGo_keep _ _ _ _ _ _ _ hpr (torrentFileName t v) _ (convL _ _ hp)
      (Or.inr ⟨⟨pay, rfl⟩, torrent_mem_expectedFileNames t v promoted hv⟩)
    refine ⟨pay, ?_⟩
    rw [lookupDT, h1]
    exact keepT
  · rw [lookupDT, h1]
    exact keepV

/-- C2 (amended): one synchronization pass is idempotent under the stated
well-formedness side conditions — distinct non-`.tmp-` release-type names, a
promoted-version list with no cross-version name collisions, upstream bundles
that deserialize into one canonical complete descriptor per configured
release type, and a mirror whose entries at the derived names have the right
shape (no symlinks or directories squatting on sidecar paths).  Whatever
state `s1` a first pass leaves behind, a second pass returns `s1` unchanged
and reports `false` to the timestamp notifier: every per-version sync, the
latest-pointer step and the pruner all report no change.  (Without the
tidiness hypothesis the claim is false: see the counterexample, where a
directory squatting on the torrent sidecar path makes `shutil.move` swallow
the torrent silently, so every pass re-syncs and mutates the mirror.) -/
theorem claim_C2_sync_idempotent (cfg : ProjectConfig) (up : Upstream)
    (promoted : List String) (s0 s1 : FsTree) (ch : Bool)
    (hnodup : (cfg.releases.map (fun rel => rel.name)).Nodup)
    (hcfg : ∀ rel ∈ cfg.releases, strStartsWith rel.name ".tmp-" = false)
    (hver : versionsOK promoted)
    (hup : upstreamOK cfg promoted up)
    (htidy : tidy cfg promoted s0)
    (h1 : ProjectFiles.sync cfg up promoted s0 = Except.ok (s1, ch)) :
    ProjectFiles.sync cfg up promoted s1 = Except.ok (s1, false) := by
  simp only [ProjectFiles.sync] at h1
  cases hA : ProjectFiles.syncVersionsGo cfg up promoted
      (s0.filter (fun p => !(strStartsWith p.1 ".tmp-"))) false with
  | error e =>
    rw [hA] at h1
    cases h1
  | ok prA =>
    obtain ⟨sV, ch1⟩ := prA
    simp only [hA] at h1
    cases hLat : ProjectFiles._set_latest_version_symlink cfg promoted sV with
    | error e =>
      rw [hLat] at h1
      cases h1
    | ok prL =>
      obtain ⟨sL, ch2⟩ := prL
      simp only [hLat] at h1
      cases hPr : ProjectFiles._remove_obsolete_releases cfg promoted sL with
      | error e =>
        rw [hPr] at h1
        cases h1
      | ok prP =>
        obtain ⟨s3, ch3⟩ := prP
        simp only [hPr] at h1
        obtain ⟨hs3, -⟩ := (Prod.mk.injEq _ _ _ _).mp (Except.ok.inj h1)
        subst hs3
        have htidyF : ∀ rel ∈ cfg.releases, ∀ v ∈ promoted, ∀ d,
            lookupT (s0.filter (fun p => !(strStartsWith p.1 ".tmp-"))) rel.name = some d →
            tidyAt rel.name v d := by
          intro rel hrel v hv d hd
          have hF : lookupT (s0.filter (fun p => !(strStartsWith p.1 ".tmp-"))) rel.name =
              if (!(strStartsWith rel.name ".tmp-")) = true then lookupT s0 rel.name
              else none :=
            lookupT_filter s0 (fun x => !(strStartsWith x ".tmp-")) rel.name
          rw [hF] at hd
          by_cases hp : (!(strStartsWith rel.name ".tmp-")) = true
          · rw [if_pos hp] at hd
            exact htidy rel hrel d hd v hv
          · rw [if_neg hp] at hd
            cases hd
        obtain ⟨vA, vC, vB, vD⟩ := syncVersionsGo_post cfg up promoted hver hup promoted
          (s0.filter (fun p => !(strStartsWith p.1 ".tmp-"))) false sV ch1 hA
          (fun v hv => hv) hver.1 htidyF
        rw [ProjectFiles._set_latest_version_symlink] at hLat
        have hLfacts : (∀ v ∈ promoted, ∀ rel ∈ cfg.releases, SyncedNice sL rel.name v) ∧
            (∀ p ∈ sL, p.1 ∈ sV.map Prod.fst) ∧
            (latestVersion promoted = none ∨ ∃ maxv, latestVersion promoted = some maxv ∧
              maxv ∈ promoted ∧ ∀ rel ∈ cfg.releases, lookupDT sL rel.name "latest" =
                some (FsEntry.symlink (versionDirName rel.name maxv))) := by
          cases hlv : latestVersion promoted with
          | none =>
            rw [hlv] at hLat
            obtain ⟨hseq, -⟩ := (Prod.mk.injEq _ _ _ _).mp (Except.ok.inj hLat)
            subst hseq
            exact ⟨fun v hv rel hrel => vA v hv rel hrel,
              fun p hp => List.mem_map_of_mem Prod.fst hp, Or.inl rfl⟩
          | some maxv =>
            simp only [hlv] at hLat
            obtain ⟨hall, htree, hnames⟩ :=
              setLatestGo_inv maxv cfg.releases sV false sL ch2 hLat hnodup
            refine ⟨?_, hnames, Or.inr ⟨maxv, rfl, (latestVersion_spec promoted maxv hlv).1,
              fun rel hrel => (hall rel hrel).1⟩⟩
            intro v hv rel hrel
            refine SyncedNice_transfer sV sL rel.name v ?_ ?_ ?_ (vA v hv rel hrel)
            · exact (hall rel hrel).2 _
                (fun hq => latest_ne_jsonFileName rel.name v hq.symm)
            · exact (hall rel hrel).2 _
                (fun hq => latest_ne_torrentFileName rel.name v hq.symm)
            · exact (hall rel hrel).2 _
                (fun hq => latest_ne_versionDirName rel.name v hq.symm)
        obtain ⟨hNiceL, hNamesL, hLatC⟩ := hLfacts
        rw [ProjectFiles._remove_obsolete_releases] at hPr
        obtain ⟨hPall, hPframe, hPnames⟩ :=
          removeObsoleteGo_inv promoted cfg.releases sL false s3 ch3 hPr hnodup
        have hNice1 : ∀ v ∈ promoted, ∀ rel ∈ cfg.releases, SyncedNice s3 rel.name v := by
          intro v hv rel hrel
          obtain ⟨dL, d1, bb, hdL, hprune, hd1⟩ := hPall rel hrel
          exact SyncedNice_prune sL s3 rel.name promoted v hv dL d1 bb hdL hd1 hprune
            (hNiceL v hv rel hrel)
        have hfilter : s3.filter (fun p => !(strStartsWith p.1 ".tmp-")) = s3 := by
          apply List.filter_eq_self.mpr
          intro p hp
          have h1n := hPnames p hp
          rcases List.mem_map.mp h1n with ⟨q, hq, hqp⟩
          have h2n := hNamesL q hq
          rcases List.mem_map.mp h2n with ⟨q2, hq2, hqp2⟩
          rcases vD q2 hq2 with h3n | ⟨rel, hrel, hreln⟩
          · rcases List.mem_map.mp h3n with ⟨q3, hq3, hqp3⟩
            have hpred := List.of_mem_filter hq3
            rw [← hqp, ← hqp2, ← hqp3]
            exact hpred
          · rw [← hqp, ← hqp2, ← hreln, hcfg rel hrel]
            rfl
        have hstep1 : ProjectFiles.syncVersionsGo cfg up promoted s3 false =
            Except.ok (s3, false) := by
          apply syncVersionsGo_noop
          intro v hv
          obtain ⟨promo, rs, hdl, -⟩ := hup v hv
          exact sync_version_noop cfg up s3 v promo hdl
            (fun rel hrel => isSynced_of_nice s3 rel.name v (hNice1 v hv rel hrel))
        have hstep2 : ProjectFiles._set_latest_version_symlink cfg promoted s3 =
            Except.ok (s3, false) := by
          rw [ProjectFiles._set_latest_version_symlink]
          cases hlv2 : latestVersion promoted with
          | none => rfl
          | some maxv2 =>
            rcases hLatC with hnone | ⟨maxv, hsome, hmax, hlatest⟩
            · rw [hnone] at hlv2
              cases hlv2
            · rw [hsome] at hlv2
              have hmm : maxv2 = maxv := (Option.some.inj hlv2).symm
              subst hmm
              apply setLatestGo_noop
              intro rel hrel
              obtain ⟨dL, d1, bb, hdL, hprune, hd1⟩ := hPall rel hrel
              have hlinkL : lookupD dL "latest" =
                  some (FsEntry.symlink (versionDirName rel.name maxv2)) := by
                have := hlatest rel hrel
                rw [lookupDT, hdL] at this
                exact this
              obtain ⟨r, -, -, -, fs, hdirL, -⟩ := hNiceL maxv2 hmax rel hrel
              have hdirL' : lookupD dL (versionDirName rel.name maxv2) =
                  some (FsEntry.dir fs) := by
                rw [lookupDT, hdL] at hdirL
                exact hdirL
              rw [pruneDirRun] at hprune
              have hkeepLink := pruneGo_keep_link _ _ _ _ _ _ _ hprune "latest"
                (versionDirName rel.name maxv2) fs hlinkL hdirL'
                (latest_mem_expectedDirNames rel.name promoted)
                (versionDir_mem_expectedDirNames rel.name maxv2 promoted hmax)
                (latest_ne_versionDirName rel.name maxv2)
              have hkeepDir := pruneGo_keep _ _ _ _ _ _ _ hprune
                (versionDirName rel.name maxv2) _ hdirL'
                (Or.inl ⟨⟨fs, rfl⟩,
                  versionDir_mem_expectedDirNames rel.name maxv2 promoted hmax⟩)
              exact setLatestForType_noop s3 rel.name maxv2 d1 fs hd1 hkeepLink hkeepDir
        have hstep3 : ProjectFiles._remove_obsolete_releases cfg promoted s3 =
            Except.ok (s3, false) := by
          rw [ProjectFiles._remove_obsolete_releases]
          apply removeObsoleteGo_noop
          intro rel hrel
          obtain ⟨dL, d1, bb, hdL, hprune, hd1⟩ := hPall rel hrel
          exact ⟨d1, hd1, pruneDirRun_idem rel.name promoted dL d1 bb hprune⟩
        simp only [ProjectFiles.sync, hfilter, hstep1, hstep2, hstep3, Bool.or_false]

/-- Counterexample to the unqualified C2 claim: with a directory squatting on
the torrent sidecar path `foo/foo-1.0.torrent`, the first pass silently loses
the torrent (`shutil.move` moves it *inside* the squatting directory, which
the pruner then deletes), so the version is incomplete again and the second
pass re-syncs: it mutates the mirror (the entry order changes) and reports
`true` to the timestamp notifier on both passes. -/
theorem claim_C2_sync_cex :
    ProjectFiles.sync exCfg exUp ["1.0"] exSquatTree = Except.ok (exSquatAfter, true) ∧
    ProjectFiles.sync exCfg exUp ["1.0"] exSquatAfter = Except.ok (exSquatAfter2, true) ∧
    ¬ exSquatAfter2 = exSquatAfter :=
  ⟨by decide, by decide, by decide⟩

/-- Witness for the amended C2 at a concrete instance: a first pass from the
empty mirror produces `exCleanTree` with change reported, and the second pass
returns it unchanged with `false`. -/
theorem claim_C2_sync_idempotent_witness :
    ProjectFiles.sync exCfg exUp ["1.0"] exCleanTree = Except.ok (exCleanTree, false) := by
  apply claim_C2_sync_idempotent exCfg exUp ["1.0"] [] exCleanTree true
  · decide
  · decide
  · exact ⟨by decide, by decide⟩
  · intro v hv
    have hv1 : v = "1.0" := by
      rcases List.mem_cons.mp hv with h | h
      · exact h
      · exact absurd h (List.not_mem_nil v)
    subst hv1
    refine ⟨[("foo", [("foo-1.0.json", FsEntry.file (some exRelease)),
                      ("foo-1.0", FsEntry.dir []),
                      ("foo-1.0.torrent", FsEntry.file none)])], [exRelease],
      by decide, by decide, by decide, by decide, ?_⟩
    intro r hr
    have hr1 : r = exRelease := by
      rcases List.mem_cons.mp hr with h | h
      · exact h
      · exact absurd h (List.not_mem_nil r)
    subst hr1
    refine ⟨by decide, ⟨{ name := "foo", create_torrent := true }, by decide, by decide⟩,
      by decide, by decide,
      [("foo-1.0.json", FsEntry.file (some exRelease)),
       ("foo-1.0", FsEntry.dir []),
       ("foo-1.0.torrent", FsEntry.file none)], by decide, by decide, ?_⟩
    intro tf htf
    have htf1 : tf = "foo-1.0.torrent" := by
      have h2 : (some "foo-1.0.torrent" : Option String) = some tf := htf
      exact (Option.some.inj h2).symm
    subst htf1
    exact ⟨none, by decide⟩
  · intro rel hrel d hd
    exact Option.noConfusion hd
  · decide
